import Mathlib

/-!
A shallow embedding of the LSM key/value engine of `lsm.c`

Byte strings are lists of natural numbers (one number per byte).  A C string
in memory is the run of bytes in front of the first NUL byte.  The engine
state is the `LSMTree` structure of the source together with the file system
it writes to and the progress messages it prints.

Conventions of the embedding.

* `KeyValuePair` has the two 50 byte fields of the source.  A string read at
  `&data[i].key` runs through the value field and the following array slots
  when the key field holds no NUL byte, exactly as the bytes lie in memory;
  it ends at the end of the initialised part of the array.
* `Memtable.data` lists the array slots that have been written so far, the
  first `size` of them are the live records.  A write at an index behind the
  written slots adds a slot; this is also what the model does for the write at
  `data[size]` with `size` at or over `capacity`, which in the C program lies
  outside the allocated array.
* `sstables` lists the `sstable_count` catalog entries, oldest first.
* The two `sprintf` formats `"%s/sstable_%ld.txt"` and
  `"%s/compacted_sstable_%ld.txt"` are the two constructors of `FileName`;
  the argument is the value returned by `time(NULL)`.
* The values returned by `time(NULL)` and the success of the two `fopen`
  calls that create files are inputs (`Env`).  Opening a file for reading
  fails exactly when the file does not exist, `remove` always succeeds, and
  allocation always succeeds.
* `qsort` is modelled by insertion sort; on records with pairwise distinct
  keys every sorting routine returns the same array.  `compare_keys` reads the
  two key strings within the 100 bytes of their records.
* `lsm_tree_get` returns a pointer (`Pointer`): `NULL`, the address of the
  value field of a record of the memtable, or the address of a token in the
  array `line` of the function, which is an automatic variable and no longer
  exists when the function has returned.  `found_string` is the string that
  stands at that address at the moment of the `return` statement.
* Of the output only the messages of `init_lsm_tree`, `lsm_tree_put`,
  `_flush_memtable` and `_compact_sstables` are modelled.
-/

namespace LSM

/-! ## Strings of the C library -/

/-- The C string stored at the start of a memory region: the bytes in front of
the first NUL byte. -/
def cstr (mem : List Nat) : List Nat :=
  mem.takeWhile (fun b => b != 0)

/-- Byte-wise comparison of two NUL-free byte strings, as `strcmp` does it:
the difference of the first pair of bytes that differ, the end of a string
counting as a NUL byte. -/
def strcmp_bytes : List Nat → List Nat → Int
  | [], [] => 0
  | [], b :: _ => - (b : Int)
  | a :: _, [] => (a : Int)
  | a :: as, b :: bs => if a = b then strcmp_bytes as bs else (a : Int) - (b : Int)

/-- The library function `strcmp` on the strings found at two addresses. -/
def strcmp (s1 s2 : List Nat) : Int :=
  strcmp_bytes (cstr s1) (cstr s2)

/-- The library function `strncpy`: the content of the `n` destination bytes
after `strncpy(dst, src, n)`.  At most `n` bytes of the source string are
copied and the remainder is filled with NUL bytes; when the source has `n` or
more bytes no NUL byte is written. -/
def strncpy (src : List Nat) (n : Nat) : List Nat :=
  (cstr src).take n ++ List.replicate (n - (cstr src).length) 0

/-- The library function `strtok` with the separator `":"`, applied to the
rest of the line that is still to be tokenised: the token (if any) and the
rest that the next call `strtok(NULL, ":")` continues with. -/
def strtok (s : List Nat) : Option (List Nat) × List Nat :=
  let s1 := s.dropWhile (fun b => b == 58)
  match s1 with
  | [] => (none, [])
  | _ :: _ => (some (s1.takeWhile (fun b => b != 58)), (s1.dropWhile (fun b => b != 58)).drop 1)

/-- The bytes that one call `fgets(line, n + 1, file)` stores in front of the
terminating NUL byte, and the unread rest of the file: at most `n` bytes are
read and reading stops behind a newline. -/
def fgets_chars : Nat → List Nat → List Nat × List Nat
  | 0, s => ([], s)
  | _ + 1, [] => ([], [])
  | n + 1, c :: s =>
    if c = 10 then ([c], s) else ((c :: (fgets_chars n s).1), (fgets_chars n s).2)

/-- The library function `fgets(line, size, file)`: `none` at the end of the
file, otherwise the bytes read and the unread rest. -/
def fgets (size : Nat) (stream : List Nat) : Option (List Nat × List Nat) :=
  match stream with
  | [] => none
  | _ :: _ => some (fgets_chars (size - 1) stream)

/-- The successive contents of `char line[200]` in the loop
`while (fgets(line, sizeof(line), file))`, with a bound on the number of
iterations. -/
def read_lines : Nat → List Nat → List (List Nat)
  | 0, _ => []
  | fuel + 1, stream =>
    match fgets 200 stream with
    | none => []
    | some (line, rest) => line :: read_lines fuel rest

/-- The successive contents of `line` over a whole file.  Every `fgets` call
consumes at least one byte, so the length of the file bounds the number of
iterations. -/
def file_lines (content : List Nat) : List (List Nat) :=
  read_lines content.length content

/-- The loop body shared by `lsm_tree_get` and `_compact_sstables`:
`line[strcspn(line, "\n")] = '\0'`, then `strtok(line, ":")` and
`strtok(NULL, ":")`. -/
def parse_line (line : List Nat) : Option (List Nat) × Option (List Nat) :=
  let line1 := (cstr line).takeWhile (fun b => b != 10)
  let key := strtok line1
  let value := strtok key.2
  (key.1, value.1)

/-! ## Data model -/

/-- The struct `KeyValuePair`: `char key[50]; char value[50];`. -/
structure KeyValuePair where
  key : List Nat
  value : List Nat
deriving DecidableEq

/-- The struct `Memtable`.  `data` holds the initialised slots of the array. -/
structure Memtable where
  data : List KeyValuePair
  size : Nat
  capacity : Nat
deriving DecidableEq

/-- The names built by `sprintf` in `_flush_memtable` and `_compact_sstables`. -/
inductive FileName where
  | sstable (t : Int)
  | compacted_sstable (t : Int)
deriving DecidableEq

/-- The struct `SSTable`. -/
structure SSTable where
  filename : FileName
deriving DecidableEq

/-- The struct `LSMTree`; `sstable_count` is the length of `sstables`. -/
structure LSMTree where
  memtable : Memtable
  sstables : List SSTable
  sstable_capacity : Nat
deriving DecidableEq

/-- The field `sstable_count`. -/
def LSMTree.sstable_count (tree : LSMTree) : Nat :=
  tree.sstables.length

/-- The files of the data directory: the content of each existing file. -/
abbrev FileSystem := FileName → Option (List Nat)

/-- The messages printed by `init_lsm_tree`, `lsm_tree_put`, `_flush_memtable`
and `_compact_sstables` (`printf` and `perror`). -/
inductive Event where
  | initializing
  | putting (key : List Nat)
  | flushing
  | flush_open_failed
  | flush_complete (name : FileName)
  | starting_compaction
  | reading_from (name : FileName)
  | compaction_open_failed (name : FileName)
  | compaction_create_failed
  | compaction_successful (name : FileName)
  | compaction_complete
deriving DecidableEq

/-- The engine together with the world it acts on. -/
structure State where
  tree : LSMTree
  fs : FileSystem
  out : List Event

/-- What the environment answers during one `lsm_tree_put`: the value of
`time(NULL)` and the success of `fopen(filename, "a")` in `_flush_memtable`,
the value of `time(NULL)` and the success of `fopen(new_filename, "w")` in
`_compact_sstables`. -/
structure Env where
  flush_time : Int
  flush_open : Bool
  compact_time : Int
  compact_open : Bool
deriving DecidableEq

/-! ## Memory reads -/

/-- The 100 bytes of a record. -/
def record_bytes (r : KeyValuePair) : List Nat :=
  r.key ++ r.value

/-- The string read at `data[i].key`. -/
def key_at (data : List KeyValuePair) (i : Nat) : List Nat :=
  cstr ((data.drop i).flatMap record_bytes)

/-- The string read at `data[i].value`. -/
def value_at (data : List KeyValuePair) (i : Nat) : List Nat :=
  match data.drop i with
  | [] => []
  | r :: rest => cstr (r.value ++ rest.flatMap record_bytes)

/-- The array after the assignment of a whole record to `data[i]`. -/
def store (data : List KeyValuePair) (i : Nat) (r : KeyValuePair) : List KeyValuePair :=
  if i < data.length then data.set i r else data ++ [r]

/-- The comparison function `compare_keys` handed to `qsort`, on the bytes of
the two records. -/
def compare_keys (a b : KeyValuePair) : Int :=
  strcmp (record_bytes a) (record_bytes b)

/-- The library function `qsort` with `compare_keys`. -/
def qsort (base : List KeyValuePair) : List KeyValuePair :=
  base.insertionSort (fun a b => compare_keys a b ≤ 0)

/-- The bytes written by the loop
`for (i = 0; i < n; i++) fprintf(file, "%s:%s\n", data[i].key, data[i].value)`. -/
def write_records (data : List KeyValuePair) (n : Nat) : List Nat :=
  (List.range n).flatMap (fun i => key_at data i ++ [58] ++ value_at data i ++ [10])

/-- The loop `for (i = 0; i < n; i++) if (strcmp(data[i].key, key) == 0) ... break`:
the index at which the loop stops. -/
def find_key (data : List KeyValuePair) (n : Nat) (key : List Nat) : Option Nat :=
  (List.range n).find? (fun i => strcmp (key_at data i) key == 0)

/-! ## Operations -/

/-- The function `init_lsm_tree`, in a data directory with the files `fs`. -/
def init_lsm_tree (fs : FileSystem) : State :=
  { tree := { memtable := { data := [], size := 0, capacity := 10 },
              sstables := [], sstable_capacity := 5 },
    fs := fs,
    out := [Event.initializing] }

/-- The body of `if (key && value) { ... }` in the compaction loop: the merge
buffer after the key has been looked up and its value overwritten or a new
entry appended. -/
def merge_entry (merged : List KeyValuePair) (key value : List Nat) : List KeyValuePair :=
  match find_key merged merged.length key with
  | some j =>
    match merged.get? j with
    | some r => merged.set j { r with value := strncpy value 50 }
    | none => merged
  | none => merged ++ [{ key := strncpy key 50, value := strncpy value 50 }]

/-- One line of the compaction loop: the merge buffer after the line has been
parsed and, when it has a key and a value, merged. -/
def merge_line (merged : List KeyValuePair) (line : List Nat) : List KeyValuePair :=
  match parse_line line with
  | (some key, some value) => merge_entry merged key value
  | _ => merged

/-- The first loop of `_compact_sstables`: the merge buffer after all
catalogued segments have been read, oldest first.  A segment that cannot be
opened is skipped. -/
def merge_sstables (fs : FileSystem) (sstables : List SSTable) : List KeyValuePair :=
  sstables.foldl
    (fun merged t =>
      match fs t.filename with
      | none => merged
      | some content => (file_lines content).foldl merge_line merged)
    []

/-- The messages of the first loop of `_compact_sstables`. -/
def merge_messages (fs : FileSystem) (sstables : List SSTable) : List Event :=
  sstables.flatMap (fun t =>
    match fs t.filename with
    | none => [Event.reading_from t.filename, Event.compaction_open_failed t.filename]
    | some _ => [Event.reading_from t.filename])

/-- The library function `remove`. -/
def remove (fs : FileSystem) (name : FileName) : FileSystem :=
  fun n => if n = name then none else fs n

/-- The content of the file system after a file has been written and closed. -/
def write_file (fs : FileSystem) (name : FileName) (content : List Nat) : FileSystem :=
  fun n => if n = name then some content else fs n

/-- The function `_compact_sstables`. -/
def _compact_sstables (s : State) (now : Int) (open_ok : Bool) : State :=
  let merged := qsort (merge_sstables s.fs s.tree.sstables)
  let out := s.out ++ [Event.starting_compaction] ++ merge_messages s.fs s.tree.sstables
  let new_filename := FileName.compacted_sstable now
  if open_ok then
    let fs1 := write_file s.fs new_filename (write_records merged merged.length)
    let fs2 := s.tree.sstables.foldl (fun fs t => remove fs t.filename) fs1
    { tree := { s.tree with sstables := [{ filename := new_filename }], sstable_capacity := 1 },
      fs := fs2,
      out := out ++ [Event.compaction_successful new_filename, Event.compaction_complete] }
  else
    { s with out := out ++ [Event.compaction_create_failed] }

/-- The function `_flush_memtable`. -/
def _flush_memtable (s : State) (env : Env) : State :=
  let m := s.tree.memtable
  if m.size = 0 then s
  else
    let filename := FileName.sstable env.flush_time
    let data := qsort (m.data.take m.size) ++ m.data.drop m.size
    if env.flush_open then
      let old := (s.fs filename).getD []
      let fs := write_file s.fs filename (old ++ write_records data m.size)
      let cap := if s.tree.sstable_count ≥ s.tree.sstable_capacity
                 then s.tree.sstable_capacity * 2 else s.tree.sstable_capacity
      let s1 : State :=
        { tree := { memtable := { m with data := data, size := 0 },
                    sstables := s.tree.sstables ++ [{ filename := filename }],
                    sstable_capacity := cap },
          fs := fs,
          out := s.out ++ [Event.flushing, Event.flush_complete filename] }
      if s1.tree.sstable_count ≥ 3 then
        _compact_sstables s1 env.compact_time env.compact_open
      else s1
    else
      { s with tree := { s.tree with memtable := { m with data := data } },
               out := s.out ++ [Event.flushing, Event.flush_open_failed] }

/-- The function `lsm_tree_put`. -/
def lsm_tree_put (s : State) (key value : List Nat) (env : Env) : State :=
  let s0 : State := { s with out := s.out ++ [Event.putting (cstr key)] }
  let m := s0.tree.memtable
  match find_key m.data m.size key with
  | some i =>
    match m.data.get? i with
    | some r =>
      { s0 with tree := { s0.tree with memtable :=
          { m with data := m.data.set i { r with value := strncpy value 50 } } } }
    | none => s0
  | none =>
    let s1 := if m.size ≥ m.capacity then _flush_memtable s0 env else s0
    let m1 := s1.tree.memtable
    { s1 with tree := { s1.tree with memtable :=
        { m1 with data := store m1.data m1.size
                    { key := strncpy key 50, value := strncpy value 50 },
                  size := m1.size + 1 } } }

/-- The inner loop of `lsm_tree_get` over the lines of one segment: `none`
when no line has the key, otherwise the `file_value` of the first line that
has it (which is `NULL` when the line has no second token). -/
def search_lines (key : List Nat) : List (List Nat) → Option (Option (List Nat))
  | [] => none
  | line :: rest =>
    match parse_line line with
    | (some file_key, file_value) =>
      if strcmp file_key key = 0 then some file_value else search_lines key rest
    | (none, _) => search_lines key rest

/-- The second loop of `lsm_tree_get`, over the catalog entries in the order
they are visited. -/
def search_sstables (fs : FileSystem) (key : List Nat) : List SSTable → Option (List Nat)
  | [] => none
  | t :: older =>
    match fs t.filename with
    | none => search_sstables fs key older
    | some content =>
      match search_lines key (file_lines content) with
      | some file_value => file_value
      | none => search_sstables fs key older

/-- The first loop of `lsm_tree_get`: the index of the record found. -/
def find_key_rev (data : List KeyValuePair) (n : Nat) (key : List Nat) : Option Nat :=
  (List.range n).reverse.find? (fun i => strcmp (key_at data i) key == 0)

/-- The values of type `const char *` that `lsm_tree_get` returns: `null` is
`NULL`; `memtable_value i` is `tree->memtable.data[i].value`, a pointer into
storage that lives as long as the tree; `dead_line` is `file_value` when it is
not `NULL`, a pointer into the array `line`, which is an automatic variable of
the body of the loop over the segments, so that its lifetime has ended when the
caller receives the pointer. -/
inductive Pointer where
  | null
  | memtable_value (i : Nat)
  | dead_line
deriving DecidableEq

/-- The function `lsm_tree_get`: the pointer returned. -/
def lsm_tree_get (s : State) (key : List Nat) : Pointer :=
  match find_key_rev s.tree.memtable.data s.tree.memtable.size key with
  | some i => Pointer.memtable_value i
  | none =>
    match search_sstables s.fs key s.tree.sstables.reverse with
    | some _ => Pointer.dead_line
    | none => Pointer.null

/-- The string that stands at the address `lsm_tree_get` returns, at the
moment of its `return` statement (`none` for `NULL`): the value field of the
record found in the memtable, or else the token `file_value` in the array
`line`. -/
def found_string (s : State) (key : List Nat) : Option (List Nat) :=
  match find_key_rev s.tree.memtable.data s.tree.memtable.size key with
  | some i => some (value_at s.tree.memtable.data i)
  | none => search_sstables s.fs key s.tree.sstables.reverse

/-- The string that the caller of `lsm_tree_get` can read at the pointer it
has received: there is one for a pointer into the memtable only. -/
def Pointer.string (s : State) : Pointer → Option (List Nat)
  | Pointer.memtable_value i => some (value_at s.tree.memtable.data i)
  | Pointer.null => none
  | Pointer.dead_line => none


/-! ## Vocabulary of the statements -/

/-- A key or a value that the line format of the segments carries unchanged:
not empty, shorter than its 50 byte field, and free of NUL, newline and `':'`. -/
def Valid (s : List Nat) : Prop :=
  s ≠ [] ∧ s.length < 50 ∧ ∀ b ∈ s, b ≠ 0 ∧ b ≠ 10 ∧ b ≠ 58

instance (s : List Nat) : Decidable (Valid s) := by
  unfold Valid; infer_instance

/-- Both fields of the record hold a NUL byte. -/
def Terminated (r : KeyValuePair) : Prop :=
  0 ∈ r.key ∧ 0 ∈ r.value

instance (r : KeyValuePair) : Decidable (Terminated r) := by
  unfold Terminated; infer_instance

/-- The key string and the value string held by a record. -/
def decode (r : KeyValuePair) : List Nat × List Nat :=
  (cstr r.key, cstr r.value)

/-- The line `key:value\n` of the segment format. -/
def line_of (p : List Nat × List Nat) : List Nat :=
  p.1 ++ [58] ++ p.2 ++ [10]

/-- The segment file made of the given lines. -/
def encode (l : List (List Nat × List Nat)) : List Nat :=
  l.flatMap line_of

/-- The live records of the memtable. -/
def live (m : Memtable) : List KeyValuePair :=
  m.data.take m.size

/-- The value of the first pair with the given key. -/
def lookup (k : List Nat) (l : List (List Nat × List Nat)) : Option (List Nat) :=
  (l.find? (fun p => p.1 == k)).map (fun p => p.2)

/-- A record whose fields hold terminated strings that the line format carries. -/
def WfRec (r : KeyValuePair) : Prop :=
  Terminated r ∧ Valid (cstr r.key) ∧ Valid (cstr r.value)

/-- The (key, value) pairs that the read loop of a segment hands on: one for
each line that has both tokens. -/
def file_entries (content : List Nat) : List (List Nat × List Nat) :=
  (file_lines content).filterMap (fun line =>
    match parse_line line with
    | (some key, some value) => some (key, value)
    | _ => none)

/-- The keys of a segment read back line by line. -/
def file_keys (content : List Nat) : List (List Nat) :=
  (file_lines content).filterMap (fun line => (parse_line line).1)

/-- All pairs read from the catalogued segments, oldest segment first; a
segment that cannot be opened contributes none. -/
def catalog_entries (fs : FileSystem) (sstables : List SSTable) : List (List Nat × List Nat) :=
  sstables.flatMap (fun t =>
    match fs t.filename with
    | none => []
    | some content => file_entries content)

/-- The (key, value) pairs held by the live records of the memtable. -/
def mem_pairs (m : Memtable) : List (List Nat × List Nat) :=
  (live m).map decode

/-- The memtable is well formed: the live records lie in the written part of
the array, hold strings the line format carries, and have distinct keys. -/
def MemOk (m : Memtable) : Prop :=
  m.size ≤ m.data.length ∧ (∀ r ∈ live m, WfRec r) ∧ ((mem_pairs m).map Prod.fst).Nodup

/-- The segment exists and is made of lines the format carries, with keys
that are distinct and ascending. -/
def SegOk (fs : FileSystem) (t : SSTable) : Prop :=
  ∃ l : List (List Nat × List Nat),
    fs t.filename = some (encode l) ∧ (∀ p ∈ l, Valid p.1 ∧ Valid p.2) ∧
    (l.map Prod.fst).Nodup ∧ (l.map Prod.fst).Pairwise (fun a b => strcmp a b ≤ 0)

/-- The engine states in which the memtable and all catalogued segments are
well formed. -/
def Inv (s : State) : Prop :=
  MemOk s.tree.memtable ∧ ∀ t ∈ s.tree.sstables, SegOk s.fs t

/-- The pairs of one catalogued segment, none when it cannot be opened. -/
def seg_pairs (fs : FileSystem) (t : SSTable) : List (List Nat × List Nat) :=
  match fs t.filename with
  | none => []
  | some content => file_entries content

/-- The value of the first list that has the key. -/
def first_of (k : List Nat) : List (List (List Nat × List Nat)) → Option (List Nat)
  | [] => none
  | l :: rest => (lookup k l).or (first_of k rest)

/-- The state of `_flush_memtable` behind the message `Flush complete`, when
the memtable is not empty and the segment file could be opened: the segment
is written and catalogued, the memtable is cleared, and the check of the
compaction threshold is still to come. -/
def flush_written (s : State) (env : Env) : State :=
  let m := s.tree.memtable
  let filename := FileName.sstable env.flush_time
  let data := qsort (m.data.take m.size) ++ m.data.drop m.size
  { tree := { memtable := { m with data := data, size := 0 },
              sstables := s.tree.sstables ++ [{ filename := filename }],
              sstable_capacity := if s.tree.sstable_count ≥ s.tree.sstable_capacity
                 then s.tree.sstable_capacity * 2 else s.tree.sstable_capacity },
    fs := write_file s.fs filename
            ((s.fs filename).getD [] ++ write_records data m.size),
    out := s.out ++ [Event.flushing, Event.flush_complete filename] }

/-- One call of `lsm_tree_put` together with the answers of the environment. -/
structure PutCall where
  key : List Nat
  value : List Nat
  env : Env
deriving DecidableEq

/-- The engine after a sequence of `lsm_tree_put` calls. -/
def run (s : State) : List PutCall → State
  | [] => s
  | c :: cs => run (lsm_tree_put s c.key c.value c.env) cs

/-- The call `lsm_tree_put(key, _)` reaches `_flush_memtable` with a memtable
that is not empty: the key is new and the memtable is at capacity. -/
def flush_due (s : State) (key : List Nat) : Prop :=
  find_key s.tree.memtable.data s.tree.memtable.size key = none ∧
  s.tree.memtable.size ≥ s.tree.memtable.capacity ∧ s.tree.memtable.size ≠ 0

instance (s : State) (key : List Nat) : Decidable (flush_due s key) := by
  unfold flush_due; infer_instance

/-- The file operations of one `_flush_memtable` succeed with names that are
not in use: the segment file can be opened and does not exist yet, and when
the flush brings the catalog to the compaction threshold the same holds for
the compacted file. -/
def FlushOk (s : State) (env : Env) : Prop :=
  env.flush_open = true ∧ s.fs (FileName.sstable env.flush_time) = none ∧
  (s.tree.sstable_count + 1 ≥ 3 →
    env.compact_open = true ∧ s.fs (FileName.compacted_sstable env.compact_time) = none)

instance (s : State) (env : Env) : Decidable (FlushOk s env) := by
  unfold FlushOk; infer_instance

/-- Every file operation of the call `lsm_tree_put(key, _)` succeeds and every
file created gets a name that is not in use. -/
def FilesOk (s : State) (key : List Nat) (env : Env) : Prop :=
  flush_due s key → FlushOk s env

instance (s : State) (key : List Nat) (env : Env) : Decidable (FilesOk s key env) := by
  unfold FilesOk; infer_instance

/-- The hypotheses on a sequence of calls: keys and values are carried by the
line format and the file operations of every call succeed with fresh names. -/
def GoodRun : State → List PutCall → Prop
  | _, [] => True
  | s, c :: cs =>
    Valid c.key ∧ Valid c.value ∧ FilesOk s c.key c.env ∧
    GoodRun (lsm_tree_put s c.key c.value c.env) cs

instance decidableGoodRun : (s : State) → (cs : List PutCall) → Decidable (GoodRun s cs)
  | _, [] => isTrue trivial
  | s, c :: cs =>
    have := decidableGoodRun (lsm_tree_put s c.key c.value c.env) cs
    by unfold GoodRun; infer_instance

/-- The value of the last call for the key in a sequence of calls. -/
def last_put (calls : List PutCall) (k : List Nat) : Option (List Nat) :=
  (calls.reverse.find? (fun c => c.key == k)).map (fun c => c.value)

/-- A file system without files. -/
def empty_fs : FileSystem :=
  fun _ => none

/-- The call `lsm_tree_put(key, value)` at time `t`, all file operations
succeeding. -/
def call_at (t : Int) (key value : List Nat) : PutCall :=
  { key := key, value := value,
    env := { flush_time := t, flush_open := true, compact_time := t, compact_open := true } }

/-- Twelve calls: eleven distinct keys at the times 1 and 2, so that the
eleventh call flushes the memtable, and a second value for the key `"a"`. -/
def sample_calls : List PutCall :=
  [call_at 1 [97] [49], call_at 1 [98] [50], call_at 1 [99] [51], call_at 1 [100] [52],
   call_at 1 [101] [53], call_at 1 [102] [54], call_at 1 [103] [55], call_at 1 [104] [56],
   call_at 1 [105] [57], call_at 1 [106] [49, 48], call_at 2 [107] [49, 49],
   call_at 2 [97] [49, 50]]

/-- The engine after `lsm_tree_put(key, value)` on a fresh engine followed by a
call of `_flush_memtable` at time 7 that succeeds in opening its file. -/
def round_trip_state (fs : FileSystem) (key value : List Nat) : State :=
  _flush_memtable (lsm_tree_put (init_lsm_tree fs) key value (call_at 7 key value).env)
    (call_at 7 key value).env

/-- Eleven calls with distinct one byte keys; the value of the first call holds
a newline: it is `"x\nz:c"`. -/
def newline_calls : List PutCall :=
  [call_at 1 [97] [120, 10, 122, 58, 99], call_at 1 [98] [49], call_at 1 [99] [49],
   call_at 1 [100] [49], call_at 1 [101] [49], call_at 1 [102] [49], call_at 1 [103] [49],
   call_at 1 [104] [49], call_at 1 [105] [49], call_at 1 [106] [49], call_at 1 [107] [49]]

/-- A C string that fits its 50 byte field with its terminator. -/
def Short (s : List Nat) : Prop :=
  s.length < 50 ∧ ∀ b ∈ s, b ≠ 0

instance (s : List Nat) : Decidable (Short s) := by
  unfold Short; infer_instance

/-- The (key, value) pair of a call. -/
def PutCall.pair (c : PutCall) : List Nat × List Nat :=
  (c.key, c.value)

/-- The record that `lsm_tree_put` appends for a call. -/
def PutCall.record (c : PutCall) : KeyValuePair :=
  { key := strncpy c.key 50, value := strncpy c.value 50 }

/-- Ten calls with the distinct keys `"a"` to `"j"`. -/
def ten_calls : List PutCall :=
  [call_at 1 [97] [49], call_at 1 [98] [50], call_at 1 [99] [51], call_at 1 [100] [52],
   call_at 1 [101] [53], call_at 1 [102] [54], call_at 1 [103] [55], call_at 1 [104] [56],
   call_at 1 [105] [57], call_at 1 [106] [49, 48]]

/-- The call `lsm_tree_put("k", "11")` at time 2 during which the segment file
cannot be opened. -/
def failing_call : PutCall :=
  { key := [107], value := [49, 49],
    env := { flush_time := 2, flush_open := false, compact_time := 2, compact_open := true } }

/-- Ten calls with pairwise distinct keys, the last two of 51 bytes: the tenth
key is the first 50 bytes of the ninth followed by the value of the ninth. -/
def long_key_calls : List PutCall :=
  [call_at 1 [97] [49], call_at 1 [98] [50], call_at 1 [99] [51], call_at 1 [100] [52],
   call_at 1 [101] [53], call_at 1 [102] [54], call_at 1 [103] [55], call_at 1 [104] [56],
   call_at 1 (List.replicate 50 97 ++ [120]) [118],
   call_at 1 (List.replicate 50 97 ++ [118]) [119]]

/-- Twenty-one calls with distinct keys at the times 1, 2 and 3: the engine
flushes twice and is left with two catalogued segments and one record in the
memtable. -/
def twenty_one_calls : List PutCall :=
  ten_calls ++
  [call_at 2 [107] [49], call_at 2 [108] [49], call_at 2 [109] [49], call_at 2 [110] [49],
   call_at 2 [111] [49], call_at 2 [112] [49], call_at 2 [113] [49], call_at 2 [114] [49],
   call_at 2 [115] [49], call_at 2 [116] [49], call_at 3 [117] [49]]

/-- The answers of the environment to a flush at time 4 whose segment file can
be opened while the compacted file cannot be created. -/
def compaction_fails : Env :=
  { flush_time := 4, flush_open := true, compact_time := 4, compact_open := false }

/-- Eleven calls at time 1 with distinct keys, the first of which is `":z"`. -/
def colon_key_calls : List PutCall :=
  [call_at 1 [58, 122] [49], call_at 1 [97] [49], call_at 1 [98] [49], call_at 1 [99] [49],
   call_at 1 [100] [49], call_at 1 [101] [49], call_at 1 [102] [49], call_at 1 [103] [49],
   call_at 1 [104] [49], call_at 1 [105] [49], call_at 1 [106] [49]]

/-- Twenty-one calls with the distinct keys `"u"` down to `"a"`, all of them
within the same second: both flushes build the same file name. -/
def same_second_calls : List PutCall :=
  [call_at 1 [117] [49], call_at 1 [116] [49], call_at 1 [115] [49], call_at 1 [114] [49],
   call_at 1 [113] [49], call_at 1 [112] [49], call_at 1 [111] [49], call_at 1 [110] [49],
   call_at 1 [109] [49], call_at 1 [108] [49], call_at 1 [107] [49], call_at 1 [106] [49],
   call_at 1 [105] [49], call_at 1 [104] [49], call_at 1 [103] [49], call_at 1 [102] [49],
   call_at 1 [101] [49], call_at 1 [100] [49], call_at 1 [99] [49], call_at 1 [98] [49],
   call_at 1 [97] [49]]

/-- The keys of the catalogued segment, read back line by line, are in
non-decreasing order under `strcmp` (nothing is read from a segment that
cannot be opened). -/
def segment_sorted (fs : FileSystem) (t : SSTable) : Prop :=
  match fs t.filename with
  | some content => (file_keys content).Pairwise (fun a b => strcmp a b ≤ 0)
  | none => True

instance (fs : FileSystem) (t : SSTable) : Decidable (segment_sorted fs t) := by
  unfold segment_sorted
  cases fs t.filename <;> infer_instance

/-- Fifty-one calls with distinct one byte keys, all of them within the same
second. -/
def same_second_51 : List PutCall :=
  (List.range 51).map (fun i => call_at 1 [97 + i] [49])

/-- An engine whose only catalogued segment holds two lines with keys of 51
bytes that differ in their last byte only, both with the value `"p"`. -/
def long_key_state : State :=
  { tree := { memtable := { data := [], size := 0, capacity := 10 },
              sstables := [{ filename := FileName.sstable 1 }], sstable_capacity := 5 },
    fs := write_file empty_fs (FileName.sstable 1)
            (line_of (List.replicate 50 97 ++ [120], [112])
              ++ line_of (List.replicate 50 97 ++ [121], [112])),
    out := [] }

/-- Specification of the lookup in the memtable, after the words of the spec:
the value of the most recently appended live record whose key equals the key
looked for, if the memtable holds the key. -/
def memtable_value (m : Memtable) (key : List Nat) : Option (List Nat) :=
  (((List.range m.size).filter (fun i => key_at m.data i = cstr key)).getLast?).map
    (value_at m.data)

/-- Specification of the lookup in one segment, after the words of the spec:
the value of the first line with an equal key, if the segment can be read and
has such a line; the value is `none` when that line has no value. -/
def segment_value (fs : FileSystem) (key : List Nat) (t : SSTable) :
    Option (Option (List Nat)) :=
  match fs t.filename with
  | none => none
  | some content =>
    (((file_lines content).map parse_line).find? (fun p => p.1 = some (cstr key))).map
      (fun p => p.2)

/-- Specification of `lsm_tree_get`, after the words of the spec: the value of
the memtable when the memtable holds the key; otherwise the value found in the
newest segment that has a line with the key; otherwise not found. -/
def get_by_lookup_order (s : State) (key : List Nat) : Option (List Nat) :=
  match memtable_value s.tree.memtable key with
  | some v => some v
  | none =>
    match s.tree.sstables.reverse.findSome? (segment_value s.fs key) with
    | some v => v
    | none => none

/-- Two calls `lsm_tree_put(K, "v")` with the same key `K` of 51 bytes `'a'`. -/
def duplicate_calls : List PutCall :=
  [call_at 1 (List.replicate 51 97) [118], call_at 1 (List.replicate 51 97) [118]]

/-- Eleven calls with distinct keys, the first of which has the empty key and
the value `"x:y"`. -/
def empty_key_calls : List PutCall :=
  [call_at 1 [] [120, 58, 121], call_at 1 [98] [49], call_at 1 [99] [49],
   call_at 1 [100] [49], call_at 1 [101] [49], call_at 1 [102] [49], call_at 1 [103] [49],
   call_at 1 [104] [49], call_at 1 [105] [49], call_at 1 [106] [49], call_at 1 [107] [49]]

/-- A data directory in which the file `sstable_1.txt` exists already, with the
line `zz:9`. -/
def used_fs : FileSystem :=
  write_file empty_fs (FileName.sstable 1) [122, 122, 58, 57, 10]

/-- One call `lsm_tree_put(K, W)` with a key `K` of 51 bytes (50 times `'a'`,
then `'b'`) and a value `W` of 50 bytes `'w'`. -/
def long_field_calls : List PutCall :=
  [call_at 1 (List.replicate 50 97 ++ [98]) (List.replicate 50 119)]

/-- The catalogued segment exists and is made of well-formed `key:value`
lines with pairwise distinct keys: the file is the sequence of the lines
`key:value\n` of the pairs read from it, keys and values are shorter than 50
bytes (the tokens read are never empty and hold no `':'` or newline), and no
two lines have the same key. -/
def WellFormedSegment (fs : FileSystem) (t : SSTable) : Prop :=
  match fs t.filename with
  | none => False
  | some content =>
    encode (file_entries content) = content ∧
    (∀ p ∈ file_entries content, Valid p.1 ∧ Valid p.2) ∧
    ((file_entries content).map Prod.fst).Nodup

instance (fs : FileSystem) (t : SSTable) : Decidable (WellFormedSegment fs t) := by
  unfold WellFormedSegment
  cases fs t.filename <;> infer_instance

/-- An engine with two catalogued segments: the file `compacted_sstable_1`
holds the line `a:1`, and the file `sstable_2` does not exist any more. -/
def unreadable_state : State :=
  { tree := { memtable := { data := [], size := 0, capacity := 10 },
              sstables := [{ filename := FileName.compacted_sstable 1 },
                           { filename := FileName.sstable 2 }],
              sstable_capacity := 5 },
    fs := write_file empty_fs (FileName.compacted_sstable 1) [97, 58, 49, 10],
    out := [] }

/-- An engine with two catalogued segments: the file `sstable_1` holds two
lines with keys of 51 bytes that differ in their last byte only, and the file
`sstable_2` does not exist any more. -/
def unreadable_long_state : State :=
  { long_key_state with
    tree := { long_key_state.tree with
      sstables := [{ filename := FileName.sstable 1 }, { filename := FileName.sstable 2 }] } }

/-- An engine reached by twenty-one calls whose older segment file
`sstable_2` has been deleted behind the back of the engine. -/
def deleted_segment_state : State :=
  { run (init_lsm_tree empty_fs) twenty_one_calls with
    fs := remove (run (init_lsm_tree empty_fs) twenty_one_calls).fs (FileName.sstable 2) }

/-- The catalog entries whose files can be opened for reading. -/
def readable (fs : FileSystem) (sstables : List SSTable) : List SSTable :=
  sstables.filter (fun t => (fs t.filename).isSome)

/-- A value that stays on its line and within its 50 byte field: shorter than
50 bytes and free of NUL and newline. -/
def OneLine (s : List Nat) : Prop :=
  s.length < 50 ∧ ∀ b ∈ s, b ≠ 0 ∧ b ≠ 10

instance (s : List Nat) : Decidable (OneLine s) := by
  unfold OneLine; infer_instance

/-- The segment file of a `_flush_memtable` can be opened and does not exist
yet, and when the flush brings the catalog to the compaction threshold and the
compacted file can be created, that file does not exist yet either. -/
def FreshFlush (s : State) (env : Env) : Prop :=
  env.flush_open = true ∧ s.fs (FileName.sstable env.flush_time) = none ∧
  (s.tree.sstable_count + 1 ≥ 3 → env.compact_open = true →
    s.fs (FileName.compacted_sstable env.compact_time) = none)

instance (s : State) (env : Env) : Decidable (FreshFlush s env) := by
  unfold FreshFlush; infer_instance

/-- The hypotheses on a sequence of calls under which the keys of the engine
are the keys that were put: every key is carried by the line format, every
value stays on its line and within its field, and every flush can open its
segment file and creates files under names that are not in use. -/
def LineRun : State → List PutCall → Prop
  | _, [] => True
  | s, c :: cs =>
    Valid c.key ∧ OneLine c.value ∧ (flush_due s c.key → FreshFlush s c.env) ∧
    LineRun (lsm_tree_put s c.key c.value c.env) cs

instance decidableLineRun : (s : State) → (cs : List PutCall) → Decidable (LineRun s cs)
  | _, [] => isTrue trivial
  | s, c :: cs =>
    have := decidableLineRun (lsm_tree_put s c.key c.value c.env) cs
    by unfold LineRun; infer_instance

/-- The live records of the memtable lie in the written part of the array and
hold terminated strings: a key out of `K` that the line format carries and a
value that stays on its line. -/
def KeyMem (K : List (List Nat)) (m : Memtable) : Prop :=
  m.size ≤ m.data.length ∧
  ∀ r ∈ live m, Terminated r ∧ Valid (cstr r.key) ∧ OneLine (cstr r.value) ∧ cstr r.key ∈ K

/-- The segment exists and is made of the lines `key:value\n` of pairs whose
keys are out of `K`, carried by the line format and in ascending order, and
whose values stay on their line. -/
def KeySeg (K : List (List Nat)) (fs : FileSystem) (t : SSTable) : Prop :=
  ∃ l : List (List Nat × List Nat),
    fs t.filename = some (encode l) ∧ (∀ p ∈ l, Valid p.1 ∧ OneLine p.2 ∧ p.1 ∈ K) ∧
    (l.map Prod.fst).Pairwise (fun a b => strcmp a b ≤ 0)

/-- The engine states in which the memtable and all catalogued segments hold
keys out of `K` only, the segments in ascending order. -/
def KeyInv (K : List (List Nat)) (s : State) : Prop :=
  KeyMem K s.tree.memtable ∧ ∀ t ∈ s.tree.sstables, KeySeg K s.fs t

/-- Eleven calls with distinct keys without `':'`; the key of the first call
holds a newline: it is `"a\nz"`. -/
def newline_key_calls : List PutCall :=
  [call_at 1 [97, 10, 122] [49], call_at 1 [98] [49], call_at 1 [99] [49],
   call_at 1 [100] [49], call_at 1 [101] [49], call_at 1 [102] [49], call_at 1 [103] [49],
   call_at 1 [104] [49], call_at 1 [105] [49], call_at 1 [106] [49], call_at 1 [107] [49]]

/-- Twelve calls with distinct keys; the values of the first two hold `':'`
and the value of the third is empty. -/
def colon_value_calls : List PutCall :=
  [call_at 1 [97] [49, 50, 58, 51, 48], call_at 1 [98] [58, 120], call_at 1 [99] [],
   call_at 1 [100] [52], call_at 1 [101] [53], call_at 1 [102] [54], call_at 1 [103] [55],
   call_at 1 [104] [56], call_at 1 [105] [57], call_at 1 [106] [49, 48],
   call_at 2 [107] [49, 49], call_at 2 [108] [49, 50]]

/-- Twelve calls with distinct keys without `':'`: the first key has 50 bytes
`'a'` and the value `":z"`, the second key has these 50 bytes and a `'9'`. -/
def long_key_colon_calls : List PutCall :=
  [call_at 1 (List.replicate 50 97) [58, 122], call_at 1 (List.replicate 50 97 ++ [57]) [49],
   call_at 1 [98] [50], call_at 1 [99] [51], call_at 1 [100] [52], call_at 1 [101] [53],
   call_at 1 [102] [54], call_at 1 [103] [55], call_at 1 [104] [56], call_at 1 [105] [57],
   call_at 1 [106] [49, 48], call_at 1 [107] [49, 48]]

end LSM

/-!
A shallow embedding of the graph utility of `csrf.c`

The variables of type `int` are integers.  An array is the list of its
elements; `rd` and `wr` are the read and the write of one element and give
`none` when the index lies outside the array.  A function of the program gives
`none` when one of its array accesses does, when the program stops with `BAIL`
or a failed `assert`, or when a loop has not ended within the number of
iterations that the model allows; the theorems show that the result is `some`.
The statement `CSR.E *= 2` for an undirected graph is a multiplication in the
type `int` (`stored_E`, `wrap_int`).  All other values that the modelled code
computes are bounded by `CSR.V + 1` and by `CSR.E`, which are values of type
`int`, so no other operation overflows.  `qsort` with
`icmp` is modelled by insertion sort; a sorted array of integers does not
depend on the sorting routine.
-/

namespace CSRF

/-! ## Arrays -/

/-- The read `a[i]`. -/
def rd (a : List Int) (i : Int) : Option Int :=
  if 0 ≤ i then a.get? i.toNat else none

/-- The array after the write `a[i] = x`. -/
def wr (a : List Int) (i : Int) (x : Int) : Option (List Int) :=
  if 0 ≤ i ∧ i.toNat < a.length then some (a.set i.toNat x) else none

/-- The values of a loop variable that runs from `first` to `last`, as in
`for (a = first; a <= last; a++)`. -/
def from_to (first last : Int) : List Int :=
  (List.range (last + 1 - first).toNat).map (fun (k : Nat) => first + (k : Int))

/-! ## Data model -/

/-- The global `CSR`: the numbers of vertices and edges, the offsets `N`
(`2 + V` elements) and the adjacencies `F` (`E` elements). -/
structure CSR where
  V : Int
  E : Int
  N : List Int
  F : List Int
deriving DecidableEq

/-! ## Construction of the CSR arrays in `main` -/

/-- The first pass of `main` over the edge list: every line increments `N[a]`,
and `N[b]` for an undirected graph; a vertex outside `1..V` ends the program. -/
def count_pass (is_undirected : Bool) (V : Int) : List (Int × Int) → List Int → Option (List Int)
  | [], N => some N
  | (a, b) :: rest, N =>
    if 0 ≥ a ∨ a > V ∨ 0 ≥ b ∨ b > V then none
    else
      match rd N a with
      | none => none
      | some x =>
        match wr N a (x + 1) with
        | none => none
        | some N1 =>
          if is_undirected then
            match rd N1 b with
            | none => none
            | some y =>
              match wr N1 b (y + 1) with
              | none => none
              | some N2 => count_pass is_undirected V rest N2
          else count_pass is_undirected V rest N1

/-- The loop `for (a = 1; a <= CSR.V; a++) { t += CSR.N[a]; CSR.N[a] = t; }`
over the remaining values of `a`: the final `t` and `N`. -/
def prefix_loop : List Int → Int → List Int → Option (Int × List Int)
  | [], t, N => some (t, N)
  | a :: rest, t, N =>
    match rd N a with
    | none => none
    | some x =>
      match wr N a (t + x) with
      | none => none
      | some N1 => prefix_loop rest (t + x) N1

/-- The cumulative sums of `main`: the loop, then `CSR.N[a] = t` with
`a = V + 1`. -/
def prefix_pass (V : Int) (N : List Int) : Option (List Int) :=
  match prefix_loop (from_to 1 V) 0 N with
  | none => none
  | some (t, N1) => wr N1 (V + 1) t

/-- The second pass of `main` over the edge list: `CSR.F[--CSR.N[a]] = b`, and
`CSR.F[--CSR.N[b]] = a` for an undirected graph. -/
def fill_pass (is_undirected : Bool) :
    List (Int × Int) → List Int → List Int → Option (List Int × List Int)
  | [], N, F => some (N, F)
  | (a, b) :: rest, N, F =>
    match rd N a with
    | none => none
    | some x =>
      match wr N a (x - 1) with
      | none => none
      | some N1 =>
        match wr F (x - 1) b with
        | none => none
        | some F1 =>
          if is_undirected then
            match rd N1 b with
            | none => none
            | some y =>
              match wr N1 b (y - 1) with
              | none => none
              | some N2 =>
                match wr F1 (y - 1) a with
                | none => none
                | some F2 => fill_pass is_undirected rest N2 F2
          else fill_pass is_undirected rest N1 F1

/-- The comparison function `icmp`. -/
def icmp (a b : Int) : Int :=
  a - b

/-- The array after `qsort(F + lo, hi - lo, sizeof *F, icmp)`. -/
def qsort_slice (F : List Int) (lo hi : Int) : Option (List Int) :=
  if 0 ≤ lo ∧ lo ≤ hi ∧ hi.toNat ≤ F.length then
    some (F.take lo.toNat
      ++ ((F.drop lo.toNat).take (hi - lo).toNat).insertionSort (fun x y => icmp x y ≤ 0)
      ++ F.drop hi.toNat)
  else none

/-- The loop `for (a = 1; a <= CSR.V; a++) qsort(CSR.F + CSR.N[a], ...)` over
the remaining values of `a`. -/
def sort_pass (N : List Int) : List Int → List Int → Option (List Int)
  | [], F => some F
  | a :: rest, F =>
    match rd N a, rd N (1 + a) with
    | some lo, some hi =>
      match qsort_slice F lo hi with
      | none => none
      | some F1 => sort_pass N rest F1
    | _, _ => none

/-- The part of `main` that builds the global `CSR` (from the two `calloc`
calls to the sorting of the adjacencies), for the values `V` and `E` that
`main` has stored in `CSR` and the pairs that `fscanf` reads from the edge list
file.  A negative `CSR.E` is converted by `(size_t)CSR.E` to a number of
elements that `calloc` cannot allocate, and the program ends. -/
def build_csr (is_undirected : Bool) (V E : Int) (edges : List (Int × Int)) : Option CSR :=
  if E < 0 then none
  else
    let N0 := List.replicate (2 + V).toNat (0 : Int)
    let F0 := List.replicate E.toNat (0 : Int)
    match count_pass is_undirected V edges N0 with
    | none => none
    | some N1 =>
      if (edges.length : Int) ≠ (if is_undirected then E / 2 else E) then none
      else
        match prefix_pass V N1 with
        | none => none
        | some N2 =>
          if rd N2 (1 + V) ≠ some E then none
          else
            match fill_pass is_undirected edges N2 F0 with
            | none => none
            | some (N3, F1) =>
              match sort_pass N3 (from_to 1 V) F1 with
              | none => none
              | some F2 => some { V := V, E := E, N := N3, F := F2 }

/-- The value that an operation on operands of type `int` with the
mathematical result `x` leaves in a variable of type `int` (32 bits, two's
complement).  When `x` is not a value of type `int` the operation overflows,
which the language leaves undefined; the model takes the value that the
hardware computes. -/
def wrap_int (x : Int) : Int :=
  (x + 2147483648) % 4294967296 - 2147483648

/-- The value of `CSR.E` after `CSR.E = s2i(...)` and
`if (is_undirected) CSR.E *= 2`, where `E` is the value that `s2i` has
returned. -/
def stored_E (is_undirected : Bool) (E : Int) : Int :=
  if is_undirected then wrap_int (E * 2) else E

/-- The part of `main` from the two calls of `s2i` to the sorting of the
adjacencies, for the values `V` and `E` of type `int` that `s2i` has returned
and the pairs that `fscanf` reads from the edge list file. -/
def main_csr (is_undirected : Bool) (V E : Int) (edges : List (Int × Int)) : Option CSR :=
  build_csr is_undirected V (stored_E is_undirected E) edges

/-! ## Adjacency lookup -/

/-- The loop of `has_edge` on the adjacencies that start at `F[begin]`, with a
bound on the number of iterations. -/
def has_edge_loop (F : List Int) (begin to_ : Int) : Nat → Int → Int → Option Int
  | 0, _, _ => none
  | fuel + 1, left, right =>
    if left ≤ right then
      match rd F (begin + (left + (right - left) / 2)) with
      | none => none
      | some x =>
        if x = to_ then some 1
        else if x < to_ then has_edge_loop F begin to_ fuel (left + (right - left) / 2 + 1) right
        else has_edge_loop F begin to_ fuel left (left + (right - left) / 2 - 1)
    else some 0

/-- The function `has_edge`.  The search interval shrinks with every
iteration, so its length bounds the number of iterations. -/
def has_edge (c : CSR) (from_ to_ : Int) : Option Int :=
  if from_ < 1 ∨ from_ > c.V ∨ to_ < 1 ∨ to_ > c.V then some 0
  else
    match rd c.N from_, rd c.N (from_ + 1) with
    | some b, some e => has_edge_loop c.F b to_ ((e - b).toNat + 1) 0 (e - b - 1)
    | _, _ => none

/-! ## Breadth-first search -/

/-- The local state of `bfs`: the array `dist` of the caller, the array
`queue` and the indices `front` and `rear`. -/
structure BfsState where
  dist : List Int
  queue : List Int
  front : Int
  rear : Int
deriving DecidableEq

/-- The loop `for (int *v = begin; v < end; v++)` of `bfs` for the vertex `u`,
over the remaining indices of `F`. -/
def bfs_scan (c : CSR) (u : Int) : List Int → BfsState → Option BfsState
  | [], st => some st
  | i :: rest, st =>
    match rd c.F i with
    | none => none
    | some v =>
      match rd st.dist v with
      | none => none
      | some dv =>
        if dv = -1 then
          match rd st.dist u with
          | none => none
          | some du =>
            match wr st.dist v (du + 1) with
            | none => none
            | some dist1 =>
              match wr st.queue st.rear v with
              | none => none
              | some queue1 =>
                bfs_scan c u rest
                  { st with dist := dist1, queue := queue1, rear := st.rear + 1 }
        else bfs_scan c u rest st

/-- The loop `while (front < rear)` of `bfs`, with a bound on the number of
iterations. -/
def bfs_loop (c : CSR) : Nat → BfsState → Option BfsState
  | 0, st => if st.front < st.rear then none else some st
  | fuel + 1, st =>
    if st.front < st.rear then
      match rd st.queue st.front with
      | none => none
      | some u =>
        match rd c.N u, rd c.N (u + 1) with
        | some b, some e =>
          match bfs_scan c u (from_to b (e - 1)) { st with front := st.front + 1 } with
          | none => none
          | some st1 => bfs_loop c fuel st1
        | _, _ => none
    else some st

/-- The loop `for (int i = 1; i <= CSR.V; i++) dist[i] = -1` over the
remaining values of `i`. -/
def clear_dist : List Int → List Int → Option (List Int)
  | [], dist => some dist
  | i :: rest, dist =>
    match wr dist i (-1) with
    | none => none
    | some dist1 => clear_dist rest dist1

/-- The function `bfs` up to the end of its loop: the final local state.  Every
iteration of the loop takes one vertex from the queue; the model allows `V`
iterations. -/
def bfs_run (c : CSR) (source : Int) (dist : List Int) : Option BfsState :=
  if source < 1 ∨ source > c.V then none
  else
    match clear_dist (from_to 1 c.V) dist with
    | none => none
    | some dist1 =>
      match wr dist1 source 0 with
      | none => none
      | some dist2 =>
        match wr (List.replicate c.V.toNat (0 : Int)) 0 source with
        | none => none
        | some queue =>
          bfs_loop c c.V.toNat { dist := dist2, queue := queue, front := 0, rear := 1 }

/-- The function `bfs`: the array `dist` when it returns. -/
def bfs (c : CSR) (source : Int) (dist : List Int) : Option (List Int) :=
  (bfs_run c source dist).map (fun st => st.dist)

/-! ## Vocabulary of the statements on graphs -/

/-- The offset `N[a]` (0 when `a` is not an index of `N`). -/
def offset (c : CSR) (a : Int) : Int :=
  (rd c.N a).getD 0

/-- The adjacency slice of the vertex `a`: the elements `F[N[a]]` up to, and
without, `F[N[a + 1]]`. -/
def slice (c : CSR) (a : Int) : List Int :=
  (c.F.drop (offset c a).toNat).take (offset c (a + 1) - offset c a).toNat

/-- The offsets are valid: `N` has `2 + V` elements, and for every vertex `a`
in `1..V` the offsets `N[a]` and `N[a + 1]` are in this order and delimit a
part of `F`. -/
def ValidOffsets (c : CSR) : Prop :=
  c.N.length = (2 + c.V).toNat ∧
  ∀ a ∈ from_to 1 c.V,
    0 ≤ offset c a ∧ offset c a ≤ offset c (a + 1) ∧ (offset c (a + 1)).toNat ≤ c.F.length

instance (c : CSR) : Decidable (ValidOffsets c) := by
  unfold ValidOffsets; infer_instance

/-- The adjacency slice of every vertex is sorted ascending. -/
def SortedSlices (c : CSR) : Prop :=
  ∀ a ∈ from_to 1 c.V, (slice c a).Pairwise (fun x y => x ≤ y)

instance (c : CSR) : Decidable (SortedSlices c) := by
  unfold SortedSlices; infer_instance


/-! ## An example graph -/

/-- The edge list of a directed graph with 5 vertices and 6 edges. -/
def sample_edges : List (Int × Int) :=
  [(1, 2), (2, 3), (2, 1), (3, 4), (2, 4), (1, 3)]

/-- The global `CSR` that `main` builds for `sample_edges`. -/
def sample_csr : CSR :=
  { V := 5, E := 6, N := [0, 0, 2, 5, 6, 6, 6], F := [2, 3, 1, 3, 4, 4] }


/-! ## Vocabulary of the statements on the construction -/

/-- The directed edges of the graph: the pairs of the edge list, and for an
undirected graph every pair is followed by its reverse. -/
def arcs (is_undirected : Bool) (edges : List (Int × Int)) : List (Int × Int) :=
  if is_undirected then edges.flatMap (fun e => [e, (e.2, e.1)]) else edges

/-- The targets `b` of the edges `(a, b)` of the list, in the order of the
list and with multiplicity. -/
def targets (es : List (Int × Int)) (a : Int) : List Int :=
  (es.filter (fun e => e.1 = a)).map (fun e => e.2)

/-- The number of edges of the list that leave the vertex `a`. -/
def deg (es : List (Int × Int)) (a : Int) : Int :=
  ((targets es a).length : Int)

/-- The number of edges of the list that leave a vertex up to `a`. -/
def cum (es : List (Int × Int)) (a : Int) : Int :=
  ((es.filter (fun e => e.1 ≤ a)).length : Int)

/-- The elements `F[lo]` up to, and without, `F[hi]`. -/
def seg (F : List Int) (lo hi : Int) : List Int :=
  (F.drop lo.toNat).take (hi - lo).toNat

/-- The edges of the list name vertices in `1..V`. -/
def ValidEdges (V : Int) (es : List (Int × Int)) : Prop :=
  ∀ e ∈ es, 1 ≤ e.1 ∧ e.1 ≤ V ∧ 1 ≤ e.2 ∧ e.2 ≤ V

instance (V : Int) (es : List (Int × Int)) : Decidable (ValidEdges V es) := by
  unfold ValidEdges; infer_instance


/-! ## Vocabulary of the statements on the search -/

/-- The graph is well formed: the offsets are valid and every entry of `F` is a
vertex in `1..V`. -/
def WellFormed (c : CSR) : Prop :=
  ValidOffsets c ∧ ∀ x ∈ c.F, 1 ≤ x ∧ x ≤ c.V

instance (c : CSR) : Decidable (WellFormed c) := by
  unfold WellFormed; infer_instance

/-- There is a directed path with `n` edges from `source` to `v`: each edge
leads from a vertex `u` in `1..V` to an element of the adjacency slice of
`u`. -/
def Reach (c : CSR) (source : Int) : Nat → Int → Prop
  | 0, v => v = source
  | n + 1, v => ∃ u ∈ from_to 1 c.V, Reach c source n u ∧ v ∈ slice c u

/-- The predicate `Reach` is decidable. -/
def decidableReach (c : CSR) (source : Int) : (n : Nat) → (v : Int) → Decidable (Reach c source n v)
  | 0, v => inferInstanceAs (Decidable (v = source))
  | n + 1, v =>
    have : ∀ u, Decidable (Reach c source n u) := decidableReach c source n
    inferInstanceAs (Decidable (∃ u ∈ from_to 1 c.V, Reach c source n u ∧ v ∈ slice c u))

instance (c : CSR) (source : Int) (n : Nat) (v : Int) : Decidable (Reach c source n v) :=
  decidableReach c source n v

/-- The value `dist[v]` (0 when `v` is not an index of `dist`). -/
def dv (dist : List Int) (v : Int) : Int :=
  (rd dist v).getD 0

/-- The vertices that `bfs` has put in the queue so far, in this order: the
elements `queue[0]` up to, and without, `queue[rear]`. -/
def queued (st : BfsState) : List Int :=
  st.queue.take st.rear.toNat

/-- The invariant of the two loops of `bfs`, where the adjacencies of the
first `p` vertices of the queue have been scanned: the indices are in range,
the queue holds distinct vertices, a vertex has a distance if and only if it is
in the queue, the distance of a vertex in the queue is the length of a path
from the source, the distances do not decrease along the queue, and every
neighbour of a scanned vertex has a distance, at most one more than that of the
vertex. -/
structure BfsInv (c : CSR) (source : Int) (st : BfsState) (p : Nat) : Prop where
  dist_len : (c.V + 1).toNat ≤ st.dist.length
  queue_len : st.queue.length = c.V.toNat
  front_nonneg : 0 ≤ st.front
  front_le : st.front ≤ st.rear
  rear_le : st.rear ≤ c.V
  nodup : (queued st).Nodup
  range : ∀ v ∈ queued st, 1 ≤ v ∧ v ≤ c.V
  marked : ∀ v, 1 ≤ v → v ≤ c.V → (dv st.dist v ≠ -1 ↔ v ∈ queued st)
  source_dist : dv st.dist source = 0
  sound : ∀ v ∈ queued st, 0 ≤ dv st.dist v ∧ Reach c source (dv st.dist v).toNat v
  sorted : (queued st).Pairwise (fun x y => dv st.dist x ≤ dv st.dist y)
  closed : ∀ u ∈ (queued st).take p, ∀ w ∈ slice c u,
    dv st.dist w ≠ -1 ∧ dv st.dist w ≤ dv st.dist u + 1

end CSRF

namespace LSM

/-! ## Lemmas on strings -/

theorem cstr_eq_self {s : List Nat} (h : ∀ b ∈ s, b ≠ 0) : cstr s = s := by
  unfold cstr
  rw [List.takeWhile_eq_self_iff]
  intro b hb
  simpa using h b hb

theorem cstr_append_zero {s : List Nat} (h : ∀ b ∈ s, b ≠ 0) (rest : List Nat) :
    cstr (s ++ 0 :: rest) = s := by
  induction s with
  | nil => simp [cstr]
  | cons a t ih =>
    have ha : a ≠ 0 := h a (List.mem_cons_self _ _)
    have ht : ∀ b ∈ t, b ≠ 0 := fun b hb => h b (List.mem_cons_of_mem _ hb)
    have := ih ht
    simp only [cstr] at this ⊢
    simp [List.takeWhile_cons, ha, this]

theorem cstr_no_zero (s : List Nat) : ∀ b ∈ cstr s, b ≠ 0 := by
  intro b hb
  have := List.mem_takeWhile_imp hb
  simpa using this

theorem cstr_idem (s : List Nat) : cstr (cstr s) = cstr s :=
  cstr_eq_self (cstr_no_zero s)

theorem cstr_append_of_mem {a : List Nat} (h : 0 ∈ a) (b : List Nat) :
    cstr (a ++ b) = cstr a := by
  induction a with
  | nil => simp at h
  | cons x t ih =>
    by_cases hx : x = 0
    · subst hx; simp [cstr]
    · have ht : 0 ∈ t := by
        rcases List.mem_cons.1 h with h0 | h0
        · exact absurd h0.symm hx
        · exact h0
      have := ih ht
      simp only [cstr] at this ⊢
      simp [List.takeWhile_cons, hx, this]

theorem strcmp_bytes_eq_zero {a b : List Nat} (ha : ∀ x ∈ a, x ≠ 0) (hb : ∀ x ∈ b, x ≠ 0) :
    strcmp_bytes a b = 0 ↔ a = b := by
  induction a generalizing b with
  | nil =>
    cases b with
    | nil => simp [strcmp_bytes]
    | cons y bs =>
      have := hb y (List.mem_cons_self _ _)
      simp [strcmp_bytes]; omega
  | cons x as ih =>
    cases b with
    | nil =>
      have := ha x (List.mem_cons_self _ _)
      simp [strcmp_bytes]; omega
    | cons y bs =>
      simp only [strcmp_bytes]
      by_cases hxy : x = y
      · subst hxy
        simp [ih (fun z hz => ha z (List.mem_cons_of_mem _ hz))
                 (fun z hz => hb z (List.mem_cons_of_mem _ hz))]
      · simp [hxy]; omega

theorem strcmp_eq_zero (a b : List Nat) : strcmp a b = 0 ↔ cstr a = cstr b :=
  strcmp_bytes_eq_zero (cstr_no_zero a) (cstr_no_zero b)

theorem strncpy_of_short {s : List Nat} {n : Nat} (h0 : ∀ b ∈ s, b ≠ 0) (hlen : s.length < n) :
    strncpy s n = s ++ 0 :: List.replicate (n - s.length - 1) 0 := by
  unfold strncpy
  rw [cstr_eq_self h0, List.take_of_length_le (Nat.le_of_lt hlen)]
  have : n - s.length = (n - s.length - 1) + 1 := by omega
  rw [this, List.replicate_succ]
  simp

theorem cstr_strncpy {s : List Nat} {n : Nat} (h0 : ∀ b ∈ s, b ≠ 0) (hlen : s.length < n)
    (rest : List Nat) : cstr (strncpy s n ++ rest) = s := by
  rw [strncpy_of_short h0 hlen, List.append_assoc, List.cons_append]
  exact cstr_append_zero h0 _

theorem zero_mem_strncpy {s : List Nat} {n : Nat} (hlen : (cstr s).length < n) :
    0 ∈ strncpy s n := by
  unfold strncpy
  apply List.mem_append_right
  rw [List.mem_replicate]
  omega


/-! ## Lemmas on records in memory -/

theorem key_at_eq {data : List KeyValuePair} {i : Nat} (hi : i < data.length)
    (h : 0 ∈ (data[i]).key) : key_at data i = cstr (data[i]).key := by
  unfold key_at
  rw [List.drop_eq_getElem_cons hi, List.flatMap_cons, record_bytes, List.append_assoc]
  exact cstr_append_of_mem h _

theorem value_at_eq {data : List KeyValuePair} {i : Nat} (hi : i < data.length)
    (h : 0 ∈ (data[i]).value) : value_at data i = cstr (data[i]).value := by
  unfold value_at
  rw [List.drop_eq_getElem_cons hi]
  exact cstr_append_of_mem h _

theorem getElem_take_mem {data : List KeyValuePair} {n i : Nat} (hi : i < n)
    (hl : i < data.length) : data[i] ∈ data.take n := by
  rw [List.mem_iff_getElem]
  refine ⟨i, by simp; omega, ?_⟩
  simp

theorem write_records_eq {data : List KeyValuePair} {n : Nat} (hn : n ≤ data.length)
    (h : ∀ r ∈ data.take n, Terminated r) :
    write_records data n = encode ((data.take n).map decode) := by
  induction n with
  | zero => simp [write_records, encode]
  | succ n ih =>
    have hlt : n < data.length := by omega
    have hn' : n ≤ data.length := by omega
    have hsub : ∀ r ∈ data.take n, Terminated r := by
      intro r hr
      apply h
      rw [List.take_succ]
      exact List.mem_append_left _ hr
    have hT : Terminated data[n] := h _ (getElem_take_mem (Nat.lt_succ_self n) hlt)
    have ih' := ih hn' hsub
    unfold write_records at ih' ⊢
    rw [List.range_succ, List.flatMap_append, ih']
    simp only [List.flatMap_cons, List.flatMap_nil, List.append_nil]
    rw [key_at_eq hlt hT.1, value_at_eq hlt hT.2]
    rw [List.take_succ, List.getElem?_eq_getElem hlt]
    simp only [encode, Option.toList, List.map_append, List.flatMap_append, List.map_cons,
      List.map_nil, List.flatMap_cons, List.flatMap_nil, List.append_nil, decode, line_of]

theorem find_key_some {data : List KeyValuePair} {n i : Nat} {key : List Nat}
    (h : find_key data n key = some i) : i < n ∧ key_at data i = cstr key := by
  unfold find_key at h
  have h1 := List.find?_some h
  have h2 := List.mem_of_find?_eq_some h
  simp only [beq_iff_eq, strcmp_eq_zero] at h1
  refine ⟨List.mem_range.1 h2, ?_⟩
  rw [← h1]
  unfold key_at
  rw [cstr_idem]

theorem find_key_none {data : List KeyValuePair} {n : Nat} {key : List Nat}
    (h : find_key data n key = none) : ∀ i, i < n → key_at data i ≠ cstr key := by
  unfold find_key at h
  rw [List.find?_eq_none] at h
  intro i hi heq
  have := h i (List.mem_range.2 hi)
  simp only [beq_iff_eq, strcmp_eq_zero] at this
  apply this
  rw [← heq]
  unfold key_at
  rw [cstr_idem]

theorem find_key_rev_some {data : List KeyValuePair} {n i : Nat} {key : List Nat}
    (h : find_key_rev data n key = some i) : i < n ∧ key_at data i = cstr key := by
  unfold find_key_rev at h
  have h1 := List.find?_some h
  have h2 := List.mem_of_find?_eq_some h
  simp only [beq_iff_eq, strcmp_eq_zero] at h1
  refine ⟨by simpa using h2, ?_⟩
  rw [← h1]
  unfold key_at
  rw [cstr_idem]

theorem find_key_rev_none {data : List KeyValuePair} {n : Nat} {key : List Nat}
    (h : find_key_rev data n key = none) : ∀ i, i < n → key_at data i ≠ cstr key := by
  unfold find_key_rev at h
  rw [List.find?_eq_none] at h
  intro i hi heq
  have := h i (by simpa using hi)
  simp only [beq_iff_eq, strcmp_eq_zero] at this
  apply this
  rw [← heq]
  unfold key_at
  rw [cstr_idem]


/-! ## Lemmas on the segment format -/

theorem takeWhile_append_stop {p : Nat → Bool} {a : List Nat} {x : Nat} (b : List Nat)
    (ha : ∀ y ∈ a, p y = true) (hx : p x = false) : (a ++ x :: b).takeWhile p = a := by
  induction a with
  | nil => simp [List.takeWhile_cons, hx]
  | cons y t ih =>
    have hy : p y = true := ha y (List.mem_cons_self _ _)
    simp [List.takeWhile_cons, hy, ih (fun z hz => ha z (List.mem_cons_of_mem _ hz))]

theorem dropWhile_append_stop {p : Nat → Bool} {a : List Nat} {x : Nat} (b : List Nat)
    (ha : ∀ y ∈ a, p y = true) (hx : p x = false) : (a ++ x :: b).dropWhile p = x :: b := by
  induction a with
  | nil => simp [List.dropWhile_cons, hx]
  | cons y t ih =>
    have hy : p y = true := ha y (List.mem_cons_self _ _)
    simp [List.dropWhile_cons, hy, ih (fun z hz => ha z (List.mem_cons_of_mem _ hz))]

theorem fgets_chars_line {pre : List Nat} (rest : List Nat) {n : Nat}
    (hpre : ∀ y ∈ pre, y ≠ 10) (hlen : pre.length < n) :
    fgets_chars n (pre ++ 10 :: rest) = (pre ++ [10], rest) := by
  induction pre generalizing n with
  | nil =>
    cases n with
    | zero => simp at hlen
    | succ n => simp [fgets_chars]
  | cons y t ih =>
    cases n with
    | zero => simp at hlen
    | succ n =>
      have hy : y ≠ 10 := hpre y (List.mem_cons_self _ _)
      have hlen' : t.length < n := by simpa using hlen
      have := ih (fun z hz => hpre z (List.mem_cons_of_mem _ hz)) hlen'
      simp [fgets_chars, hy, this]

theorem line_of_length (p : List Nat × List Nat) :
    (line_of p).length = p.1.length + p.2.length + 2 := by
  simp [line_of]; omega

theorem read_lines_encode {l : List (List Nat × List Nat)}
    (h : ∀ p ∈ l, Valid p.1 ∧ Valid p.2) (fuel : Nat) (hf : (encode l).length ≤ fuel) :
    read_lines fuel (encode l) = l.map line_of := by
  induction l generalizing fuel with
  | nil =>
    cases fuel with
    | zero => simp [read_lines]
    | succ f => simp [read_lines, encode, fgets]
  | cons p t ih =>
    obtain ⟨hk, hv⟩ := h p (List.mem_cons_self _ _)
    have ht : ∀ q ∈ t, Valid q.1 ∧ Valid q.2 := fun q hq => h q (List.mem_cons_of_mem _ hq)
    have henc : encode (p :: t) = (p.1 ++ [58] ++ p.2) ++ 10 :: encode t := by
      simp [encode, line_of]
    have hlen : (encode (p :: t)).length = (p.1 ++ [58] ++ p.2).length + 1 + (encode t).length := by
      rw [henc]; simp; omega
    cases fuel with
    | zero => rw [hlen] at hf; omega
    | succ f =>
      have hpre : ∀ y ∈ p.1 ++ [58] ++ p.2, y ≠ 10 := by
        intro y hy
        simp only [List.mem_append, List.mem_singleton] at hy
        rcases hy with (hy | hy) | hy
        · exact (hk.2.2 y hy).2.1
        · omega
        · exact (hv.2.2 y hy).2.1
      have hl : (p.1 ++ [58] ++ p.2).length < 199 := by
        have := hk.2.1; have := hv.2.1
        simp; omega
      have hne : ∃ c s, (p.1 ++ [58] ++ p.2) ++ 10 :: encode t = c :: s := by
        cases hp : p.1 with
        | nil => exact absurd hp hk.1
        | cons c s => exact ⟨c, s ++ [58] ++ p.2 ++ 10 :: encode t, by simp⟩
      obtain ⟨c, s, hcs⟩ := hne
      rw [henc, read_lines]
      have hfg : fgets 200 ((p.1 ++ [58] ++ p.2) ++ 10 :: encode t)
          = some ((p.1 ++ [58] ++ p.2) ++ [10], encode t) := by
        rw [hcs, fgets, ← hcs]
        simp only [Nat.add_one_sub_one]
        rw [fgets_chars_line _ hpre hl]
      rw [hfg]
      simp only [List.map_cons]
      rw [ih ht f (by rw [hlen] at hf; omega)]
      simp [line_of]

theorem file_lines_encode {l : List (List Nat × List Nat)}
    (h : ∀ p ∈ l, Valid p.1 ∧ Valid p.2) : file_lines (encode l) = l.map line_of :=
  read_lines_encode h _ (Nat.le_refl _)

theorem strtok_token {k : List Nat} (rest : List Nat) (hne : k ≠ [])
    (hk : ∀ y ∈ k, y ≠ 58) : strtok (k ++ 58 :: rest) = (some k, rest) := by
  obtain ⟨c, s, rfl⟩ := List.exists_cons_of_ne_nil hne
  have hc : c ≠ 58 := hk c (List.mem_cons_self _ _)
  have hp : ∀ y ∈ c :: s, (fun b : Nat => b != 58) y = true := by
    intro y hy; simpa using hk y hy
  have h1 : ((c :: s) ++ 58 :: rest).dropWhile (fun b => b == 58) = (c :: s) ++ 58 :: rest := by
    simp [List.dropWhile_cons, hc]
  unfold strtok
  simp only [h1]
  have h2 := takeWhile_append_stop (x := 58) rest hp (by simp)
  have h3 := dropWhile_append_stop (x := 58) rest hp (by simp)
  simp only [List.cons_append] at h2 h3 ⊢
  rw [h2, h3]
  simp

theorem strtok_last {k : List Nat} (hne : k ≠ []) (hk : ∀ y ∈ k, y ≠ 58) :
    (strtok k).1 = some k := by
  obtain ⟨c, s, rfl⟩ := List.exists_cons_of_ne_nil hne
  have hc : c ≠ 58 := hk c (List.mem_cons_self _ _)
  have h1 : (c :: s).dropWhile (fun b => b == 58) = c :: s := by
    simp [List.dropWhile_cons, hc]
  have h2 : (c :: s).takeWhile (fun b => b != 58) = c :: s := by
    rw [List.takeWhile_eq_self_iff]
    intro y hy; simpa using hk y hy
  unfold strtok
  simp only [h1, h2]

theorem parse_line_line_of {p : List Nat × List Nat} (hk : Valid p.1) (hv : Valid p.2) :
    parse_line (line_of p) = (some p.1, some p.2) := by
  have h0 : ∀ b ∈ line_of p, b ≠ 0 := by
    intro b hb
    simp only [line_of, List.mem_append, List.mem_singleton] at hb
    rcases hb with ((hb | hb) | hb) | hb
    · exact (hk.2.2 b hb).1
    · omega
    · exact (hv.2.2 b hb).1
    · omega
  have hpre : ∀ y ∈ p.1 ++ [58] ++ p.2, (fun b : Nat => b != 10) y = true := by
    intro y hy
    simp only [List.mem_append, List.mem_singleton] at hy
    rcases hy with (hy | hy) | hy
    · simpa using (hk.2.2 y hy).2.1
    · subst hy; simp
    · simpa using (hv.2.2 y hy).2.1
  have hcut : (line_of p).takeWhile (fun b => b != 10) = p.1 ++ 58 :: p.2 := by
    have := takeWhile_append_stop [] hpre (by simp : (fun b : Nat => b != 10) 10 = false)
    simpa [line_of] using this
  unfold parse_line
  simp only [cstr_eq_self h0, hcut]
  rw [strtok_token p.2 hk.1 (fun y hy => (hk.2.2 y hy).2.2)]
  simp only
  rw [strtok_last hv.1 (fun y hy => (hv.2.2 y hy).2.2)]


/-! ## Lemmas on association lists -/

theorem lookup_nil (k : List Nat) : lookup k [] = none := rfl

theorem lookup_cons (k : List Nat) (p : List Nat × List Nat) (l : List (List Nat × List Nat)) :
    lookup k (p :: l) = if p.1 = k then some p.2 else lookup k l := by
  unfold lookup
  by_cases h : p.1 = k
  · simp [List.find?_cons, h]
  · simp [List.find?_cons, h]

theorem lookup_eq_none_iff {k : List Nat} {l : List (List Nat × List Nat)} :
    lookup k l = none ↔ ∀ p ∈ l, p.1 ≠ k := by
  induction l with
  | nil => simp [lookup_nil]
  | cons p t ih =>
    rw [lookup_cons]
    by_cases h : p.1 = k
    · simp [h]
    · simp [h, ih]

theorem lookup_append (k : List Nat) (a b : List (List Nat × List Nat)) :
    lookup k (a ++ b) = (lookup k a).or (lookup k b) := by
  induction a with
  | nil => simp [lookup_nil]
  | cons p t ih =>
    rw [List.cons_append, lookup_cons, lookup_cons]
    by_cases h : p.1 = k
    · simp [h]
    · simp [h, ih]

theorem lookup_mem {k v : List Nat} {l : List (List Nat × List Nat)}
    (h : lookup k l = some v) : (k, v) ∈ l := by
  induction l with
  | nil => simp [lookup_nil] at h
  | cons p t ih =>
    rw [lookup_cons] at h
    by_cases hp : p.1 = k
    · simp only [hp, if_true, Option.some.injEq] at h
      have : p = (k, v) := by
        cases p; simp only at hp h; simp [hp, h]
      rw [this]; exact List.mem_cons_self _ _
    · simp only [hp, if_false] at h
      exact List.mem_cons_of_mem _ (ih h)

theorem lookup_of_mem {k v : List Nat} {l : List (List Nat × List Nat)}
    (hnd : (l.map Prod.fst).Nodup) (h : (k, v) ∈ l) : lookup k l = some v := by
  induction l with
  | nil => simp at h
  | cons p t ih =>
    rw [lookup_cons]
    simp only [List.map_cons, List.nodup_cons] at hnd
    rcases List.mem_cons.1 h with h1 | h1
    · subst h1; simp
    · have hk : k ∈ t.map Prod.fst := List.mem_map.2 ⟨(k, v), h1, rfl⟩
      have hne : p.1 ≠ k := by
        intro heq; rw [heq] at hnd; exact hnd.1 hk
      simp [hne, ih hnd.2 h1]

theorem lookup_perm {l l' : List (List Nat × List Nat)} (hp : l.Perm l')
    (hnd : (l.map Prod.fst).Nodup) (k : List Nat) : lookup k l = lookup k l' := by
  have hnd' : (l'.map Prod.fst).Nodup := (hp.map Prod.fst).nodup_iff.1 hnd
  cases h : lookup k l with
  | none =>
    symm
    rw [lookup_eq_none_iff] at h ⊢
    intro p hp'
    exact h p (hp.mem_iff.2 hp')
  | some v =>
    symm
    exact lookup_of_mem hnd' (hp.mem_iff.1 (lookup_mem h))

theorem lookup_reverse {l : List (List Nat × List Nat)}
    (hnd : (l.map Prod.fst).Nodup) (k : List Nat) : lookup k l.reverse = lookup k l :=
  (lookup_perm (List.reverse_perm l).symm hnd k).symm

theorem lookup_set {l : List (List Nat × List Nat)} {i : Nat} {k v : List Nat}
    (hnd : (l.map Prod.fst).Nodup) (hi : i < l.length) (hk : (l[i]).1 = k) (k' : List Nat) :
    lookup k' (l.set i (k, v)) = if k' = k then some v else lookup k' l := by
  induction l generalizing i with
  | nil => simp at hi
  | cons p t ih =>
    simp only [List.map_cons, List.nodup_cons] at hnd
    cases i with
    | zero =>
      simp only [List.getElem_cons_zero] at hk
      simp only [List.set_cons_zero, lookup_cons]
      by_cases h : k' = k
      · simp [h]
      · have h1 : ¬ k = k' := fun e => h e.symm
        have h2 : ¬ p.1 = k' := by rw [hk]; exact h1
        simp [h, h1, h2]
    | succ j =>
      simp only [List.getElem_cons_succ] at hk
      simp only [List.length_cons, Nat.add_lt_add_iff_right] at hi
      simp only [List.set_cons_succ, lookup_cons]
      have hmem : k ∈ t.map Prod.fst := by
        rw [← hk]; exact List.mem_map.2 ⟨t[j], List.getElem_mem _, rfl⟩
      have hpk : p.1 ≠ k := by
        intro e; rw [e] at hnd; exact hnd.1 hmem
      rw [ih hnd.2 hi hk]
      by_cases h : k' = k
      · subst h; simp [hpk]
      · simp [h]

theorem lookup_append_new {l : List (List Nat × List Nat)} {k v : List Nat}
    (hk : ∀ p ∈ l, p.1 ≠ k) (k' : List Nat) :
    lookup k' (l ++ [(k, v)]) = if k' = k then some v else lookup k' l := by
  rw [lookup_append, lookup_cons, lookup_nil]
  by_cases h : k' = k
  · subst h
    simp [lookup_eq_none_iff.2 hk]
  · have h1 : ¬ k = k' := fun e => h e.symm
    simp [h, h1]

theorem wfRec_mk {k v : List Nat} (hk : Valid k) (hv : Valid v) :
    WfRec { key := strncpy k 50, value := strncpy v 50 } := by
  have hk0 : ∀ b ∈ k, b ≠ 0 := fun b hb => (hk.2.2 b hb).1
  have hv0 : ∀ b ∈ v, b ≠ 0 := fun b hb => (hv.2.2 b hb).1
  have e1 : cstr (strncpy k 50) = k := by
    simpa using cstr_strncpy hk0 hk.2.1 []
  have e2 : cstr (strncpy v 50) = v := by
    simpa using cstr_strncpy hv0 hv.2.1 []
  refine ⟨⟨?_, ?_⟩, ?_, ?_⟩
  · exact zero_mem_strncpy (by rw [cstr_eq_self hk0]; exact hk.2.1)
  · exact zero_mem_strncpy (by rw [cstr_eq_self hv0]; exact hv.2.1)
  · simpa [e1] using hk
  · simpa [e2] using hv

theorem decode_mk {k v : List Nat} (hk : Valid k) (hv : Valid v) :
    decode { key := strncpy k 50, value := strncpy v 50 } = (k, v) := by
  have hk0 : ∀ b ∈ k, b ≠ 0 := fun b hb => (hk.2.2 b hb).1
  have hv0 : ∀ b ∈ v, b ≠ 0 := fun b hb => (hv.2.2 b hb).1
  have e1 : cstr (strncpy k 50) = k := by
    simpa using cstr_strncpy hk0 hk.2.1 []
  have e2 : cstr (strncpy v 50) = v := by
    simpa using cstr_strncpy hv0 hv.2.1 []
  simp [decode, e1, e2]

theorem valid_cstr {k : List Nat} (hk : Valid k) : cstr k = k :=
  cstr_eq_self (fun b hb => (hk.2.2 b hb).1)

/-- Overwriting the value field of one well-formed record. -/
theorem set_value_spec {l : List KeyValuePair} {i : Nat} (hi : i < l.length) {v : List Nat}
    (hv : Valid v) (hwf : ∀ r ∈ l, WfRec r) :
    (∀ r ∈ l.set i { l[i] with value := strncpy v 50 }, WfRec r) ∧
    (l.set i { l[i] with value := strncpy v 50 }).map decode
      = (l.map decode).set i (cstr (l[i]).key, v) := by
  have hv0 : ∀ b ∈ v, b ≠ 0 := fun b hb => (hv.2.2 b hb).1
  have e2 : cstr (strncpy v 50) = v := by
    simpa using cstr_strncpy hv0 hv.2.1 []
  have hri : WfRec l[i] := hwf _ (List.getElem_mem _)
  have hnew : WfRec { l[i] with value := strncpy v 50 } := by
    refine ⟨⟨hri.1.1, ?_⟩, hri.2.1, ?_⟩
    · exact zero_mem_strncpy (by rw [cstr_eq_self hv0]; exact hv.2.1)
    · simpa [e2] using hv
  constructor
  · intro r hr
    rcases List.mem_or_eq_of_mem_set hr with h | h
    · exact hwf r h
    · rw [h]; exact hnew
  · rw [List.map_set]
    simp [decode, e2]


/-! ## Lemmas on `lsm_tree_get` -/

theorem mem_take_getElem {data : List KeyValuePair} {n : Nat} {r : KeyValuePair}
    (h : r ∈ data.take n) : ∃ i, ∃ (_ : i < n) (hl : i < data.length), data[i] = r := by
  rw [List.mem_iff_getElem] at h
  obtain ⟨i, hi, he⟩ := h
  rw [List.length_take] at hi
  refine ⟨i, by omega, by omega, ?_⟩
  rw [← he, List.getElem_take]

theorem mem_lookup_spec {m : Memtable} (hm : MemOk m) (key : List Nat) :
    (find_key_rev m.data m.size key).map (value_at m.data) = lookup (cstr key) (mem_pairs m) := by
  obtain ⟨hsz, hwf, hnd⟩ := hm
  cases h : find_key_rev m.data m.size key with
  | some i =>
    obtain ⟨hi, hk⟩ := find_key_rev_some h
    have hl : i < m.data.length := by omega
    have hmem : m.data[i] ∈ live m := getElem_take_mem hi hl
    have hr := hwf _ hmem
    rw [key_at_eq hl hr.1.1] at hk
    simp only [Option.map_some']
    rw [value_at_eq hl hr.1.2]
    symm
    apply lookup_of_mem hnd
    rw [← hk]
    exact List.mem_map.2 ⟨_, hmem, rfl⟩
  | none =>
    have hn := find_key_rev_none h
    simp only [Option.map_none']
    symm
    rw [lookup_eq_none_iff]
    intro p hp
    obtain ⟨r, hr, rfl⟩ := List.mem_map.1 hp
    obtain ⟨i, hi, hl, rfl⟩ := mem_take_getElem hr
    have hw := hwf _ hr
    have := hn i hi
    rw [key_at_eq hl hw.1.1] at this
    exact this

theorem find_key_spec {m : Memtable} (hm : MemOk m) (key : List Nat) :
    (find_key m.data m.size key = none ↔ ∀ p ∈ mem_pairs m, p.1 ≠ cstr key) := by
  obtain ⟨hsz, hwf, hnd⟩ := hm
  constructor
  · intro h p hp
    have hn := find_key_none h
    obtain ⟨r, hr, rfl⟩ := List.mem_map.1 hp
    obtain ⟨i, hi, hl, rfl⟩ := mem_take_getElem hr
    have hw := hwf _ hr
    have := hn i hi
    rw [key_at_eq hl hw.1.1] at this
    exact this
  · intro h
    cases hf : find_key m.data m.size key with
    | none => rfl
    | some i =>
      exfalso
      obtain ⟨hi, hk⟩ := find_key_some hf
      have hl : i < m.data.length := by omega
      have hmem : m.data[i] ∈ live m := getElem_take_mem hi hl
      have hr := hwf _ hmem
      rw [key_at_eq hl hr.1.1] at hk
      exact h _ (List.mem_map.2 ⟨_, hmem, rfl⟩) hk

theorem search_lines_encode {l : List (List Nat × List Nat)}
    (h : ∀ p ∈ l, Valid p.1 ∧ Valid p.2) (key : List Nat) :
    search_lines key (l.map line_of) = (lookup (cstr key) l).map some := by
  induction l with
  | nil => simp [search_lines, lookup_nil]
  | cons p t ih =>
    obtain ⟨hk, hv⟩ := h p (List.mem_cons_self _ _)
    have ht : ∀ q ∈ t, Valid q.1 ∧ Valid q.2 := fun q hq => h q (List.mem_cons_of_mem _ hq)
    simp only [List.map_cons, search_lines, parse_line_line_of hk hv]
    rw [lookup_cons, ih ht]
    have hiff : strcmp p.1 key = 0 ↔ p.1 = cstr key := by
      rw [strcmp_eq_zero, valid_cstr hk]
    by_cases e : p.1 = cstr key
    · rw [if_pos (hiff.2 e), if_pos e]; rfl
    · have : ¬ strcmp p.1 key = 0 := fun h0 => e (hiff.1 h0)
      rw [if_neg this, if_neg e]

theorem file_entries_encode {l : List (List Nat × List Nat)}
    (h : ∀ p ∈ l, Valid p.1 ∧ Valid p.2) : file_entries (encode l) = l := by
  unfold file_entries
  rw [file_lines_encode h]
  induction l with
  | nil => simp
  | cons p t ih =>
    obtain ⟨hk, hv⟩ := h p (List.mem_cons_self _ _)
    have ht : ∀ q ∈ t, Valid q.1 ∧ Valid q.2 := fun q hq => h q (List.mem_cons_of_mem _ hq)
    simp only [List.map_cons, List.filterMap_cons, parse_line_line_of hk hv]
    rw [ih ht]

theorem file_keys_encode {l : List (List Nat × List Nat)}
    (h : ∀ p ∈ l, Valid p.1 ∧ Valid p.2) : file_keys (encode l) = l.map Prod.fst := by
  unfold file_keys
  rw [file_lines_encode h]
  induction l with
  | nil => simp
  | cons p t ih =>
    obtain ⟨hk, hv⟩ := h p (List.mem_cons_self _ _)
    have ht : ∀ q ∈ t, Valid q.1 ∧ Valid q.2 := fun q hq => h q (List.mem_cons_of_mem _ hq)
    simp only [List.map_cons, List.filterMap_cons, parse_line_line_of hk hv]
    rw [ih ht]

theorem search_sstables_spec {fs : FileSystem} {ts : List SSTable}
    (h : ∀ t ∈ ts, SegOk fs t) (key : List Nat) :
    search_sstables fs key ts = first_of (cstr key) (ts.map (seg_pairs fs)) := by
  induction ts with
  | nil => simp [search_sstables, first_of]
  | cons t rest ih =>
    obtain ⟨l, hfs, hv, _, _⟩ := h t (List.mem_cons_self _ _)
    have hr : ∀ q ∈ rest, SegOk fs q := fun q hq => h q (List.mem_cons_of_mem _ hq)
    simp only [search_sstables, hfs, List.map_cons, first_of, seg_pairs]
    rw [file_lines_encode hv, search_lines_encode hv, file_entries_encode hv, ih hr]
    cases lookup (cstr key) l <;> simp [seg_pairs]

theorem get_spec {s : State} (h : Inv s) (key : List Nat) :
    found_string s key =
      (lookup (cstr key) (mem_pairs s.tree.memtable)).or
        (first_of (cstr key) (s.tree.sstables.reverse.map (seg_pairs s.fs))) := by
  have h1 := mem_lookup_spec h.1 key
  have h2 : ∀ t ∈ s.tree.sstables.reverse, SegOk s.fs t :=
    fun t ht => h.2 t (List.mem_reverse.1 ht)
  unfold found_string
  rw [← h1, ← search_sstables_spec h2]
  cases find_key_rev s.tree.memtable.data s.tree.memtable.size key <;> simp


/-! ## Lemmas on sorting -/

theorem strcmp_bytes_total (a b : List Nat) : strcmp_bytes b a = - strcmp_bytes a b := by
  induction a generalizing b with
  | nil =>
    cases b with
    | nil => simp [strcmp_bytes]
    | cons y bs => simp [strcmp_bytes]
  | cons x as ih =>
    cases b with
    | nil => simp [strcmp_bytes]
    | cons y bs =>
      simp only [strcmp_bytes]
      by_cases h : x = y
      · subst h; simp [ih]
      · have h' : ¬ y = x := fun e => h e.symm
        simp [h, h']

theorem strcmp_bytes_trans {a b c : List Nat} (ha : ∀ x ∈ a, x ≠ 0) (hb : ∀ x ∈ b, x ≠ 0)
    (hc : ∀ x ∈ c, x ≠ 0) (hab : strcmp_bytes a b ≤ 0) (hbc : strcmp_bytes b c ≤ 0) :
    strcmp_bytes a c ≤ 0 := by
  induction a generalizing b c with
  | nil =>
    cases c with
    | nil => simp [strcmp_bytes]
    | cons z cs => simp [strcmp_bytes]
  | cons x as ih =>
    have hx : x ≠ 0 := ha x (List.mem_cons_self _ _)
    cases b with
    | nil => simp [strcmp_bytes] at hab; omega
    | cons y bs =>
      have hy : y ≠ 0 := hb y (List.mem_cons_self _ _)
      cases c with
      | nil => simp [strcmp_bytes] at hbc; omega
      | cons z cs =>
        simp only [strcmp_bytes] at hab hbc ⊢
        by_cases hxy : x = y
        · subst hxy
          simp only [if_true] at hab
          by_cases hxz : x = z
          · subst hxz
            simp only [if_true] at hbc ⊢
            exact ih (fun w hw => ha w (List.mem_cons_of_mem _ hw))
              (fun w hw => hb w (List.mem_cons_of_mem _ hw))
              (fun w hw => hc w (List.mem_cons_of_mem _ hw)) hab hbc
          · simp only [hxz, if_false] at hbc ⊢
            exact hbc
        · simp only [hxy, if_false] at hab
          by_cases hyz : y = z
          · subst hyz
            simp only [hxy, if_false]
            exact hab
          · simp only [hyz, if_false] at hbc
            have hxz : x ≠ z := by omega
            simp only [hxz, if_false]
            omega

theorem compare_keys_total : IsTotal KeyValuePair (fun a b => compare_keys a b ≤ 0) where
  total a b := by
    unfold compare_keys strcmp
    rw [strcmp_bytes_total (cstr (record_bytes a)) (cstr (record_bytes b))]
    omega

theorem compare_keys_trans : IsTrans KeyValuePair (fun a b => compare_keys a b ≤ 0) where
  trans a b c hab hbc := by
    unfold compare_keys strcmp at *
    exact strcmp_bytes_trans (cstr_no_zero _) (cstr_no_zero _) (cstr_no_zero _) hab hbc

theorem qsort_perm (l : List KeyValuePair) : (qsort l).Perm l :=
  List.perm_insertionSort _ l

theorem compare_keys_eq {a b : KeyValuePair} (ha : 0 ∈ a.key) (hb : 0 ∈ b.key) :
    compare_keys a b = strcmp (cstr a.key) (cstr b.key) := by
  unfold compare_keys strcmp record_bytes
  rw [cstr_append_of_mem ha, cstr_append_of_mem hb, cstr_idem, cstr_idem]

theorem qsort_sorted {l : List KeyValuePair} (h : ∀ r ∈ l, Terminated r) :
    ((qsort l).map (fun r => cstr r.key)).Pairwise (fun a b => strcmp a b ≤ 0) := by
  have hs : (qsort l).Sorted (fun a b => compare_keys a b ≤ 0) :=
    @List.sorted_insertionSort _ _ _ compare_keys_total compare_keys_trans l
  rw [List.pairwise_map]
  refine List.Pairwise.imp_of_mem ?_ hs
  intro a b ha hb hab
  have hta := h a ((qsort_perm l).mem_iff.1 ha)
  have htb := h b ((qsort_perm l).mem_iff.1 hb)
  rw [compare_keys_eq hta.1 htb.1] at hab
  exact hab

theorem qsort_wf {l : List KeyValuePair} (h : ∀ r ∈ l, WfRec r) : ∀ r ∈ qsort l, WfRec r :=
  fun r hr => h r ((qsort_perm l).mem_iff.1 hr)

theorem qsort_pairs_perm (l : List KeyValuePair) :
    ((qsort l).map decode).Perm (l.map decode) :=
  (qsort_perm l).map decode

theorem qsort_length (l : List KeyValuePair) : (qsort l).length = l.length :=
  (qsort_perm l).length_eq


/-! ## Lemmas on `_flush_memtable` -/

theorem flush_eq {s : State} {env : Env} (hsz : s.tree.memtable.size ≠ 0)
    (ho : env.flush_open = true) :
    _flush_memtable s env =
      if (flush_written s env).tree.sstable_count ≥ 3 then
        _compact_sstables (flush_written s env) env.compact_time env.compact_open
      else flush_written s env := by
  simp only [_flush_memtable, hsz, ho, if_true, if_false, flush_written]

theorem seg_pairs_write_file {fs : FileSystem} {n : FileName} {c : List Nat} {t : SSTable}
    (h : t.filename ≠ n) : seg_pairs (write_file fs n c) t = seg_pairs fs t := by
  simp [seg_pairs, write_file, h]

theorem segOk_write_file {fs : FileSystem} {n : FileName} {c : List Nat} {t : SSTable}
    (h : t.filename ≠ n) (hs : SegOk fs t) : SegOk (write_file fs n c) t := by
  obtain ⟨l, h1, h2⟩ := hs
  exact ⟨l, by simp [write_file, h, h1], h2⟩

theorem segOk_ne_of_none {fs : FileSystem} {n : FileName} {t : SSTable}
    (hs : SegOk fs t) (hn : fs n = none) : t.filename ≠ n := by
  obtain ⟨l, h1, _⟩ := hs
  intro e
  rw [e, hn] at h1
  cases h1

theorem take_sorted_live (m : Memtable) (h : m.size ≤ m.data.length) :
    (qsort (m.data.take m.size) ++ m.data.drop m.size).take m.size = qsort (live m) := by
  have hl : (qsort (m.data.take m.size)).length = m.size := by
    rw [qsort_length, List.length_take]; omega
  rw [List.take_append_of_le_length (by omega), List.take_of_length_le (by omega)]
  rfl

theorem flush_segment {s : State} (env : Env) (h : Inv s)
    (hfresh : s.fs (FileName.sstable env.flush_time) = none) :
    (flush_written s env).fs (FileName.sstable env.flush_time)
      = some (encode ((qsort (live s.tree.memtable)).map decode)) := by
  obtain ⟨⟨hsz, hwf, hnd⟩, hseg⟩ := h
  have hlen : s.tree.memtable.size ≤
      (qsort (s.tree.memtable.data.take s.tree.memtable.size)
        ++ s.tree.memtable.data.drop s.tree.memtable.size).length := by
    rw [List.length_append, qsort_length, List.length_take, List.length_drop]; omega
  have hterm : ∀ r ∈ (qsort (s.tree.memtable.data.take s.tree.memtable.size)
        ++ s.tree.memtable.data.drop s.tree.memtable.size).take s.tree.memtable.size,
      Terminated r := by
    rw [take_sorted_live _ hsz]
    intro r hr
    exact (qsort_wf hwf r hr).1
  simp only [flush_written, write_file, if_true, hfresh, Option.getD_none, List.nil_append]
  rw [write_records_eq hlen hterm, take_sorted_live _ hsz]

theorem sorted_pairs_ok {l : List KeyValuePair} (hwf : ∀ r ∈ l, WfRec r)
    (hnd : ((l.map decode).map Prod.fst).Nodup) :
    (∀ p ∈ (qsort l).map decode, Valid p.1 ∧ Valid p.2) ∧
    (((qsort l).map decode).map Prod.fst).Nodup ∧
    (((qsort l).map decode).map Prod.fst).Pairwise (fun a b => strcmp a b ≤ 0) := by
  refine ⟨?_, ?_, ?_⟩
  · intro p hp
    obtain ⟨r, hr, rfl⟩ := List.mem_map.1 hp
    have := qsort_wf hwf r hr
    exact ⟨this.2.1, this.2.2⟩
  · exact (((qsort_pairs_perm l).map Prod.fst).nodup_iff).2 hnd
  · have := qsort_sorted (fun r hr => (hwf r hr).1)
    simpa [List.map_map, decode, Function.comp_def] using this

theorem flush_written_inv {s : State} (env : Env) (h : Inv s)
    (hfresh : s.fs (FileName.sstable env.flush_time) = none) :
    Inv (flush_written s env) := by
  have hseg := flush_segment env h hfresh
  obtain ⟨⟨hsz, hwf, hnd⟩, hsegs⟩ := h
  constructor
  · refine ⟨by simp [flush_written], ?_, ?_⟩
    · intro r hr
      simp [flush_written, live] at hr
    · simp [flush_written, mem_pairs, live]
  · intro t ht
    have ht' : t ∈ s.tree.sstables ++ [{ filename := FileName.sstable env.flush_time }] := ht
    rcases List.mem_append.1 ht' with h1 | h1
    · have hne := segOk_ne_of_none (hsegs t h1) hfresh
      exact segOk_write_file hne (hsegs t h1)
    · rw [List.mem_singleton] at h1
      subst h1
      obtain ⟨a, b, c⟩ := sorted_pairs_ok hwf hnd
      exact ⟨_, hseg, a, b, c⟩

theorem flush_written_get {s : State} (env : Env) (h : Inv s)
    (hfresh : s.fs (FileName.sstable env.flush_time) = none) (key : List Nat) :
    found_string (flush_written s env) key = found_string s key := by
  have hinv' := flush_written_inv env h hfresh
  have hseg := flush_segment env h hfresh
  rw [get_spec hinv', get_spec h]
  obtain ⟨⟨hsz, hwf, hnd⟩, hsegs⟩ := h
  obtain ⟨hv, hnd', _⟩ := sorted_pairs_ok hwf hnd
  have hmem : mem_pairs (flush_written s env).tree.memtable = [] := by
    simp [flush_written, mem_pairs, live]
  have hts : (flush_written s env).tree.sstables
      = s.tree.sstables ++ [{ filename := FileName.sstable env.flush_time }] := rfl
  have hnew : seg_pairs (flush_written s env).fs { filename := FileName.sstable env.flush_time }
      = (qsort (live s.tree.memtable)).map decode := by
    simp only [seg_pairs, hseg]
    exact file_entries_encode hv
  have hold : s.tree.sstables.reverse.map (seg_pairs (flush_written s env).fs)
      = s.tree.sstables.reverse.map (seg_pairs s.fs) := by
    apply List.map_congr_left
    intro t ht
    have hne := segOk_ne_of_none (hsegs t (List.mem_reverse.1 ht)) hfresh
    exact seg_pairs_write_file hne
  rw [hmem, hts, lookup_nil, List.reverse_append, List.reverse_singleton, List.singleton_append,
    List.map_cons, first_of, hnew, hold]
  rw [lookup_perm (qsort_pairs_perm _) hnd']
  rfl


/-! ## Lemmas on the update of a record array -/

theorem update_found {m : Memtable} (hm : MemOk m) {key value : List Nat} {i : Nat}
    (hf : find_key m.data m.size key = some i) (hv : Valid value) :
    ∃ r, m.data.get? i = some r ∧
      MemOk { m with data := m.data.set i { r with value := strncpy value 50 } } ∧
      ∀ k, lookup k (mem_pairs { m with data := m.data.set i { r with value := strncpy value 50 } })
        = if k = cstr key then some value else lookup k (mem_pairs m) := by
  obtain ⟨hsz, hwf, hnd⟩ := hm
  obtain ⟨hi, hk⟩ := find_key_some hf
  have hl : i < m.data.length := by omega
  have hmem : m.data[i] ∈ live m := getElem_take_mem hi hl
  have hr := hwf _ hmem
  rw [key_at_eq hl hr.1.1] at hk
  have hil : i < (live m).length := by
    simp only [live, List.length_take]; omega
  have hget : (live m)[i] = m.data[i] := by
    simp only [live, List.getElem_take]
  have hlive : live { m with data := m.data.set i { m.data[i] with value := strncpy value 50 } }
      = (live m).set i { (live m)[i] with value := strncpy value 50 } := by
    simp only [live, List.set_take, List.getElem_take]
  obtain ⟨hwf', hmap⟩ := set_value_spec hil hv hwf
  have hpairs : mem_pairs { m with data := m.data.set i { m.data[i] with value := strncpy value 50 } }
      = (mem_pairs m).set i (cstr key, value) := by
    unfold mem_pairs
    rw [hlive, hmap, hget, hk]
  have hil' : i < (mem_pairs m).length := by
    simp only [mem_pairs, List.length_map]; exact hil
  have hki : ((mem_pairs m)[i]).1 = cstr key := by
    simp only [mem_pairs, List.getElem_map, decode, hget, hk]
  refine ⟨m.data[i], by simp [List.getElem?_eq_getElem hl], ⟨?_, ?_, ?_⟩, ?_⟩
  · simpa using hsz
  · rw [hlive]; exact hwf'
  · rw [hpairs, List.map_set]
    have : (List.map Prod.fst (mem_pairs m)).set i (cstr key) = List.map Prod.fst (mem_pairs m) := by
      apply List.ext_getElem
      · simp
      · intro j h1 h2
        by_cases hij : i = j
        · subst hij
          simp [hki]
        · simp [List.getElem_set_ne hij]
    simpa [this] using hnd
  · intro k
    rw [hpairs]
    exact lookup_set hnd hil' hki k

theorem take_store {data : List KeyValuePair} {n : Nat} (h : n ≤ data.length) (r : KeyValuePair) :
    (store data n r).take (n + 1) = data.take n ++ [r] := by
  unfold store
  by_cases hlt : n < data.length
  · rw [if_pos hlt, List.take_succ, List.set_take,
      List.set_eq_of_length_le (by simp), List.getElem?_set_self hlt]
    rfl
  · have he : n = data.length := by omega
    rw [if_neg hlt, he, List.take_length, List.take_of_length_le (by simp)]

theorem store_length {data : List KeyValuePair} {n : Nat} (h : n ≤ data.length) (r : KeyValuePair) :
    n + 1 ≤ (store data n r).length := by
  unfold store
  by_cases hlt : n < data.length
  · rw [if_pos hlt, List.length_set]; omega
  · rw [if_neg hlt, List.length_append]; simp; omega

theorem update_new {m : Memtable} (hm : MemOk m) {key value : List Nat} {r : KeyValuePair}
    (hf : find_key m.data m.size key = none) (hk : Valid key) (hv : Valid value)
    (hr : r = KeyValuePair.mk (strncpy key 50) (strncpy value 50)) :
    MemOk { m with data := store m.data m.size r, size := m.size + 1 } ∧
    ∀ k, lookup k (mem_pairs { m with data := store m.data m.size r, size := m.size + 1 })
      = if k = key then some value else lookup k (mem_pairs m) := by
  have hnone := (find_key_spec hm key).1 hf
  rw [valid_cstr hk] at hnone
  obtain ⟨hsz, hwf, hnd⟩ := hm
  have hlive : live { m with data := store m.data m.size r, size := m.size + 1 }
      = live m ++ [r] := by
    simp only [live]
    exact take_store hsz _
  have hpairs : mem_pairs { m with data := store m.data m.size r, size := m.size + 1 }
      = mem_pairs m ++ [(key, value)] := by
    unfold mem_pairs
    rw [hlive, List.map_append, List.map_singleton, hr, decode_mk hk hv]
  refine ⟨⟨store_length hsz _, ?_, ?_⟩, ?_⟩
  · rw [hlive]
    intro r' hr'
    rcases List.mem_append.1 hr' with h1 | h1
    · exact hwf r' h1
    · rw [List.mem_singleton] at h1
      rw [h1, hr]; exact wfRec_mk hk hv
  · rw [hpairs, List.map_append, List.nodup_append]
    refine ⟨hnd, by simp, ?_⟩
    intro a ha hb
    simp only [List.map_cons, List.map_nil, List.mem_singleton] at hb
    obtain ⟨p, hp, rfl⟩ := List.mem_map.1 ha
    exact hnone p hp hb
  · intro k
    rw [hpairs]
    exact lookup_append_new hnone k


/-! ## Lemmas on `_compact_sstables` -/

theorem merge_entry_spec {merged : List KeyValuePair} {key value : List Nat}
    (hwf : ∀ r ∈ merged, WfRec r) (hnd : ((merged.map decode).map Prod.fst).Nodup)
    (hk : Valid key) (hv : Valid value) :
    (∀ r ∈ merge_entry merged key value, WfRec r) ∧
    (((merge_entry merged key value).map decode).map Prod.fst).Nodup ∧
    ∀ k, lookup k ((merge_entry merged key value).map decode)
      = if k = key then some value else lookup k (merged.map decode) := by
  have hlive : ∀ (d : List KeyValuePair) (n c : Nat), d.length ≤ n →
      live { data := d, size := n, capacity := c } = d := by
    intro d n c h
    simp only [live]
    exact List.take_of_length_le h
  have hm : MemOk { data := merged, size := merged.length, capacity := 0 } := by
    refine ⟨Nat.le_refl _, ?_, ?_⟩
    · rw [hlive _ _ _ (Nat.le_refl _)]; exact hwf
    · unfold mem_pairs; rw [hlive _ _ _ (Nat.le_refl _)]; exact hnd
  unfold merge_entry
  cases hf : find_key merged merged.length key with
  | some i =>
    obtain ⟨r, hget, hm', hl⟩ := update_found hm hf hv
    simp only [hget]
    have hlen : (merged.set i { r with value := strncpy value 50 }).length ≤ merged.length := by
      simp
    obtain ⟨_, hwf', hnd'⟩ := hm'
    unfold mem_pairs at hnd' hl
    simp only [hlive _ _ _ hlen, hlive _ _ _ (Nat.le_refl merged.length)] at hwf' hnd' hl
    refine ⟨hwf', hnd', ?_⟩
    intro k
    rw [hl k, valid_cstr hk]
  | none =>
    obtain ⟨hm', hl⟩ := update_new hm hf hk hv rfl
    have hst : store merged merged.length (KeyValuePair.mk (strncpy key 50) (strncpy value 50))
        = merged ++ [KeyValuePair.mk (strncpy key 50) (strncpy value 50)] := by
      unfold store; rw [if_neg (Nat.lt_irrefl _)]
    obtain ⟨_, hwf', hnd'⟩ := hm'
    unfold mem_pairs at hnd' hl
    simp only [hst] at hwf' hnd' hl
    have hlen : (merged ++ [KeyValuePair.mk (strncpy key 50) (strncpy value 50)]).length
        ≤ merged.length + 1 := by simp
    simp only [hlive _ _ _ hlen, hlive _ _ _ (Nat.le_refl merged.length)] at hwf' hnd' hl
    exact ⟨hwf', hnd', hl⟩

theorem merge_entries_spec (es : List (List Nat × List Nat))
    (hv : ∀ p ∈ es, Valid p.1 ∧ Valid p.2) (init : List KeyValuePair)
    (hwf : ∀ r ∈ init, WfRec r) (hnd : ((init.map decode).map Prod.fst).Nodup) :
    (∀ r ∈ es.foldl (fun m p => merge_entry m p.1 p.2) init, WfRec r) ∧
    (((es.foldl (fun m p => merge_entry m p.1 p.2) init).map decode).map Prod.fst).Nodup ∧
    ∀ k, lookup k ((es.foldl (fun m p => merge_entry m p.1 p.2) init).map decode)
      = (lookup k es.reverse).or (lookup k (init.map decode)) := by
  induction es generalizing init with
  | nil =>
    refine ⟨hwf, hnd, ?_⟩
    intro k; simp [lookup_nil]
  | cons p t ih =>
    obtain ⟨hpk, hpv⟩ := hv p (List.mem_cons_self _ _)
    obtain ⟨h1, h2, h3⟩ := merge_entry_spec hwf hnd hpk hpv
    obtain ⟨g1, g2, g3⟩ := ih (fun q hq => hv q (List.mem_cons_of_mem _ hq)) _ h1 h2
    refine ⟨g1, g2, ?_⟩
    intro k
    simp only [List.foldl_cons]
    rw [g3 k, h3 k, List.reverse_cons, lookup_append, lookup_cons, lookup_nil]
    by_cases e : k = p.1
    · have e' : p.1 = k := e.symm
      rw [if_pos e, if_pos e']
      cases lookup k t.reverse <;> rfl
    · have e' : ¬ p.1 = k := fun h => e h.symm
      rw [if_neg e, if_neg e']
      cases lookup k t.reverse <;> rfl

theorem merge_lines_eq (lines : List (List Nat)) (init : List KeyValuePair) :
    lines.foldl merge_line init =
      (lines.filterMap (fun line =>
        match parse_line line with
        | (some key, some value) => some (key, value)
        | _ => none)).foldl (fun m p => merge_entry m p.1 p.2) init := by
  induction lines generalizing init with
  | nil => rfl
  | cons line rest ih =>
    simp only [List.foldl_cons, List.filterMap_cons]
    rw [ih]
    unfold merge_line
    rcases hp : parse_line line with ⟨_ | k, _ | v⟩ <;> simp

theorem merge_sstables_eq (fs : FileSystem) (ts : List SSTable) :
    merge_sstables fs ts
      = (catalog_entries fs ts).foldl (fun m p => merge_entry m p.1 p.2) [] := by
  unfold merge_sstables catalog_entries
  generalize ([] : List KeyValuePair) = init
  induction ts generalizing init with
  | nil => rfl
  | cons t rest ih =>
    simp only [List.foldl_cons, List.flatMap_cons, List.foldl_append]
    rw [ih]
    cases h : fs t.filename with
    | none => simp
    | some c => simp only [merge_lines_eq, file_entries]

theorem foldl_remove_apply (ts : List SSTable) (fs : FileSystem) (n : FileName) :
    (ts.foldl (fun fs t => remove fs t.filename) fs) n
      = if n ∈ ts.map (fun t => t.filename) then none else fs n := by
  induction ts generalizing fs with
  | nil => simp
  | cons t rest ih =>
    simp only [List.foldl_cons, List.map_cons, List.mem_cons]
    rw [ih]
    by_cases h1 : n ∈ rest.map (fun t => t.filename)
    · simp [h1]
    · by_cases h2 : n = t.filename
      · simp [h1, h2, remove]
      · simp [h1, h2, remove]


theorem compact_fs {s : State} (now : Int)
    (hv : ∀ p ∈ catalog_entries s.fs s.tree.sstables, Valid p.1 ∧ Valid p.2)
    (hnew : ∀ t ∈ s.tree.sstables, t.filename ≠ FileName.compacted_sstable now) :
    ∃ l : List (List Nat × List Nat),
      (_compact_sstables s now true).fs (FileName.compacted_sstable now) = some (encode l) ∧
      (∀ p ∈ l, Valid p.1 ∧ Valid p.2) ∧ (l.map Prod.fst).Nodup ∧
      (l.map Prod.fst).Pairwise (fun a b => strcmp a b ≤ 0) ∧
      ∀ k, lookup k l = lookup k (catalog_entries s.fs s.tree.sstables).reverse := by
  obtain ⟨hwf, hnd, hl⟩ := merge_entries_spec _ hv [] (by simp) (by simp)
  rw [← merge_sstables_eq] at hwf hnd hl
  obtain ⟨a, b, c⟩ := sorted_pairs_ok hwf hnd
  refine ⟨(qsort (merge_sstables s.fs s.tree.sstables)).map decode, ?_, a, b, c, ?_⟩
  · have hnot : FileName.compacted_sstable now ∉ s.tree.sstables.map (fun t => t.filename) := by
      intro hmem
      obtain ⟨t, ht, he⟩ := List.mem_map.1 hmem
      exact hnew t ht he
    have hterm : ∀ r ∈ (qsort (merge_sstables s.fs s.tree.sstables)).take
        (qsort (merge_sstables s.fs s.tree.sstables)).length, Terminated r := by
      rw [List.take_length]
      intro r hr
      exact (qsort_wf hwf r hr).1
    simp only [_compact_sstables, if_true]
    rw [foldl_remove_apply, if_neg hnot]
    simp only [write_file, if_true]
    rw [write_records_eq (Nat.le_refl _) hterm, List.take_length]
  · intro k
    rw [← lookup_perm (qsort_pairs_perm _).symm hnd, hl k]
    simp [lookup_nil]

theorem compact_removed {s : State} (now : Int) {t : SSTable} (ht : t ∈ s.tree.sstables) :
    (_compact_sstables s now true).fs t.filename = none := by
  simp only [_compact_sstables, if_true]
  rw [foldl_remove_apply, if_pos (List.mem_map.2 ⟨t, ht, rfl⟩)]

theorem first_of_append (k : List Nat) (a b : List (List (List Nat × List Nat))) :
    first_of k (a ++ b) = (first_of k a).or (first_of k b) := by
  induction a with
  | nil => simp [first_of]
  | cons l rest ih =>
    have e : first_of k (l :: rest ++ b) = (lookup k l).or (first_of k (rest ++ b)) := rfl
    have e' : first_of k (l :: rest) = (lookup k l).or (first_of k rest) := rfl
    rw [e, e', ih]
    cases lookup k l <;> simp

theorem first_of_reverse (k : List Nat) (ls : List (List (List Nat × List Nat)))
    (h : ∀ l ∈ ls, (l.map Prod.fst).Nodup) :
    lookup k ls.flatten.reverse = first_of k ls.reverse := by
  induction ls with
  | nil => simp [first_of, lookup_nil]
  | cons l rest ih =>
    rw [List.flatten_cons, List.reverse_append, lookup_append, List.reverse_cons,
      first_of_append, ih (fun q hq => h q (List.mem_cons_of_mem _ hq)),
      lookup_reverse (h l (List.mem_cons_self _ _))]
    simp [first_of]

theorem seg_pairs_ok {fs : FileSystem} {t : SSTable} (h : SegOk fs t) :
    (∀ p ∈ seg_pairs fs t, Valid p.1 ∧ Valid p.2) ∧ ((seg_pairs fs t).map Prod.fst).Nodup ∧
    fs t.filename = some (encode (seg_pairs fs t)) := by
  obtain ⟨l, h1, h2, h3, _⟩ := h
  have : seg_pairs fs t = l := by
    simp only [seg_pairs, h1]; exact file_entries_encode h2
  rw [this]
  exact ⟨h2, h3, h1⟩

theorem catalog_entries_eq (fs : FileSystem) (ts : List SSTable) :
    catalog_entries fs ts = (ts.map (seg_pairs fs)).flatten := by
  unfold catalog_entries seg_pairs
  induction ts with
  | nil => rfl
  | cons t rest ih =>
    simp only [List.flatMap_cons, List.map_cons, List.flatten_cons, ih]

theorem compact_inv_get {s : State} (now : Int) (h : Inv s)
    (hfresh : s.fs (FileName.compacted_sstable now) = none) :
    Inv (_compact_sstables s now true) ∧
    (_compact_sstables s now true).tree.memtable = s.tree.memtable ∧
    ∀ key, found_string (_compact_sstables s now true) key = found_string s key := by
  have hv : ∀ p ∈ catalog_entries s.fs s.tree.sstables, Valid p.1 ∧ Valid p.2 := by
    intro p hp
    rw [catalog_entries_eq, List.mem_flatten] at hp
    obtain ⟨l, hl, hpl⟩ := hp
    obtain ⟨t, ht, rfl⟩ := List.mem_map.1 hl
    exact (seg_pairs_ok (h.2 t ht)).1 p hpl
  have hnew : ∀ t ∈ s.tree.sstables, t.filename ≠ FileName.compacted_sstable now :=
    fun t ht => segOk_ne_of_none (h.2 t ht) hfresh
  obtain ⟨l, hfs, hval, hnd, hsorted, hlook⟩ := compact_fs now hv hnew
  have hts : (_compact_sstables s now true).tree.sstables
      = [{ filename := FileName.compacted_sstable now }] := by
    simp [_compact_sstables]
  have hmem : (_compact_sstables s now true).tree.memtable = s.tree.memtable := by
    simp [_compact_sstables]
  have hinv : Inv (_compact_sstables s now true) := by
    refine ⟨by rw [hmem]; exact h.1, ?_⟩
    intro t ht
    rw [hts, List.mem_singleton] at ht
    subst ht
    exact ⟨l, hfs, hval, hnd, hsorted⟩
  refine ⟨hinv, hmem, ?_⟩
  intro key
  rw [get_spec hinv, get_spec h, hmem, hts]
  have hsp : seg_pairs (_compact_sstables s now true).fs
      { filename := FileName.compacted_sstable now } = l := by
    simp only [seg_pairs, hfs]; exact file_entries_encode hval
  simp only [List.reverse_singleton, List.map_singleton, first_of, hsp]
  rw [hlook, catalog_entries_eq, first_of_reverse, ← List.map_reverse]
  · cases first_of (cstr key) (List.map (seg_pairs s.fs) s.tree.sstables.reverse) <;> simp
  · intro q hq
    obtain ⟨t, ht, rfl⟩ := List.mem_map.1 hq
    exact (seg_pairs_ok (h.2 t ht)).2.1


/-! ## Lemmas on `lsm_tree_put` -/

theorem get_out_irrelevant (s : State) (out : List Event) (key : List Nat) :
    found_string { s with out := out } key = found_string s key := rfl

theorem inv_out_irrelevant {s : State} (h : Inv s) (out : List Event) :
    Inv { s with out := out } := h

theorem find_key_zero (data : List KeyValuePair) (key : List Nat) :
    find_key data 0 key = none := rfl

theorem flush_spec {s : State} {env : Env} (h : Inv s) (hf : FlushOk s env)
    (hz : s.tree.memtable.size ≠ 0) :
    Inv (_flush_memtable s env) ∧ (_flush_memtable s env).tree.memtable.size = 0 ∧
    ∀ k, found_string (_flush_memtable s env) k = found_string s k := by
  obtain ⟨hopen, hfresh, hcomp⟩ := hf
  have hinv1 := flush_written_inv env h hfresh
  have hget1 := flush_written_get env h hfresh
  have hsz1 : (flush_written s env).tree.memtable.size = 0 := rfl
  rw [flush_eq hz hopen]
  by_cases hthr : (flush_written s env).tree.sstable_count ≥ 3
  · rw [if_pos hthr]
    have hcnt : (flush_written s env).tree.sstable_count = s.tree.sstable_count + 1 := by
      simp [flush_written, LSMTree.sstable_count]
    obtain ⟨hco, hcf⟩ := hcomp (by omega)
    have hcf1 : (flush_written s env).fs (FileName.compacted_sstable env.compact_time)
        = none := by
      simp [flush_written, write_file, hcf]
    rw [hco]
    obtain ⟨hinv2, hmem2, hget2⟩ := compact_inv_get env.compact_time hinv1 hcf1
    refine ⟨hinv2, ?_, ?_⟩
    · rw [hmem2, hsz1]
    · intro k; rw [hget2, hget1]
  · rw [if_neg hthr]
    exact ⟨hinv1, hsz1, hget1⟩

/-- What `lsm_tree_put` has done when it reaches the append of a new record. -/
theorem flush_if_due {s : State} {key : List Nat} {env : Env} (h : Inv s)
    (hf : FilesOk s key env)
    (hnone : find_key s.tree.memtable.data s.tree.memtable.size key = none) :
    Inv (if s.tree.memtable.size ≥ s.tree.memtable.capacity then _flush_memtable s env else s) ∧
    (∀ k, found_string
        (if s.tree.memtable.size ≥ s.tree.memtable.capacity then _flush_memtable s env else s) k
      = found_string s k) ∧
    find_key
      (if s.tree.memtable.size ≥ s.tree.memtable.capacity
        then _flush_memtable s env else s).tree.memtable.data
      (if s.tree.memtable.size ≥ s.tree.memtable.capacity
        then _flush_memtable s env else s).tree.memtable.size key = none := by
  by_cases hcap : s.tree.memtable.size ≥ s.tree.memtable.capacity
  · rw [if_pos hcap]
    by_cases hz : s.tree.memtable.size = 0
    · have : _flush_memtable s env = s := by simp [_flush_memtable, hz]
      rw [this]
      exact ⟨h, fun _ => rfl, hnone⟩
    · obtain ⟨hinv, hsz, hget⟩ := flush_spec h (hf ⟨hnone, hcap, hz⟩) hz
      exact ⟨hinv, hget, by rw [hsz]; rfl⟩
  · rw [if_neg hcap]
    exact ⟨h, fun _ => rfl, hnone⟩

theorem get_after_update {s s1 : State} {key value : List Nat} (h : Inv s) (h1 : Inv s1)
    (hts : s1.tree.sstables = s.tree.sstables) (hfs : s1.fs = s.fs)
    (hl : ∀ k, lookup k (mem_pairs s1.tree.memtable)
      = if k = key then some value else lookup k (mem_pairs s.tree.memtable)) (k : List Nat) :
    found_string s1 k = if cstr k = key then some value else found_string s k := by
  rw [get_spec h1, get_spec h, hts, hfs, hl]
  by_cases e : cstr k = key
  · simp [e]
  · simp [e]

theorem put_step {s : State} {key value : List Nat} {env : Env} (h : Inv s)
    (hk : Valid key) (hv : Valid value) (hf : FilesOk s key env) :
    Inv (lsm_tree_put s key value env) ∧
    ∀ k, found_string (lsm_tree_put s key value env) k
      = if cstr k = key then some value else found_string s k := by
  unfold lsm_tree_put
  cases hfind : find_key s.tree.memtable.data s.tree.memtable.size key with
  | some i =>
    obtain ⟨r, hget, hm', hl⟩ := update_found h.1 hfind hv
    simp only [hfind, hget]
    rw [valid_cstr hk] at hl
    refine ⟨⟨hm', h.2⟩, ?_⟩
    exact get_after_update h ⟨hm', h.2⟩ rfl rfl hl
  | none =>
    simp only [hfind]
    have hs0 : Inv { s with out := s.out ++ [Event.putting (cstr key)] } := h
    have hf0 : FilesOk { s with out := s.out ++ [Event.putting (cstr key)] } key env := hf
    obtain ⟨hinv1, hget1, hnone1⟩ := flush_if_due hs0 hf0 hfind
    simp only [] at hinv1 hget1 hnone1
    generalize (if s.tree.memtable.size ≥ s.tree.memtable.capacity
        then _flush_memtable { s with out := s.out ++ [Event.putting (cstr key)] } env
        else { s with out := s.out ++ [Event.putting (cstr key)] }) = s1 at hinv1 hget1 hnone1 ⊢
    obtain ⟨hm', hl⟩ := update_new hinv1.1 hnone1 hk hv rfl
    refine ⟨⟨hm', hinv1.2⟩, ?_⟩
    intro k
    rw [← get_out_irrelevant s (s.out ++ [Event.putting (cstr key)]), ← hget1 k]
    refine get_after_update hinv1 ?_ ?_ ?_ ?_ k
    · exact ⟨hm', hinv1.2⟩
    · rfl
    · rfl
    · exact hl


/-! ## Lemmas on sequences of calls -/

theorem init_inv (fs : FileSystem) : Inv (init_lsm_tree fs) := by
  refine ⟨⟨Nat.le_refl _, ?_, ?_⟩, ?_⟩
  · intro r hr; simp [init_lsm_tree, live] at hr
  · simp [init_lsm_tree, mem_pairs, live]
  · intro t ht; simp [init_lsm_tree] at ht

theorem init_get (fs : FileSystem) (k : List Nat) : found_string (init_lsm_tree fs) k = none := rfl

theorem last_put_cons (c : PutCall) (cs : List PutCall) (k : List Nat) :
    last_put (c :: cs) k = (last_put cs k).or (if c.key = k then some c.value else none) := by
  unfold last_put
  rw [List.reverse_cons, List.find?_append]
  cases List.find? (fun c => c.key == k) cs.reverse with
  | some d => simp
  | none =>
    by_cases e : c.key = k
    · simp [e]
    · simp [e]

theorem last_put_none {calls : List PutCall} {k : List Nat} (h : ∀ c ∈ calls, c.key ≠ k) :
    last_put calls k = none := by
  unfold last_put
  rw [Option.map_eq_none', List.find?_eq_none]
  intro c hc
  simpa using h c (List.mem_reverse.1 hc)

theorem last_put_key {calls : List PutCall} {k v : List Nat} (h : last_put calls k = some v) :
    ∃ c ∈ calls, c.key = k := by
  unfold last_put at h
  rw [Option.map_eq_some'] at h
  obtain ⟨c, hc, _⟩ := h
  refine ⟨c, List.mem_reverse.1 (List.mem_of_find?_eq_some hc), ?_⟩
  simpa using List.find?_some hc

theorem goodRun_valid {s : State} {calls : List PutCall} (h : GoodRun s calls) :
    ∀ c ∈ calls, Valid c.key ∧ Valid c.value := by
  induction calls generalizing s with
  | nil => intro c hc; simp at hc
  | cons d ds ih =>
    obtain ⟨h1, h2, _, h4⟩ := h
    intro c hc
    rcases List.mem_cons.1 hc with e | e
    · rw [e]; exact ⟨h1, h2⟩
    · exact ih h4 c e

theorem run_spec {s : State} {calls : List PutCall} (h : Inv s) (hg : GoodRun s calls) :
    Inv (run s calls) ∧
    ∀ k, found_string (run s calls) k = (last_put calls (cstr k)).or (found_string s k) := by
  induction calls generalizing s with
  | nil =>
    refine ⟨h, ?_⟩
    intro k
    simp [run, last_put]
  | cons c cs ih =>
    obtain ⟨h1, h2, h3, h4⟩ := hg
    obtain ⟨hinv, hget⟩ := put_step h h1 h2 h3
    obtain ⟨hinv', hget'⟩ := ih hinv h4
    refine ⟨hinv', ?_⟩
    intro k
    simp only [run]
    rw [hget' k, hget k, last_put_cons]
    by_cases e : cstr k = c.key
    · have e' : c.key = cstr k := e.symm
      rw [if_pos e, if_pos e']
      cases last_put cs (cstr k) <;> rfl
    · have e' : ¬ c.key = cstr k := fun x => e x.symm
      rw [if_neg e, if_neg e']
      cases last_put cs (cstr k) <;> rfl


/-! ## The claims -/

theorem put_size_pos (s : State) (key value : List Nat) (env : Env) :
    (lsm_tree_put s key value env).tree.memtable.size ≠ 0 := by
  unfold lsm_tree_put
  cases hfind : find_key s.tree.memtable.data s.tree.memtable.size key with
  | some i =>
    have hi := (find_key_some hfind).1
    simp only [hfind]
    split
    · show s.tree.memtable.size ≠ 0
      omega
    · show s.tree.memtable.size ≠ 0
      omega
  | none =>
    simp only [hfind]
    exact Nat.succ_ne_zero _

/-! ## Lemmas on a memtable that fills up -/

theorem short_record (c : PutCall) (hk : Short c.key) (hv : Short c.value) :
    Terminated c.record ∧ decode c.record = c.pair := by
  have e1 : cstr (strncpy c.key 50) = c.key := by
    simpa using cstr_strncpy hk.2 hk.1 []
  have e2 : cstr (strncpy c.value 50) = c.value := by
    simpa using cstr_strncpy hv.2 hv.1 []
  refine ⟨⟨?_, ?_⟩, ?_⟩
  · exact zero_mem_strncpy (by rw [cstr_eq_self hk.2]; exact hk.1)
  · exact zero_mem_strncpy (by rw [cstr_eq_self hv.2]; exact hv.1)
  · simp [decode, PutCall.record, PutCall.pair, e1, e2]

theorem find_key_none_of {data : List KeyValuePair} {n : Nat} {key : List Nat}
    (hn : n ≤ data.length) (ht : ∀ r ∈ data.take n, 0 ∈ r.key)
    (hne : ∀ r ∈ data.take n, cstr r.key ≠ cstr key) : find_key data n key = none := by
  unfold find_key
  rw [List.find?_eq_none]
  intro i hi
  have hi' : i < n := List.mem_range.1 hi
  have hl : i < data.length := by omega
  have hmem : data[i] ∈ data.take n := getElem_take_mem hi' hl
  simp only [beq_iff_eq, strcmp_eq_zero]
  rw [key_at_eq hl (ht _ hmem), cstr_idem]
  exact hne _ hmem

theorem put_append {s : State} {key value : List Nat} (env : Env)
    (hfind : find_key s.tree.memtable.data s.tree.memtable.size key = none)
    (hroom : s.tree.memtable.size < s.tree.memtable.capacity) :
    lsm_tree_put s key value env =
      { tree := { s.tree with memtable := { s.tree.memtable with
                    data := store s.tree.memtable.data s.tree.memtable.size
                      (KeyValuePair.mk (strncpy key 50) (strncpy value 50)),
                    size := s.tree.memtable.size + 1 } },
        fs := s.fs, out := s.out ++ [Event.putting (cstr key)] } := by
  unfold lsm_tree_put
  simp only [hfind]
  rw [if_neg (by omega)]

/-- Calls with new keys on a memtable with room: every call appends one record
and nothing else happens. -/
theorem run_fill (calls : List PutCall) (s : State)
    (hroom : s.tree.memtable.size + calls.length ≤ s.tree.memtable.capacity)
    (hsz : s.tree.memtable.size ≤ s.tree.memtable.data.length)
    (hterm : ∀ r ∈ live s.tree.memtable, Terminated r)
    (hnew : ∀ c ∈ calls, ∀ r ∈ live s.tree.memtable, cstr r.key ≠ c.key)
    (hnd : (calls.map (fun c => c.key)).Nodup)
    (hshort : ∀ c ∈ calls, Short c.key ∧ Short c.value) :
    (run s calls).tree.memtable.size = s.tree.memtable.size + calls.length ∧
    (run s calls).tree.memtable.size ≤ (run s calls).tree.memtable.data.length ∧
    (run s calls).tree.memtable.capacity = s.tree.memtable.capacity ∧
    live (run s calls).tree.memtable
      = live s.tree.memtable ++ calls.map (fun c => c.record) ∧
    (run s calls).tree.sstables = s.tree.sstables ∧
    (run s calls).tree.sstable_capacity = s.tree.sstable_capacity ∧
    (run s calls).fs = s.fs ∧
    (run s calls).out = s.out ++ calls.map (fun c => Event.putting c.key) := by
  induction calls generalizing s with
  | nil => simp [run, hsz]
  | cons c cs ih =>
    obtain ⟨hck, hcv⟩ := hshort c (List.mem_cons_self _ _)
    have hfind : find_key s.tree.memtable.data s.tree.memtable.size c.key = none := by
      apply find_key_none_of hsz (fun r hr => (hterm r hr).1)
      intro r hr
      rw [cstr_eq_self hck.2]
      exact hnew c (List.mem_cons_self _ _) r hr
    have hlt : s.tree.memtable.size < s.tree.memtable.capacity := by
      simp only [List.length_cons] at hroom; omega
    have hput := @put_append s c.key c.value c.env hfind hlt
    simp only [List.map_cons, List.nodup_cons] at hnd
    have hlive : live (lsm_tree_put s c.key c.value c.env).tree.memtable
        = live s.tree.memtable ++ [c.record] := by
      rw [hput]
      simp only [live]
      exact take_store hsz _
    have hsize : (lsm_tree_put s c.key c.value c.env).tree.memtable.size
        = s.tree.memtable.size + 1 := by rw [hput]
    have hcapeq : (lsm_tree_put s c.key c.value c.env).tree.memtable.capacity
        = s.tree.memtable.capacity := by rw [hput]
    have hrec := short_record c hck hcv
    obtain ⟨g1, g2, g3, g4, g5, g6, g7, g8⟩ := ih (lsm_tree_put s c.key c.value c.env)
      (by rw [hsize, hcapeq]; simp only [List.length_cons] at hroom; omega)
      (by rw [hput]; exact store_length hsz _)
      (by
        rw [hlive]; intro r hr
        rcases List.mem_append.1 hr with h1 | h1
        · exact hterm r h1
        · rw [List.mem_singleton] at h1; rw [h1]; exact hrec.1)
      (by
        rw [hlive]; intro d hd r hr
        rcases List.mem_append.1 hr with h1 | h1
        · exact hnew d (List.mem_cons_of_mem _ hd) r h1
        · rw [List.mem_singleton] at h1
          have hk : cstr r.key = c.key := by
            have := congrArg Prod.fst hrec.2
            rw [h1]; simpa [decode, PutCall.pair] using this
          rw [hk]
          intro e
          exact hnd.1 (List.mem_map.2 ⟨d, hd, e.symm⟩))
      hnd.2
      (fun d hd => hshort d (List.mem_cons_of_mem _ hd))
    simp only [run]
    refine ⟨?_, g2, ?_, ?_, ?_, ?_, ?_, ?_⟩
    · rw [g1, hsize]; simp only [List.length_cons]; omega
    · rw [g3, hcapeq]
    · rw [g4, hlive]; simp
    · rw [g5, hput]
    · rw [g6, hput]
    · rw [g7, hput]
    · rw [g8, hput, cstr_eq_self hck.2]; simp


/-! ## Lemmas on the messages of flush and compaction -/

theorem compact_memtable (s : State) (now : Int) (ok : Bool) :
    (_compact_sstables s now ok).tree.memtable = s.tree.memtable := by
  cases ok <;> rfl

theorem compact_out (s : State) (now : Int) (ok : Bool) :
    (_compact_sstables s now ok).out =
      s.out ++ Event.starting_compaction :: (merge_messages s.fs s.tree.sstables ++
        if ok then [Event.compaction_successful (FileName.compacted_sstable now),
                    Event.compaction_complete]
        else [Event.compaction_create_failed]) := by
  cases ok <;> simp [_compact_sstables]

theorem merge_messages_mem {fs : FileSystem} {ts : List SSTable} {e : Event}
    (h : e ∈ merge_messages fs ts) :
    ∃ n, e = Event.reading_from n ∨ e = Event.compaction_open_failed n := by
  unfold merge_messages at h
  rw [List.mem_flatMap] at h
  obtain ⟨t, _, ht⟩ := h
  cases hfs : fs t.filename with
  | none =>
    simp only [hfs, List.mem_cons, List.mem_singleton, List.not_mem_nil, or_false] at ht
    exact ⟨t.filename, ht⟩
  | some c =>
    simp only [hfs, List.mem_singleton] at ht
    exact ⟨t.filename, Or.inl ht⟩

theorem compact_out_count (s : State) (now : Int) (ok : Bool) :
    ∃ x, (_compact_sstables s now ok).out = s.out ++ x ∧
      x.count Event.flushing = 0 ∧ x.count Event.starting_compaction = 1 := by
  refine ⟨_, compact_out s now ok, ?_, ?_⟩
  · rw [List.count_eq_zero]
    intro hmem
    rcases List.mem_cons.1 hmem with h | h
    · cases h
    · rcases List.mem_append.1 h with h1 | h1
      · obtain ⟨n, hn | hn⟩ := merge_messages_mem h1 <;> cases hn
      · cases ok <;> simp at h1
  · rw [List.count_cons_self, List.count_append]
    have h1 : (merge_messages s.fs s.tree.sstables).count Event.starting_compaction = 0 := by
      rw [List.count_eq_zero]
      intro hmem
      obtain ⟨n, hn | hn⟩ := merge_messages_mem hmem <;> cases hn
    rw [h1]
    cases ok <;> simp

/-- A flush of a memtable that is not empty whose file can be opened: the
memtable is cleared, the segment is written and catalogued, and a compaction
follows exactly when the catalog has reached three entries. -/
theorem flush_success {s : State} {env : Env} (hz : s.tree.memtable.size ≠ 0)
    (hopen : env.flush_open = true) :
    (_flush_memtable s env).tree.memtable = (flush_written s env).tree.memtable ∧
    (s.tree.sstable_count + 1 < 3 → _flush_memtable s env = flush_written s env) ∧
    (s.tree.sstable_count + 1 ≥ 3 → _flush_memtable s env
      = _compact_sstables (flush_written s env) env.compact_time env.compact_open) ∧
    ∃ x, (_flush_memtable s env).out
        = s.out ++ [Event.flushing, Event.flush_complete (FileName.sstable env.flush_time)] ++ x ∧
      x.count Event.flushing = 0 ∧
      x.count Event.starting_compaction = if s.tree.sstable_count + 1 ≥ 3 then 1 else 0 := by
  have hcnt : (flush_written s env).tree.sstable_count = s.tree.sstable_count + 1 := by
    simp [flush_written, LSMTree.sstable_count]
  rw [flush_eq hz hopen, hcnt]
  by_cases hthr : s.tree.sstable_count + 1 ≥ 3
  · rw [if_pos hthr, if_pos hthr]
    obtain ⟨x, hx, h0, h1⟩ :=
      compact_out_count (flush_written s env) env.compact_time env.compact_open
    refine ⟨compact_memtable _ _ _, fun h => by omega, fun _ => rfl, x, ?_, h0, h1⟩
    rw [hx]; rfl
  · rw [if_neg hthr, if_neg hthr]
    exact ⟨rfl, fun _ => rfl, fun h => absurd h hthr, [], by simp [flush_written], rfl, rfl⟩


theorem run_append (s : State) (calls : List PutCall) (c : PutCall) :
    run s (calls ++ [c]) = lsm_tree_put (run s calls) c.key c.value c.env := by
  induction calls generalizing s with
  | nil => rfl
  | cons d ds ih => exact ih _

theorem put_flush_eq {s : State} {key value : List Nat} (env : Env)
    (hfind : find_key s.tree.memtable.data s.tree.memtable.size key = none)
    (hcap : s.tree.memtable.size ≥ s.tree.memtable.capacity) :
    lsm_tree_put s key value env =
      { tree := { (_flush_memtable { s with out := s.out ++ [Event.putting (cstr key)] } env).tree
          with memtable := {
            (_flush_memtable { s with out := s.out ++ [Event.putting (cstr key)] } env).tree.memtable
            with
            data := store
              (_flush_memtable { s with out := s.out ++ [Event.putting (cstr key)] }
                env).tree.memtable.data
              (_flush_memtable { s with out := s.out ++ [Event.putting (cstr key)] }
                env).tree.memtable.size
              (KeyValuePair.mk (strncpy key 50) (strncpy value 50)),
            size := (_flush_memtable { s with out := s.out ++ [Event.putting (cstr key)] }
                env).tree.memtable.size + 1 } },
        fs := (_flush_memtable { s with out := s.out ++ [Event.putting (cstr key)] } env).fs,
        out := (_flush_memtable { s with out := s.out ++ [Event.putting (cstr key)] } env).out } := by
  unfold lsm_tree_put
  simp only [hfind]
  rw [if_pos hcap]

theorem perm_pairs_of_live {l : List KeyValuePair} {calls : List PutCall}
    (hl : l = calls.map (fun d => d.record))
    (hshort : ∀ d ∈ calls, Short d.key ∧ Short d.value) :
    (∀ r ∈ l, Terminated r) ∧ l.map decode = calls.map (fun d => d.pair) := by
  subst hl
  constructor
  · intro r hr
    obtain ⟨d, hd, rfl⟩ := List.mem_map.1 hr
    exact (short_record d (hshort d hd).1 (hshort d hd).2).1
  · rw [List.map_map]
    apply List.map_congr_left
    intro d hd
    exact (short_record d (hshort d hd).1 (hshort d hd).2).2

/-- C4 (capacity-triggered flush), amended: starting from an empty memtable of
capacity 10, ten calls of `lsm_tree_put` with pairwise distinct keys, keys and
values being shorter than 50 bytes, cause no flush and leave the ten records in
the memtable; when the segment file can be opened, the next call with an
eleventh distinct key performs exactly one flush before the record is applied:
afterwards the memtable holds exactly the new record, and (the catalog staying
below the compaction threshold) exactly one segment has been added, to which
the ten buffered records have been written in ascending key order. -/
theorem C4_capacity_flush (s : State) (calls : List PutCall) (c : PutCall)
    (hempty : s.tree.memtable.size = 0) (hcap : s.tree.memtable.capacity = 10)
    (hlen : calls.length = 10)
    (hdistinct : ((calls ++ [c]).map (fun d => d.key)).Nodup)
    (hshort : ∀ d ∈ calls ++ [c], Short d.key ∧ Short d.value)
    (hopen : c.env.flush_open = true) :
    ((run s calls).tree.memtable.size = 10 ∧
      live (run s calls).tree.memtable = calls.map (fun d => d.record) ∧
      mem_pairs (run s calls).tree.memtable = calls.map (fun d => d.pair) ∧
      (run s calls).tree.sstables = s.tree.sstables ∧ (run s calls).fs = s.fs ∧
      (run s calls).out = s.out ++ calls.map (fun d => Event.putting d.key)) ∧
    ((run s (calls ++ [c])).tree.memtable.size = 1 ∧
      live (run s (calls ++ [c])).tree.memtable = [c.record] ∧
      mem_pairs (run s (calls ++ [c])).tree.memtable = [c.pair] ∧
      (∃ x, (run s (calls ++ [c])).out
          = (run s calls).out ++ Event.putting c.key :: Event.flushing ::
              Event.flush_complete (FileName.sstable c.env.flush_time) :: x ∧
        x.count Event.flushing = 0) ∧
      (s.tree.sstable_count + 1 < 3 →
        (run s (calls ++ [c])).tree.sstables
          = s.tree.sstables ++ [{ filename := FileName.sstable c.env.flush_time }] ∧
        ∃ l : List (List Nat × List Nat),
          l.Perm (calls.map (fun d => d.pair)) ∧
          (l.map Prod.fst).Pairwise (fun a b => strcmp a b ≤ 0) ∧
          (run s (calls ++ [c])).fs (FileName.sstable c.env.flush_time)
            = some ((s.fs (FileName.sstable c.env.flush_time)).getD [] ++ encode l))) := by
  have hshort1 : ∀ d ∈ calls, Short d.key ∧ Short d.value :=
    fun d hd => hshort d (List.mem_append_left _ hd)
  obtain ⟨hck, hcv⟩ := hshort c (List.mem_append_right _ (List.mem_singleton.2 rfl))
  rw [List.map_append, List.nodup_append] at hdistinct
  obtain ⟨hnd, _, hdisj⟩ := hdistinct
  have hlive0 : live s.tree.memtable = [] := by simp [live, hempty]
  obtain ⟨g1, g2, g3, g4, g5, g6, g7, g8⟩ := run_fill calls s (by rw [hempty, hcap, hlen]) (by omega)
    (by rw [hlive0]; intro r hr; simp at hr)
    (by rw [hlive0]; intro d _ r hr; simp at hr) hnd hshort1
  rw [hlive0, List.nil_append] at g4
  rw [hempty, hlen] at g1
  obtain ⟨hterm, hpairs⟩ := perm_pairs_of_live g4 hshort1
  have hmp : mem_pairs (run s calls).tree.memtable = calls.map (fun d => d.pair) := hpairs
  refine ⟨⟨g1, g4, hmp, g5, g7, g8⟩, ?_⟩
  -- the eleventh call
  have hfind : find_key (run s calls).tree.memtable.data (run s calls).tree.memtable.size c.key
      = none := by
    apply find_key_none_of g2 (fun r hr => (hterm r hr).1)
    intro r hr
    rw [cstr_eq_self hck.2]
    have hr' : r ∈ calls.map (fun d => d.record) := by rw [← g4]; exact hr
    obtain ⟨d, hd, rfl⟩ := List.mem_map.1 hr'
    have hk : cstr d.record.key = d.key := by
      have := congrArg Prod.fst (short_record d (hshort1 d hd).1 (hshort1 d hd).2).2
      simpa [decode, PutCall.pair] using this
    rw [hk]
    intro e
    exact hdisj (List.mem_map.2 ⟨d, hd, rfl⟩) (by rw [e]; simp)
  have hz : (run s calls).tree.memtable.size ≠ 0 := by omega
  have hfull : (run s calls).tree.memtable.size ≥ (run s calls).tree.memtable.capacity := by
    rw [g1, g3, hcap]
  obtain ⟨f1, f2, _, x, f4, f5, _⟩ := @flush_success
    { (run s calls) with out := (run s calls).out ++ [Event.putting (cstr c.key)] } c.env hz hopen
  have hput := @put_flush_eq (run s calls) c.key c.value c.env hfind hfull
  have hrec : live (run s (calls ++ [c])).tree.memtable = [c.record] := by
    rw [run_append, hput]
    simp only [live, f1]
    exact take_store (Nat.zero_le _) _
  refine ⟨?_, hrec, ?_, ⟨x, ?_, f5⟩, ?_⟩
  · rw [run_append, hput]
    simp only [f1]
    rfl
  · unfold mem_pairs
    rw [hrec, List.map_singleton, (short_record c hck hcv).2]
  · rw [run_append, hput]
    have f4' := f4
    simp only [cstr_eq_self hck.2] at f4' ⊢
    rw [f4']
    simp
  · intro hthr
    have hthr' : (run s calls).tree.sstable_count + 1 < 3 := by
      simpa [LSMTree.sstable_count, g5] using hthr
    have f2' := f2 hthr'
    have hwr : write_records
        (qsort ((run s calls).tree.memtable.data.take (run s calls).tree.memtable.size)
          ++ (run s calls).tree.memtable.data.drop (run s calls).tree.memtable.size)
        (run s calls).tree.memtable.size
        = encode ((qsort (live (run s calls).tree.memtable)).map decode) := by
      have hlen' : (run s calls).tree.memtable.size ≤
          (qsort ((run s calls).tree.memtable.data.take (run s calls).tree.memtable.size)
            ++ (run s calls).tree.memtable.data.drop (run s calls).tree.memtable.size).length := by
        rw [List.length_append, qsort_length, List.length_take, List.length_drop]; omega
      rw [write_records_eq hlen', take_sorted_live _ g2]
      rw [take_sorted_live _ g2]
      intro r hr
      exact hterm r ((qsort_perm _).mem_iff.1 hr)
    constructor
    · rw [run_append, hput]
      simp only [f2']
      simp [flush_written, g5]
    · refine ⟨(qsort (live (run s calls).tree.memtable)).map decode, ?_, ?_, ?_⟩
      · rw [← hpairs]; exact qsort_pairs_perm _
      · have := qsort_sorted hterm
        simpa [List.map_map, decode, Function.comp_def] using this
      · rw [run_append, hput]
        simp only [f2']
        simp only [flush_written, write_file, if_true, hwr, g7]


set_option maxRecDepth 1000000 in
/-- C4 as stated fails: when the segment file cannot be opened the eleventh
call leaves eleven records in the memtable and produces no segment; and ten
calls with pairwise distinct keys of which two are longer than the key field
leave nine records in the memtable. -/
theorem C4_counterexample :
    (((ten_calls ++ [failing_call]).map (fun d => d.key)).Nodup ∧
      (run (init_lsm_tree empty_fs) ten_calls).tree.memtable.size = 10 ∧
      (run (init_lsm_tree empty_fs) (ten_calls ++ [failing_call])).tree.memtable.size = 11 ∧
      (run (init_lsm_tree empty_fs) (ten_calls ++ [failing_call])).tree.sstables = [] ∧
      (run (init_lsm_tree empty_fs) (ten_calls ++ [failing_call])).fs (FileName.sstable 2)
        = none) ∧
    ((long_key_calls.map (fun d => d.key)).Nodup ∧ long_key_calls.length = 10 ∧
      (run (init_lsm_tree empty_fs) long_key_calls).tree.memtable.size = 9) := by
  decide

set_option maxRecDepth 1000000 in
/-- C4 at eleven concrete calls on a fresh engine. -/
theorem C4_capacity_flush_witness :
    (run (init_lsm_tree empty_fs) ten_calls).tree.memtable.size = 10 ∧
    (run (init_lsm_tree empty_fs) ten_calls).tree.sstables = [] ∧
    (run (init_lsm_tree empty_fs) (ten_calls ++ [call_at 2 [107] [49, 49]])).tree.memtable.size
      = 1 ∧
    (run (init_lsm_tree empty_fs) (ten_calls ++ [call_at 2 [107] [49, 49]])).tree.sstables
      = [{ filename := FileName.sstable 2 }] :=
  have h := C4_capacity_flush (init_lsm_tree empty_fs) ten_calls (call_at 2 [107] [49, 49])
    (by decide) (by decide) (by decide) (by decide) (by decide) (by decide)
  ⟨h.1.1, h.1.2.2.2.1, h.2.1, (h.2.2.2.2.2 (by decide)).1⟩


set_option maxRecDepth 1000000 in
/-- C5 as stated fails: a successful flush brings the catalog to 3 entries, the
compaction that runs cannot create its file, and the catalog keeps its 3
entries. -/
theorem C5_counterexample :
    (run (init_lsm_tree empty_fs) twenty_one_calls).tree.sstable_count = 2 ∧
    (run (init_lsm_tree empty_fs) twenty_one_calls).tree.memtable.size = 1 ∧
    (_flush_memtable (run (init_lsm_tree empty_fs) twenty_one_calls)
      compaction_fails).tree.memtable.size = 0 ∧
    (_flush_memtable (run (init_lsm_tree empty_fs) twenty_one_calls)
      compaction_fails).fs (FileName.sstable 4) = some [117, 58, 49, 10] ∧
    (_flush_memtable (run (init_lsm_tree empty_fs) twenty_one_calls)
      compaction_fails).tree.sstable_count = 3 := by
  decide

/-- C5 (compaction trigger), amended: a `_flush_memtable` of a memtable that is
not empty whose segment file can be opened runs exactly one compaction before
it returns when it brings the catalog to 3 entries (or more), and the catalog
then has exactly 1 entry provided the compaction can create its file; when the
flush leaves the catalog with fewer than 3 entries it runs no compaction. -/
theorem C5_compaction_trigger (s : State) (env : Env)
    (hne : s.tree.memtable.size ≠ 0) (hopen : env.flush_open = true) :
    ∃ x, (_flush_memtable s env).out
        = s.out ++ [Event.flushing, Event.flush_complete (FileName.sstable env.flush_time)] ++ x ∧
      (s.tree.sstable_count + 1 ≥ 3 →
        x.count Event.starting_compaction = 1 ∧
        (env.compact_open = true → (_flush_memtable s env).tree.sstable_count = 1)) ∧
      (s.tree.sstable_count + 1 < 3 →
        x.count Event.starting_compaction = 0 ∧
        (_flush_memtable s env).tree.sstable_count = s.tree.sstable_count + 1) := by
  obtain ⟨_, f2, f3, x, f4, _, f6⟩ := flush_success hne hopen
  refine ⟨x, f4, ?_, ?_⟩
  · intro h
    rw [if_pos h] at f6
    refine ⟨f6, ?_⟩
    intro hc
    rw [f3 h, hc]
    rfl
  · intro h
    rw [if_neg (by omega)] at f6
    refine ⟨f6, ?_⟩
    rw [f2 h]
    simp [flush_written, LSMTree.sstable_count]

set_option maxRecDepth 1000000 in
/-- C5 at a concrete flush that brings the catalog to 3 entries. -/
theorem C5_compaction_trigger_witness :
    (run (init_lsm_tree empty_fs) twenty_one_calls).tree.memtable.size ≠ 0 ∧
    (run (init_lsm_tree empty_fs) twenty_one_calls).tree.sstable_count + 1 ≥ 3 ∧
    (_flush_memtable (run (init_lsm_tree empty_fs) twenty_one_calls)
      (call_at 4 [] []).env).tree.sstable_count = 1 := by
  obtain ⟨x, _, h2, _⟩ := C5_compaction_trigger
    (run (init_lsm_tree empty_fs) twenty_one_calls) (call_at 4 [] []).env (by decide) rfl
  exact ⟨by decide, by decide, (h2 (by decide)).2 rfl⟩


/-! ## Lemmas on the tokens of a line -/

theorem strtok_some {s tok rest : List Nat} (h : strtok s = (some tok, rest)) :
    tok ≠ [] ∧ (∀ b ∈ tok, b ≠ 58 ∧ b ∈ s) ∧ ∀ b ∈ rest, b ∈ s := by
  unfold strtok at h
  have hsub : (s.dropWhile (fun b => b == 58)).Sublist s := List.dropWhile_sublist _
  cases hd : s.dropWhile (fun b => b == 58) with
  | nil => simp [hd] at h
  | cons c t =>
    rw [hd] at hsub
    simp only [hd, Prod.mk.injEq, Option.some.injEq] at h
    obtain ⟨h1, h2⟩ := h
    have hc : c ≠ 58 := by
      have := List.head_dropWhile_not (fun b => b == 58) s (by rw [hd]; simp)
      simp only [hd, List.head_cons, beq_eq_false_iff_ne] at this
      exact this
    refine ⟨?_, ?_, ?_⟩
    · rw [← h1]
      simp [List.takeWhile_cons, hc]
    · intro b hb
      rw [← h1] at hb
      refine ⟨by simpa using List.mem_takeWhile_imp hb, ?_⟩
      exact hsub.subset ((List.takeWhile_sublist _).subset hb)
    · intro b hb
      rw [← h2] at hb
      exact hsub.subset ((List.dropWhile_sublist _).subset ((List.drop_sublist _ _).subset hb))

theorem parse_line_tokens {line k v : List Nat} (h : parse_line line = (some k, some v)) :
    (k ≠ [] ∧ ∀ b ∈ k, b ≠ 0 ∧ b ≠ 10 ∧ b ≠ 58) ∧ (v ≠ [] ∧ ∀ b ∈ v, b ≠ 0 ∧ b ≠ 10 ∧ b ≠ 58) := by
  unfold parse_line at h
  simp only [Prod.mk.injEq] at h
  obtain ⟨h1, h2⟩ := h
  have hline : ∀ b ∈ (cstr line).takeWhile (fun b => b != 10), b ≠ 0 ∧ b ≠ 10 := by
    intro b hb
    refine ⟨?_, by simpa using List.mem_takeWhile_imp hb⟩
    exact cstr_no_zero line b ((List.takeWhile_sublist _).subset hb)
  have e1 : strtok ((cstr line).takeWhile (fun b => b != 10))
      = (some k, (strtok ((cstr line).takeWhile (fun b => b != 10))).2) := by
    rw [← h1]
  obtain ⟨a1, a2, a3⟩ := strtok_some e1
  have e2 : strtok (strtok ((cstr line).takeWhile (fun b => b != 10))).2
      = (some v, (strtok (strtok ((cstr line).takeWhile (fun b => b != 10))).2).2) := by
    rw [← h2]
  obtain ⟨b1, b2, _⟩ := strtok_some e2
  refine ⟨⟨a1, ?_⟩, ⟨b1, ?_⟩⟩
  · intro b hb
    obtain ⟨x, y⟩ := a2 b hb
    exact ⟨(hline b y).1, (hline b y).2, x⟩
  · intro b hb
    obtain ⟨x, y⟩ := b2 b hb
    have := hline b (a3 b y)
    exact ⟨this.1, this.2, x⟩

theorem file_entries_tokens {content : List Nat} {p : List Nat × List Nat}
    (h : p ∈ file_entries content) :
    (p.1 ≠ [] ∧ ∀ b ∈ p.1, b ≠ 0 ∧ b ≠ 10 ∧ b ≠ 58) ∧
    (p.2 ≠ [] ∧ ∀ b ∈ p.2, b ≠ 0 ∧ b ≠ 10 ∧ b ≠ 58) := by
  unfold file_entries at h
  rw [List.mem_filterMap] at h
  obtain ⟨line, _, hl⟩ := h
  rcases hp : parse_line line with ⟨_ | k, _ | v⟩
  · simp [hp] at hl
  · simp [hp] at hl
  · simp [hp] at hl
  · simp only [hp, Option.some.injEq] at hl
    rw [← hl]
    exact parse_line_tokens hp

theorem catalog_entries_valid {fs : FileSystem} {ts : List SSTable}
    (hshort : ∀ p ∈ catalog_entries fs ts, p.1.length < 50 ∧ p.2.length < 50) :
    ∀ p ∈ catalog_entries fs ts, Valid p.1 ∧ Valid p.2 := by
  intro p hp
  obtain ⟨l1, l2⟩ := hshort p hp
  unfold catalog_entries at hp
  rw [List.mem_flatMap] at hp
  obtain ⟨t, _, ht⟩ := hp
  cases hfs : fs t.filename with
  | none => simp [hfs] at ht
  | some c =>
    simp only [hfs] at ht
    obtain ⟨⟨a1, a2⟩, ⟨b1, b2⟩⟩ := file_entries_tokens ht
    exact ⟨⟨a1, l1, a2⟩, ⟨b1, l2, b2⟩⟩


set_option maxRecDepth 1000000 in
/-- C7 as stated fails: when the compacted file gets the name of a catalogued
file (fifty-one calls within one second) the catalog entry names a file that
has been removed; keys longer than the key field are not written back as they
were read; and a key read from a line without value has no line in the
compacted file. -/
theorem C7_counterexample :
    ((run (init_lsm_tree empty_fs) same_second_51).out.getLast?
        = some Event.compaction_complete ∧
      (run (init_lsm_tree empty_fs) same_second_51).tree.sstables
        = [{ filename := FileName.compacted_sstable 1 }] ∧
      (run (init_lsm_tree empty_fs) same_second_51).fs (FileName.compacted_sstable 1) = none) ∧
    (catalog_entries long_key_state.fs long_key_state.tree.sstables
        = [(List.replicate 50 97 ++ [120], [112]), (List.replicate 50 97 ++ [121], [112])] ∧
      ((_compact_sstables long_key_state 2 true).fs (FileName.compacted_sstable 2)).map
          file_entries
        = some [(List.replicate 50 97 ++ [112], [112]), (List.replicate 50 97 ++ [112], [112])]) ∧
    (((round_trip_state empty_fs [107] []).fs (FileName.sstable 7)).map file_keys
        = some [[107]] ∧
      (_compact_sstables (round_trip_state empty_fs [107] []) 8 true).fs
        (FileName.compacted_sstable 8) = some []) := by
  decide

/-- C7 (compaction result), amended: when `_compact_sstables` can create its
file under a name that no catalogued segment has, and the keys and values read
from the catalogued segments are shorter than 50 bytes, then afterwards the
catalog holds exactly one entry, the file it names holds exactly one line for
each distinct key that was read together with a value, carrying the value of
the last occurrence of the key when the segments are read in catalog order,
with the lines in ascending key order, and the previously catalogued segment
files no longer exist. -/
theorem C7_compaction_result (s : State) (now : Int)
    (hnew : ∀ t ∈ s.tree.sstables, t.filename ≠ FileName.compacted_sstable now)
    (hshort : ∀ p ∈ catalog_entries s.fs s.tree.sstables, p.1.length < 50 ∧ p.2.length < 50) :
    (_compact_sstables s now true).tree.sstables
      = [{ filename := FileName.compacted_sstable now }] ∧
    (∃ l : List (List Nat × List Nat),
      (_compact_sstables s now true).fs (FileName.compacted_sstable now) = some (encode l) ∧
      (l.map Prod.fst).Nodup ∧
      (∀ k v, (k, v) ∈ l ↔ lookup k (catalog_entries s.fs s.tree.sstables).reverse = some v) ∧
      (l.map Prod.fst).Pairwise (fun a b => strcmp a b ≤ 0)) ∧
    ∀ t ∈ s.tree.sstables, (_compact_sstables s now true).fs t.filename = none := by
  obtain ⟨l, h1, _, h3, h4, h5⟩ := compact_fs now (catalog_entries_valid hshort) hnew
  refine ⟨by simp [_compact_sstables], ⟨l, h1, h3, ?_, h4⟩, fun t ht => compact_removed now ht⟩
  intro k v
  rw [← h5 k]
  exact ⟨lookup_of_mem h3, lookup_mem⟩

set_option maxRecDepth 1000000 in
/-- C7 at a concrete compaction of two segments. -/
theorem C7_compaction_result_witness :
    (_compact_sstables (run (init_lsm_tree empty_fs) twenty_one_calls) 9 true).tree.sstables
      = [{ filename := FileName.compacted_sstable 9 }] ∧
    (_compact_sstables (run (init_lsm_tree empty_fs) twenty_one_calls) 9 true).fs
      (FileName.sstable 2) = none :=
  have h := C7_compaction_result (run (init_lsm_tree empty_fs) twenty_one_calls) 9
    (by decide) (by decide)
  ⟨h.1, h.2.2 { filename := FileName.sstable 2 } (by decide)⟩


/-! ## Lemmas on the lookup order -/

theorem find?_reverse_eq_getLast?_filter {α : Type} (p : α → Bool) (l : List α) :
    l.reverse.find? p = (l.filter p).getLast? := by
  induction l with
  | nil => rfl
  | cons a t ih =>
    rw [List.reverse_cons, List.find?_append, ih, List.filter_cons]
    by_cases ha : p a = true
    · rw [if_pos ha]
      cases hf : t.filter p with
      | nil => simp [ha]
      | cons b u =>
        have hx : (b :: u).getLast? = some ((b :: u).getLast (by simp)) :=
          List.getLast?_eq_getLast _ _
        rw [List.getLast?_cons_cons, hx]
        rfl
    · rw [if_neg ha]
      cases (t.filter p).getLast? <;> simp [ha]

theorem find_key_rev_eq (data : List KeyValuePair) (n : Nat) (key : List Nat) :
    find_key_rev data n key
      = ((List.range n).filter (fun i => key_at data i = cstr key)).getLast? := by
  unfold find_key_rev
  rw [find?_reverse_eq_getLast?_filter]
  congr 1
  apply List.filter_congr
  intro i _
  have : strcmp (key_at data i) key = 0 ↔ key_at data i = cstr key := by
    rw [strcmp_eq_zero]
    unfold key_at
    rw [cstr_idem]
  rw [Bool.eq_iff_iff]
  simp only [beq_iff_eq, decide_eq_true_eq]
  exact this

theorem parse_line_key_no_zero {line k : List Nat} (h : (parse_line line).1 = some k) :
    cstr k = k := by
  unfold parse_line at h
  simp only at h
  have e1 : strtok ((cstr line).takeWhile (fun b => b != 10))
      = (some k, (strtok ((cstr line).takeWhile (fun b => b != 10))).2) := by
    rw [← h]
  obtain ⟨_, a2, _⟩ := strtok_some e1
  apply cstr_eq_self
  intro b hb
  exact cstr_no_zero line b ((List.takeWhile_sublist _).subset (a2 b hb).2)

theorem search_lines_eq (key : List Nat) (lines : List (List Nat)) :
    search_lines key lines
      = ((lines.map parse_line).find? (fun p => p.1 = some (cstr key))).map (fun p => p.2) := by
  induction lines with
  | nil => rfl
  | cons line rest ih =>
    simp only [search_lines, List.map_cons, List.find?_cons]
    rcases hp : parse_line line with ⟨_ | k, v⟩
    · simp [ih]
    · have hk : cstr k = k := parse_line_key_no_zero (by rw [hp])
      have hiff : strcmp k key = 0 ↔ k = cstr key := by rw [strcmp_eq_zero, hk]
      by_cases e : k = cstr key
      · have d : decide ((some k : Option (List Nat)) = some (cstr key)) = true := by
          simp [e]
        simp only [if_pos (hiff.2 e), d]
        rfl
      · have e' : ¬ strcmp k key = 0 := fun x => e (hiff.1 x)
        have d : decide ((some k : Option (List Nat)) = some (cstr key)) = false := by
          simp [e]
        simp only [if_neg e', d, ih]

theorem search_sstables_eq (fs : FileSystem) (key : List Nat) (ts : List SSTable) :
    search_sstables fs key ts
      = match ts.findSome? (segment_value fs key) with
        | some v => v
        | none => none := by
  induction ts with
  | nil => rfl
  | cons t older ih =>
    simp only [search_sstables, List.findSome?_cons, segment_value]
    cases hfs : fs t.filename with
    | none => simp only [ih]
    | some content =>
      simp only [search_lines_eq]
      cases ((file_lines content).map parse_line).find? (fun p => p.1 = some (cstr key)) with
      | none => simp only [Option.map_none', ih]
      | some p => rfl

theorem get_eq_lookup_order (s : State) (key : List Nat) :
    found_string s key = get_by_lookup_order s key := by
  unfold found_string get_by_lookup_order memtable_value
  rw [find_key_rev_eq, search_sstables_eq]
  cases ((List.range s.tree.memtable.size).filter
      (fun i => key_at s.tree.memtable.data i = cstr key)).getLast? <;> rfl

/-- C9 (flush failure is non-destructive): when `_flush_memtable` cannot open
the segment file it returns with the memtable holding the same records (the
same size and the same records, which `qsort` has put in key order), with the
catalog, its length and the files unchanged, and without running a
compaction. -/
theorem C9_flush_failure (s : State) (env : Env) (hfail : env.flush_open = false) :
    (_flush_memtable s env).tree.memtable.size = s.tree.memtable.size ∧
    (_flush_memtable s env).tree.memtable.capacity = s.tree.memtable.capacity ∧
    (live (_flush_memtable s env).tree.memtable).Perm (live s.tree.memtable) ∧
    (_flush_memtable s env).tree.sstables = s.tree.sstables ∧
    (_flush_memtable s env).tree.sstable_count = s.tree.sstable_count ∧
    (_flush_memtable s env).fs = s.fs ∧
    (_flush_memtable s env).out
      = s.out ++ (if s.tree.memtable.size = 0 then []
                  else [Event.flushing, Event.flush_open_failed]) ∧
    (_flush_memtable s env).out.count Event.starting_compaction
      = s.out.count Event.starting_compaction := by
  by_cases hz : s.tree.memtable.size = 0
  · have : _flush_memtable s env = s := by simp [_flush_memtable, hz]
    rw [this]
    simp [hz]
  · have hout : (_flush_memtable s env).out
        = s.out ++ [Event.flushing, Event.flush_open_failed] := by
      simp [_flush_memtable, hz, hfail]
    refine ⟨?_, ?_, ?_, ?_, ?_, ?_, ?_, ?_⟩
    · simp [_flush_memtable, hz, hfail]
    · simp [_flush_memtable, hz, hfail]
    · have hl : live (_flush_memtable s env).tree.memtable
          = (qsort (s.tree.memtable.data.take s.tree.memtable.size)
              ++ s.tree.memtable.data.drop s.tree.memtable.size).take s.tree.memtable.size := by
        simp [_flush_memtable, hz, hfail, live]
      have hlen : (qsort (s.tree.memtable.data.take s.tree.memtable.size)).length
          ≤ s.tree.memtable.size := by
        rw [qsort_length, List.length_take]; omega
      by_cases hle : s.tree.memtable.size ≤ s.tree.memtable.data.length
      · rw [hl, take_sorted_live _ hle]
        exact qsort_perm _
      · have hdrop : s.tree.memtable.data.drop s.tree.memtable.size = [] :=
          List.drop_of_length_le (by omega)
        rw [hl, hdrop, List.append_nil, List.take_of_length_le hlen]
        exact qsort_perm _
    · simp [_flush_memtable, hz, hfail]
    · simp [_flush_memtable, hz, hfail, LSMTree.sstable_count]
    · simp [_flush_memtable, hz, hfail]
    · rw [hout, if_neg hz]
    · rw [hout, List.count_append]
      simp

set_option maxRecDepth 1000000 in
/-- C9 at a concrete memtable of ten records whose segment file cannot be
opened. -/
theorem C9_flush_failure_witness :
    (_flush_memtable (run (init_lsm_tree empty_fs) ten_calls) failing_call.env).tree.memtable.size
      = 10 ∧
    (_flush_memtable (run (init_lsm_tree empty_fs) ten_calls) failing_call.env).tree.sstables
      = [] :=
  have h := C9_flush_failure (run (init_lsm_tree empty_fs) ten_calls) failing_call.env rfl
  ⟨h.1.trans (by decide), h.2.2.2.1.trans (by decide)⟩


set_option maxRecDepth 1000000 in
/-- C10 (memtable key uniqueness) fails on the code: after two calls of
`lsm_tree_put` with the same key of 51 bytes the memtable holds two records
with equal key fields, which also read as equal strings. -/
theorem C10_duplicate_keys :
    (run (init_lsm_tree empty_fs) duplicate_calls).tree.memtable.size = 2 ∧
    live (run (init_lsm_tree empty_fs) duplicate_calls).tree.memtable
      = [{ key := List.replicate 50 97, value := 118 :: List.replicate 49 0 },
         { key := List.replicate 50 97, value := 118 :: List.replicate 49 0 }] ∧
    key_at (run (init_lsm_tree empty_fs) duplicate_calls).tree.memtable.data 0
      = List.replicate 50 97 ++ [118] ∧
    key_at (run (init_lsm_tree empty_fs) duplicate_calls).tree.memtable.data 1
      = List.replicate 50 97 ++ [118] := by
  decide


set_option maxRecDepth 1000000 in
/-- C11 (bounded fields stay terminated) fails on the code: after
`lsm_tree_put` with a key of 51 bytes and a value of 50 bytes the stored key
and the stored value are the first 50 bytes of their arguments, and neither
field holds a NUL byte. -/
theorem C11_unterminated_fields :
    live (run (init_lsm_tree empty_fs) long_field_calls).tree.memtable
      = [{ key := List.replicate 50 97, value := List.replicate 50 119 }] ∧
    (∀ r ∈ live (run (init_lsm_tree empty_fs) long_field_calls).tree.memtable,
      r.key.length = 50 ∧ r.value.length = 50 ∧ 0 ∉ r.key ∧ 0 ∉ r.value) := by
  decide


/-! ## Lemmas on the segment written by a flush -/

theorem flush_written_content {s : State} (env : Env)
    (hsz : s.tree.memtable.size ≤ s.tree.memtable.data.length)
    (hterm : ∀ r ∈ live s.tree.memtable, Terminated r) :
    (flush_written s env).fs (FileName.sstable env.flush_time)
      = some ((s.fs (FileName.sstable env.flush_time)).getD []
          ++ encode ((qsort (live s.tree.memtable)).map decode)) := by
  have hlen : s.tree.memtable.size ≤
      (qsort (s.tree.memtable.data.take s.tree.memtable.size)
        ++ s.tree.memtable.data.drop s.tree.memtable.size).length := by
    rw [List.length_append, qsort_length, List.length_take, List.length_drop]; omega
  have hterm' : ∀ r ∈ (qsort (s.tree.memtable.data.take s.tree.memtable.size)
        ++ s.tree.memtable.data.drop s.tree.memtable.size).take s.tree.memtable.size,
      Terminated r := by
    rw [take_sorted_live _ hsz]
    intro r hr
    exact hterm r ((qsort_perm _).mem_iff.1 hr)
  simp only [flush_written, write_file, if_true]
  rw [write_records_eq hlen hterm', take_sorted_live _ hsz]

set_option maxRecDepth 1000000 in
/-- C12 as stated fails: a flush into a file that exists already leaves a
segment with more lines than the memtable has records; a flush that brings the
catalog to 3 entries returns with a catalog whose only entry is the compacted
file, the flushed segment being removed; and a record whose key field has no
NUL byte is written with a key that runs on into its value. -/
theorem C12_counterexample :
    ((run (init_lsm_tree empty_fs) (same_second_calls.take 20)).tree.memtable.size = 10 ∧
      ((_flush_memtable (run (init_lsm_tree empty_fs) (same_second_calls.take 20))
          (call_at 1 [] []).env).fs (FileName.sstable 1)).map
        (fun content => (file_entries content).length) = some 20) ∧
    ((run (init_lsm_tree empty_fs) twenty_one_calls).tree.memtable.size = 1 ∧
      (_flush_memtable (run (init_lsm_tree empty_fs) twenty_one_calls)
          (call_at 4 [] []).env).tree.sstables
        = [{ filename := FileName.compacted_sstable 4 }] ∧
      (_flush_memtable (run (init_lsm_tree empty_fs) twenty_one_calls)
          (call_at 4 [] []).env).fs (FileName.sstable 4) = none) ∧
    (live (run (init_lsm_tree empty_fs) [call_at 1 (List.replicate 51 97) [118]]).tree.memtable
        = [{ key := List.replicate 50 97, value := 118 :: List.replicate 49 0 }] ∧
      (_flush_memtable (run (init_lsm_tree empty_fs) [call_at 1 (List.replicate 51 97) [118]])
          (call_at 2 [] []).env).fs (FileName.sstable 2)
        = some (List.replicate 50 97 ++ [118, 58, 118, 10])) := by
  decide

/-- C12 (flush output), amended: on an empty memtable `_flush_memtable` changes
nothing.  On a memtable that is not empty and whose records hold terminated
strings, a `_flush_memtable` that can open its file appends to that file one
`key:value` line per record, the lines being a permutation of the memtable's
records in ascending key order (they are all lines of the file when the file
did not exist), appends the segment as the last catalog entry and leaves the
memtable with size 0; the flush returns this state when the catalog stays below
3 entries, and the state that the compaction makes of it otherwise. -/
theorem C12_flush_output (s : State) (env : Env) :
    (s.tree.memtable.size = 0 → _flush_memtable s env = s) ∧
    (s.tree.memtable.size ≠ 0 → env.flush_open = true →
      s.tree.memtable.size ≤ s.tree.memtable.data.length →
      (∀ r ∈ live s.tree.memtable, Terminated r) →
      (∃ l : List (List Nat × List Nat),
        l.Perm (mem_pairs s.tree.memtable) ∧
        (l.map Prod.fst).Pairwise (fun a b => strcmp a b ≤ 0) ∧
        (flush_written s env).fs (FileName.sstable env.flush_time)
          = some ((s.fs (FileName.sstable env.flush_time)).getD [] ++ encode l)) ∧
      (flush_written s env).tree.sstables
        = s.tree.sstables ++ [{ filename := FileName.sstable env.flush_time }] ∧
      (flush_written s env).tree.memtable.size = 0 ∧
      (_flush_memtable s env).tree.memtable.size = 0 ∧
      (s.tree.sstable_count + 1 < 3 → _flush_memtable s env = flush_written s env) ∧
      (s.tree.sstable_count + 1 ≥ 3 → _flush_memtable s env
        = _compact_sstables (flush_written s env) env.compact_time env.compact_open)) := by
  constructor
  · intro hz
    simp [_flush_memtable, hz]
  · intro hne hopen hsz hterm
    obtain ⟨f1, f2, f3, _⟩ := flush_success hne hopen
    refine ⟨⟨(qsort (live s.tree.memtable)).map decode, qsort_pairs_perm _, ?_,
      flush_written_content env hsz hterm⟩, rfl, rfl, ?_, f2, f3⟩
    · have := qsort_sorted hterm
      simpa [List.map_map, decode, Function.comp_def] using this
    · rw [f1]; rfl

set_option maxRecDepth 1000000 in
/-- C12 at a concrete memtable of ten records on a fresh engine. -/
theorem C12_flush_output_witness :
    (_flush_memtable (run (init_lsm_tree empty_fs) ten_calls)
      (call_at 2 [] []).env).tree.memtable.size = 0 ∧
    (_flush_memtable (run (init_lsm_tree empty_fs) ten_calls) (call_at 2 [] []).env)
      = flush_written (run (init_lsm_tree empty_fs) ten_calls) (call_at 2 [] []).env ∧
    (flush_written (run (init_lsm_tree empty_fs) ten_calls) (call_at 2 [] []).env).tree.sstables
      = [{ filename := FileName.sstable 2 }] :=
  have h := (C12_flush_output (run (init_lsm_tree empty_fs) ten_calls) (call_at 2 [] []).env).2
    (by decide) rfl (by decide) (by decide)
  ⟨h.2.2.2.1, h.2.2.2.2.1 (by decide), h.2.1⟩


/-! ## Lemmas on well-formed segments -/

theorem wellFormed_pairs {fs : FileSystem} {t : SSTable} (h : WellFormedSegment fs t) :
    fs t.filename = some (encode (seg_pairs fs t)) ∧
    (∀ p ∈ seg_pairs fs t, Valid p.1 ∧ Valid p.2) ∧ ((seg_pairs fs t).map Prod.fst).Nodup := by
  unfold WellFormedSegment at h
  unfold seg_pairs
  cases hfs : fs t.filename with
  | none => simp [hfs] at h
  | some content =>
    simp only [hfs] at h ⊢
    obtain ⟨h1, h2, h3⟩ := h
    exact ⟨by rw [h1], h2, h3⟩

theorem search_sstables_wf {fs : FileSystem} {ts : List SSTable}
    (h : ∀ t ∈ ts, WellFormedSegment fs t) (key : List Nat) :
    search_sstables fs key ts = first_of (cstr key) (ts.map (seg_pairs fs)) := by
  induction ts with
  | nil => simp [search_sstables, first_of]
  | cons t rest ih =>
    obtain ⟨hfs, hv, _⟩ := wellFormed_pairs (h t (List.mem_cons_self _ _))
    have hr : ∀ q ∈ rest, WellFormedSegment fs q := fun q hq => h q (List.mem_cons_of_mem _ hq)
    simp only [search_sstables, hfs, List.map_cons, first_of]
    rw [file_lines_encode hv, search_lines_encode hv, ih hr]
    cases lookup (cstr key) (seg_pairs fs t) <;> simp

theorem wellFormed_ne_of_none {fs : FileSystem} {n : FileName} {t : SSTable}
    (hs : WellFormedSegment fs t) (hn : fs n = none) : t.filename ≠ n := by
  intro e
  unfold WellFormedSegment at hs
  rw [e, hn] at hs
  exact hs

/-! ## Lemmas on the update in place -/

theorem find?_range_first (p : Nat → Bool) (n i : Nat)
    (h : (List.range n).find? p = some i) : i < n ∧ p i = true ∧ ∀ m, m < i → p m = false := by
  induction n with
  | zero => simp at h
  | succ n ih =>
    rw [List.range_succ, List.find?_append] at h
    cases hf : (List.range n).find? p with
    | some a =>
      rw [hf] at h
      simp only [Option.or_some, Option.some.injEq] at h
      subst h
      obtain ⟨h1, h2, h3⟩ := ih hf
      exact ⟨by omega, h2, h3⟩
    | none =>
      rw [hf] at h
      simp only [Option.none_or] at h
      have hp := List.find?_some h
      have hm := List.mem_of_find?_eq_some h
      rw [List.mem_singleton] at hm
      subst hm
      refine ⟨by omega, hp, ?_⟩
      intro m hm
      rw [List.find?_eq_none] at hf
      have := hf m (List.mem_range.2 hm)
      simpa using this

theorem put_found_eq {s : State} {key value : List Nat} (env : Env) {i : Nat} {r : KeyValuePair}
    (hfind : find_key s.tree.memtable.data s.tree.memtable.size key = some i)
    (hr : s.tree.memtable.data.get? i = some r) :
    lsm_tree_put s key value env =
      { tree := { s.tree with memtable := { s.tree.memtable with
                    data := s.tree.memtable.data.set i { r with value := strncpy value 50 } } },
        fs := s.fs, out := s.out ++ [Event.putting (cstr key)] } := by
  unfold lsm_tree_put
  simp only [hfind, hr]

/-- C14 (update in place): when the memtable holds a record with the given
key, `lsm_tree_put` overwrites the value field of the first such record and
changes nothing else: the size and the capacity of the memtable, the key
fields and their order, all other records, the catalog and the files are
unchanged, and no flush happens, whatever the size of the memtable is. -/
theorem C14_update_in_place (s : State) (key value : List Nat) (env : Env) (j : Nat)
    (hsz : s.tree.memtable.size ≤ s.tree.memtable.data.length)
    (hj : j < s.tree.memtable.size)
    (hkey : strcmp (key_at s.tree.memtable.data j) key = 0) :
    ∃ i r, i ≤ j ∧ strcmp (key_at s.tree.memtable.data i) key = 0 ∧
      (∀ m, m < i → strcmp (key_at s.tree.memtable.data m) key ≠ 0) ∧
      s.tree.memtable.data.get? i = some r ∧
      (lsm_tree_put s key value env).tree.memtable.data
        = s.tree.memtable.data.set i { key := r.key, value := strncpy value 50 } ∧
      (lsm_tree_put s key value env).tree.memtable.data.map (fun x => x.key)
        = s.tree.memtable.data.map (fun x => x.key) ∧
      (∀ n, n ≠ i → (lsm_tree_put s key value env).tree.memtable.data.get? n
        = s.tree.memtable.data.get? n) ∧
      (lsm_tree_put s key value env).tree.memtable.size = s.tree.memtable.size ∧
      (lsm_tree_put s key value env).tree.memtable.capacity = s.tree.memtable.capacity ∧
      (lsm_tree_put s key value env).tree.sstables = s.tree.sstables ∧
      (lsm_tree_put s key value env).tree.sstable_capacity = s.tree.sstable_capacity ∧
      (lsm_tree_put s key value env).fs = s.fs ∧
      (lsm_tree_put s key value env).out = s.out ++ [Event.putting (cstr key)] := by
  cases hfind : find_key s.tree.memtable.data s.tree.memtable.size key with
  | none =>
    exfalso
    unfold find_key at hfind
    rw [List.find?_eq_none] at hfind
    have := hfind j (List.mem_range.2 hj)
    simp [hkey] at this
  | some i =>
    have hfirst := find?_range_first _ _ _ hfind
    obtain ⟨h1, h2, h3⟩ := hfirst
    have hil : i < s.tree.memtable.data.length := by omega
    have hget : s.tree.memtable.data.get? i = some s.tree.memtable.data[i] := by
      simp [List.getElem?_eq_getElem hil]
    have hle : i ≤ j := by
      by_contra hcon
      have := h3 j (by omega)
      simp [hkey] at this
    have hput := @put_found_eq s key value env i _ hfind hget
    refine ⟨i, s.tree.memtable.data[i], hle, by simpa using h2, ?_, hget, ?_, ?_, ?_, ?_, ?_,
      ?_, ?_, ?_, ?_⟩
    · intro m hm
      have := h3 m hm
      simpa using this
    · rw [hput]
    · rw [hput]
      simp only [List.map_set]
      apply List.ext_getElem
      · simp
      · intro n hn1 hn2
        by_cases e : i = n
        · subst e; simp
        · simp [List.getElem_set_ne e]
    · intro n hn
      rw [hput]
      simp only [List.get?_eq_getElem?]
      exact List.getElem?_set_ne (fun e => hn e.symm)
    · rw [hput]
    · rw [hput]
    · rw [hput]
    · rw [hput]
    · rw [hput]
    · rw [hput]

set_option maxRecDepth 1000000 in
/-- C14 at a concrete memtable at capacity whose first record has the key. -/
theorem C14_update_in_place_witness :
    (run (init_lsm_tree empty_fs) ten_calls).tree.memtable.size = 10 ∧
    (lsm_tree_put (run (init_lsm_tree empty_fs) ten_calls) [97] [57]
      failing_call.env).tree.memtable.size = 10 ∧
    (lsm_tree_put (run (init_lsm_tree empty_fs) ten_calls) [97] [57]
      failing_call.env).tree.sstables = [] := by
  obtain ⟨i, r, _, _, _, _, _, _, _, h8, _, h10, _⟩ :=
    C14_update_in_place (run (init_lsm_tree empty_fs) ten_calls) [97] [57] failing_call.env 0
      (by decide) (by decide) (by decide)
  exact ⟨by decide, h8.trans (by decide), h10.trans (by decide)⟩


set_option maxRecDepth 1000000 in
/-- C15 (memtable bounds) fails on the code: with ten records in the memtable
of capacity 10 and a segment file that cannot be opened, `lsm_tree_put` with an
eleventh key does not find the key, gets the memtable back unflushed, stores at
index 10 and leaves the size at 11. -/
theorem C15_memtable_overflow :
    (run (init_lsm_tree empty_fs) ten_calls).tree.memtable.capacity = 10 ∧
    (run (init_lsm_tree empty_fs) ten_calls).tree.memtable.size = 10 ∧
    find_key (run (init_lsm_tree empty_fs) ten_calls).tree.memtable.data
      (run (init_lsm_tree empty_fs) ten_calls).tree.memtable.size failing_call.key = none ∧
    (_flush_memtable (run (init_lsm_tree empty_fs) ten_calls)
      failing_call.env).tree.memtable.size = 10 ∧
    (run (init_lsm_tree empty_fs) (ten_calls ++ [failing_call])).tree.memtable.capacity = 10 ∧
    (run (init_lsm_tree empty_fs) (ten_calls ++ [failing_call])).tree.memtable.size = 11 ∧
    (run (init_lsm_tree empty_fs) (ten_calls ++ [failing_call])).tree.memtable.data.get? 10
      = some failing_call.record := by
  decide

/-! ## Lemmas on segments that cannot be opened -/

theorem catalog_entries_readable (fs : FileSystem) (ts : List SSTable) :
    catalog_entries fs (readable fs ts) = catalog_entries fs ts := by
  unfold catalog_entries readable
  induction ts with
  | nil => rfl
  | cons t rest ih =>
    cases h : fs t.filename with
    | none => simp [List.filter_cons, h, ih]
    | some c => simp [List.filter_cons, h, ih]

theorem catalog_entries_mem {fs : FileSystem} {ts : List SSTable} {p : List Nat × List Nat}
    (h : p ∈ catalog_entries fs ts) :
    ∃ t ∈ ts, (fs t.filename).isSome = true ∧ p ∈ seg_pairs fs t := by
  unfold catalog_entries at h
  rw [List.mem_flatMap] at h
  obtain ⟨t, ht, hp⟩ := h
  refine ⟨t, ht, ?_⟩
  unfold seg_pairs
  cases hfs : fs t.filename with
  | none => simp [hfs] at hp
  | some c => simp only [hfs] at hp; exact ⟨rfl, hp⟩

theorem compact_out_last (s : State) (now : Int) :
    (_compact_sstables s now true).out.getLast? = some Event.compaction_complete := by
  have h : (_compact_sstables s now true).out
      = (s.out ++ Event.starting_compaction :: (merge_messages s.fs s.tree.sstables
          ++ [Event.compaction_successful (FileName.compacted_sstable now)]))
        ++ [Event.compaction_complete] := by
    rw [compact_out]; simp
  rw [h, List.getLast?_append]
  rfl

theorem merge_messages_failed {fs : FileSystem} {ts : List SSTable} {t : SSTable}
    (ht : t ∈ ts) (h : fs t.filename = none) :
    Event.compaction_open_failed t.filename ∈ merge_messages fs ts := by
  unfold merge_messages
  rw [List.mem_flatMap]
  exact ⟨t, ht, by simp [h]⟩


set_option maxRecDepth 1000000 in
/-- C16 as stated fails: with one segment that cannot be opened, a compacted
file that gets the name of a catalogued file is removed again, so that the
pairs of the readable segment are lost; and keys longer than the key field are
not written back as they were read. -/
theorem C16_counterexample :
    (unreadable_state.fs (FileName.sstable 2) = none ∧
      catalog_entries unreadable_state.fs unreadable_state.tree.sstables = [([97], [49])] ∧
      (_compact_sstables unreadable_state 1 true).tree.sstables
        = [{ filename := FileName.compacted_sstable 1 }] ∧
      (_compact_sstables unreadable_state 1 true).fs (FileName.compacted_sstable 1) = none) ∧
    (unreadable_long_state.fs (FileName.sstable 2) = none ∧
      catalog_entries unreadable_long_state.fs unreadable_long_state.tree.sstables
        = [(List.replicate 50 97 ++ [120], [112]), (List.replicate 50 97 ++ [121], [112])] ∧
      ((_compact_sstables unreadable_long_state 3 true).fs (FileName.compacted_sstable 3)).map
          file_entries
        = some [(List.replicate 50 97 ++ [112], [112]),
                (List.replicate 50 97 ++ [112], [112])]) := by
  decide

/-- C16 (unreadable segment during compaction), amended: when a catalogued
segment cannot be opened for reading, `_compact_sstables` reports it and goes
on; when it can create its file under a name that no catalogued segment has,
and the keys and values read are shorter than 50 bytes, it completes, the
catalog holds the compacted file only, and that file holds exactly one line for
each distinct key read together with a value from the segments that could be
opened, with the value of the last occurrence (oldest segment first), in
ascending key order; every key in it is a key of a segment that could be
opened. -/
theorem C16_unreadable_segment (s : State) (now : Int) (t0 : SSTable)
    (ht0 : t0 ∈ s.tree.sstables) (hun : s.fs t0.filename = none)
    (hnew : ∀ t ∈ s.tree.sstables, t.filename ≠ FileName.compacted_sstable now)
    (hshort : ∀ p ∈ catalog_entries s.fs (readable s.fs s.tree.sstables),
      p.1.length < 50 ∧ p.2.length < 50) :
    Event.compaction_open_failed t0.filename ∈ (_compact_sstables s now true).out ∧
    (_compact_sstables s now true).out.getLast? = some Event.compaction_complete ∧
    (_compact_sstables s now true).tree.sstables
      = [{ filename := FileName.compacted_sstable now }] ∧
    ∃ l : List (List Nat × List Nat),
      (_compact_sstables s now true).fs (FileName.compacted_sstable now) = some (encode l) ∧
      (l.map Prod.fst).Nodup ∧
      (l.map Prod.fst).Pairwise (fun a b => strcmp a b ≤ 0) ∧
      (∀ k v, (k, v) ∈ l ↔
        lookup k (catalog_entries s.fs (readable s.fs s.tree.sstables)).reverse = some v) ∧
      ∀ p ∈ l, ∃ t ∈ s.tree.sstables, (s.fs t.filename).isSome = true ∧
        p.1 ∈ (seg_pairs s.fs t).map Prod.fst := by
  rw [catalog_entries_readable] at hshort ⊢
  obtain ⟨l, h1, _, h3, h4, h5⟩ := compact_fs now (catalog_entries_valid hshort) hnew
  have hiff : ∀ k v, (k, v) ∈ l ↔
      lookup k (catalog_entries s.fs s.tree.sstables).reverse = some v := by
    intro k v
    rw [← h5 k]
    exact ⟨lookup_of_mem h3, lookup_mem⟩
  refine ⟨?_, compact_out_last s now, by simp [_compact_sstables], l, h1, h3, h4, hiff, ?_⟩
  · rw [compact_out]
    apply List.mem_append_right
    apply List.mem_cons_of_mem
    exact List.mem_append_left _ (merge_messages_failed ht0 hun)
  · intro p hp
    have hmem := lookup_mem ((hiff p.1 p.2).1 hp)
    rw [List.mem_reverse] at hmem
    obtain ⟨t, ht, hsome, hpt⟩ := catalog_entries_mem hmem
    exact ⟨t, ht, hsome, List.mem_map.2 ⟨_, hpt, rfl⟩⟩

set_option maxRecDepth 1000000 in
/-- C16 at a concrete engine whose older segment file has been deleted. -/
theorem C16_unreadable_segment_witness :
    deleted_segment_state.tree.sstables
      = [{ filename := FileName.sstable 2 }, { filename := FileName.sstable 3 }] ∧
    deleted_segment_state.fs (FileName.sstable 2) = none ∧
    (_compact_sstables deleted_segment_state 9 true).out.getLast?
      = some Event.compaction_complete ∧
    (_compact_sstables deleted_segment_state 9 true).tree.sstables
      = [{ filename := FileName.compacted_sstable 9 }] :=
  have h := C16_unreadable_segment deleted_segment_state 9 { filename := FileName.sstable 2 }
    (by decide) (by decide) (by decide) (by decide)
  ⟨by decide, by decide, h.2.1, h.2.2.1⟩

/-! ## Lemmas on lines whose value is not a token -/

theorem read_lines_lines {l : List (List Nat × List Nat)}
    (h : ∀ p ∈ l, Valid p.1 ∧ OneLine p.2) (fuel : Nat) (hf : (encode l).length ≤ fuel) :
    read_lines fuel (encode l) = l.map line_of := by
  induction l generalizing fuel with
  | nil =>
    cases fuel with
    | zero => simp [read_lines]
    | succ f => simp [read_lines, encode, fgets]
  | cons p t ih =>
    obtain ⟨hk, hv⟩ := h p (List.mem_cons_self _ _)
    have ht : ∀ q ∈ t, Valid q.1 ∧ OneLine q.2 := fun q hq => h q (List.mem_cons_of_mem _ hq)
    have henc : encode (p :: t) = (p.1 ++ [58] ++ p.2) ++ 10 :: encode t := by
      simp [encode, line_of]
    have hlen : (encode (p :: t)).length = (p.1 ++ [58] ++ p.2).length + 1 + (encode t).length := by
      rw [henc]; simp; omega
    cases fuel with
    | zero => rw [hlen] at hf; omega
    | succ f =>
      have hpre : ∀ y ∈ p.1 ++ [58] ++ p.2, y ≠ 10 := by
        intro y hy
        simp only [List.mem_append, List.mem_singleton] at hy
        rcases hy with (hy | hy) | hy
        · exact (hk.2.2 y hy).2.1
        · omega
        · exact (hv.2 y hy).2
      have hl : (p.1 ++ [58] ++ p.2).length < 199 := by
        have := hk.2.1; have := hv.1
        simp; omega
      have hne : ∃ c s, (p.1 ++ [58] ++ p.2) ++ 10 :: encode t = c :: s := by
        cases hp : p.1 with
        | nil => exact absurd hp hk.1
        | cons c s => exact ⟨c, s ++ [58] ++ p.2 ++ 10 :: encode t, by simp⟩
      obtain ⟨c, s, hcs⟩ := hne
      rw [henc, read_lines]
      have hfg : fgets 200 ((p.1 ++ [58] ++ p.2) ++ 10 :: encode t)
          = some ((p.1 ++ [58] ++ p.2) ++ [10], encode t) := by
        rw [hcs, fgets, ← hcs]
        simp only [Nat.add_one_sub_one]
        rw [fgets_chars_line _ hpre hl]
      rw [hfg]
      simp only [List.map_cons]
      rw [ih ht f (by rw [hlen] at hf; omega)]
      simp [line_of]

theorem file_lines_lines {l : List (List Nat × List Nat)}
    (h : ∀ p ∈ l, Valid p.1 ∧ OneLine p.2) : file_lines (encode l) = l.map line_of :=
  read_lines_lines h _ (Nat.le_refl _)

theorem parse_line_key {p : List Nat × List Nat} (hk : Valid p.1) (hv : OneLine p.2) :
    parse_line (line_of p) = (some p.1, (strtok p.2).1) := by
  have h0 : ∀ b ∈ line_of p, b ≠ 0 := by
    intro b hb
    simp only [line_of, List.mem_append, List.mem_singleton] at hb
    rcases hb with ((hb | hb) | hb) | hb
    · exact (hk.2.2 b hb).1
    · omega
    · exact (hv.2 b hb).1
    · omega
  have hpre : ∀ y ∈ p.1 ++ [58] ++ p.2, (fun b : Nat => b != 10) y = true := by
    intro y hy
    simp only [List.mem_append, List.mem_singleton] at hy
    rcases hy with (hy | hy) | hy
    · simpa using (hk.2.2 y hy).2.1
    · subst hy; simp
    · simpa using (hv.2 y hy).2
  have hcut : (line_of p).takeWhile (fun b => b != 10) = p.1 ++ 58 :: p.2 := by
    have := takeWhile_append_stop [] hpre (by simp : (fun b : Nat => b != 10) 10 = false)
    simpa [line_of] using this
  unfold parse_line
  simp only [cstr_eq_self h0, hcut]
  rw [strtok_token p.2 hk.1 (fun y hy => (hk.2.2 y hy).2.2)]

theorem file_keys_lines {l : List (List Nat × List Nat)}
    (h : ∀ p ∈ l, Valid p.1 ∧ OneLine p.2) : file_keys (encode l) = l.map Prod.fst := by
  unfold file_keys
  rw [file_lines_lines h]
  induction l with
  | nil => simp
  | cons p t ih =>
    obtain ⟨hk, hv⟩ := h p (List.mem_cons_self _ _)
    have ht : ∀ q ∈ t, Valid q.1 ∧ OneLine q.2 := fun q hq => h q (List.mem_cons_of_mem _ hq)
    simp only [List.map_cons, List.filterMap_cons, parse_line_key hk hv]
    rw [ih ht]

theorem strtok_length {s tok rest : List Nat} (h : strtok s = (some tok, rest)) :
    tok.length ≤ s.length := by
  unfold strtok at h
  cases hd : s.dropWhile (fun b => b == 58) with
  | nil => simp [hd] at h
  | cons c t =>
    simp only [hd, Prod.mk.injEq, Option.some.injEq] at h
    rw [← h.1, ← hd]
    exact le_trans (List.takeWhile_sublist _).length_le (List.dropWhile_sublist _).length_le

theorem file_entries_lines {l : List (List Nat × List Nat)}
    (h : ∀ p ∈ l, Valid p.1 ∧ OneLine p.2) {q : List Nat × List Nat}
    (hq : q ∈ file_entries (encode l)) :
    q.2.length < 50 ∧ ∃ p ∈ l, q.1 = p.1 := by
  unfold file_entries at hq
  rw [file_lines_lines h, List.mem_filterMap] at hq
  obtain ⟨line, hline, hparse⟩ := hq
  obtain ⟨p, hp, rfl⟩ := List.mem_map.1 hline
  obtain ⟨hk, hv⟩ := h p hp
  rw [parse_line_key hk hv] at hparse
  cases htok : strtok p.2 with
  | mk tok rest =>
    rw [htok] at hparse
    cases tok with
    | none => simp at hparse
    | some v =>
      simp only [Option.some.injEq] at hparse
      have hlen := strtok_length htok
      have := hv.1
      rw [← hparse]
      exact ⟨by show v.length < 50; omega, p, hp, rfl⟩

theorem search_lines_none {l : List (List Nat × List Nat)}
    (h : ∀ p ∈ l, Valid p.1 ∧ OneLine p.2) {key : List Nat}
    (hno : ∀ p ∈ l, p.1 ≠ cstr key) : search_lines key (l.map line_of) = none := by
  induction l with
  | nil => rfl
  | cons p t ih =>
    obtain ⟨hk, hv⟩ := h p (List.mem_cons_self _ _)
    have hne : ¬ strcmp p.1 key = 0 := by
      rw [strcmp_eq_zero, valid_cstr hk]
      exact hno p (List.mem_cons_self _ _)
    simp only [List.map_cons, search_lines, parse_line_key hk hv, if_neg hne]
    exact ih (fun q hq => h q (List.mem_cons_of_mem _ hq))
      (fun q hq => hno q (List.mem_cons_of_mem _ hq))

/-! ## Lemmas on the keys held by the engine -/

theorem valid_oneLine {v : List Nat} (h : Valid v) : OneLine v :=
  ⟨h.2.1, fun b hb => ⟨(h.2.2 b hb).1, (h.2.2 b hb).2.1⟩⟩

theorem keyMem_mono {K K1 : List (List Nat)} {m : Memtable} (hsub : ∀ k ∈ K, k ∈ K1)
    (h : KeyMem K m) : KeyMem K1 m :=
  ⟨h.1, fun r hr => ⟨(h.2 r hr).1, (h.2 r hr).2.1, (h.2 r hr).2.2.1, hsub _ (h.2 r hr).2.2.2⟩⟩

theorem keySeg_mono {K K1 : List (List Nat)} {fs : FileSystem} {t : SSTable}
    (hsub : ∀ k ∈ K, k ∈ K1) (h : KeySeg K fs t) : KeySeg K1 fs t := by
  obtain ⟨l, h1, h2, h3⟩ := h
  exact ⟨l, h1, fun p hp => ⟨(h2 p hp).1, (h2 p hp).2.1, hsub _ (h2 p hp).2.2⟩, h3⟩

theorem oneLine_strncpy {v : List Nat} (hv : OneLine v) :
    0 ∈ strncpy v 50 ∧ cstr (strncpy v 50) = v := by
  have hv0 : ∀ b ∈ v, b ≠ 0 := fun b hb => (hv.2 b hb).1
  refine ⟨zero_mem_strncpy (by rw [cstr_eq_self hv0]; exact hv.1), ?_⟩
  simpa using cstr_strncpy hv0 hv.1 []

theorem keyMem_set_value {K : List (List Nat)} {m : Memtable} {i : Nat} {value : List Nat}
    (hm : KeyMem K m) (hi : i < m.size) (hv : OneLine value) :
    ∃ r, m.data.get? i = some r ∧
      KeyMem K { m with data := m.data.set i { r with value := strncpy value 50 } } := by
  obtain ⟨hsz, hrec⟩ := hm
  have hl : i < m.data.length := by omega
  have hmem : m.data[i] ∈ live m := getElem_take_mem hi hl
  have hr := hrec _ hmem
  have hlive : live { m with data := m.data.set i { m.data[i] with value := strncpy value 50 } }
      = (live m).set i { m.data[i] with value := strncpy value 50 } := by
    simp only [live, List.set_take]
  obtain ⟨hz, hc⟩ := oneLine_strncpy hv
  refine ⟨m.data[i], by simp [List.getElem?_eq_getElem hl], ?_, ?_⟩
  · simpa using hsz
  · rw [hlive]
    intro r hr1
    rcases List.mem_or_eq_of_mem_set hr1 with h | h
    · exact hrec r h
    · rw [h]
      refine ⟨⟨hr.1.1, hz⟩, hr.2.1, ?_, hr.2.2.2⟩
      show OneLine (cstr (strncpy value 50))
      rw [hc]
      exact hv

theorem keyMem_store {K : List (List Nat)} {m : Memtable} {key value : List Nat}
    (hm : KeyMem K m) (hk : Valid key) (hv : OneLine value) :
    KeyMem (key :: K)
      { m with data := store m.data m.size (KeyValuePair.mk (strncpy key 50) (strncpy value 50)),
               size := m.size + 1 } := by
  obtain ⟨hsz, hrec⟩ := hm
  have hlive : live { m with
      data := store m.data m.size (KeyValuePair.mk (strncpy key 50) (strncpy value 50)),
      size := m.size + 1 }
      = live m ++ [KeyValuePair.mk (strncpy key 50) (strncpy value 50)] := by
    simp only [live]
    exact take_store hsz _
  obtain ⟨hz, hc⟩ := oneLine_strncpy hv
  obtain ⟨hzk, hck⟩ := oneLine_strncpy (valid_oneLine hk)
  refine ⟨store_length hsz _, ?_⟩
  rw [hlive]
  intro r hr
  rcases List.mem_append.1 hr with h | h
  · exact ⟨(hrec r h).1, (hrec r h).2.1, (hrec r h).2.2.1, List.mem_cons_of_mem _ (hrec r h).2.2.2⟩
  · rw [List.mem_singleton] at h
    rw [h]
    refine ⟨⟨hzk, hz⟩, ?_, ?_, ?_⟩
    · show Valid (cstr (strncpy key 50))
      rw [hck]; exact hk
    · show OneLine (cstr (strncpy value 50))
      rw [hc]; exact hv
    · show cstr (strncpy key 50) ∈ key :: K
      rw [hck]; exact List.mem_cons_self _ _

theorem keySeg_ne_of_none {K : List (List Nat)} {fs : FileSystem} {n : FileName} {t : SSTable}
    (hs : KeySeg K fs t) (hn : fs n = none) : t.filename ≠ n := by
  obtain ⟨l, h1, _⟩ := hs
  intro h
  rw [h, hn] at h1
  cases h1

theorem keySeg_write_file {K : List (List Nat)} {fs : FileSystem} {n : FileName}
    {c : List Nat} {t : SSTable} (h : t.filename ≠ n) (hs : KeySeg K fs t) :
    KeySeg K (write_file fs n c) t := by
  obtain ⟨l, h1, h2, h3⟩ := hs
  refine ⟨l, ?_, h2, h3⟩
  simp only [write_file, if_neg h]
  exact h1

theorem flush_written_keyInv {K : List (List Nat)} {s : State} (env : Env) (h : KeyInv K s)
    (hfresh : s.fs (FileName.sstable env.flush_time) = none) :
    KeyInv K (flush_written s env) := by
  obtain ⟨⟨hsz, hrec⟩, hsegs⟩ := h
  have hterm : ∀ r ∈ live s.tree.memtable, Terminated r := fun r hr => (hrec r hr).1
  have hseg := flush_written_content env hsz hterm
  rw [hfresh] at hseg
  simp only [Option.getD_none, List.nil_append] at hseg
  constructor
  · refine ⟨by simp [flush_written], ?_⟩
    intro r hr
    simp [flush_written, live] at hr
  · intro t ht
    have ht1 : t ∈ s.tree.sstables ++ [{ filename := FileName.sstable env.flush_time }] := ht
    rcases List.mem_append.1 ht1 with h1 | h1
    · have hne := keySeg_ne_of_none (hsegs t h1) hfresh
      exact keySeg_write_file hne (hsegs t h1)
    · rw [List.mem_singleton] at h1
      subst h1
      refine ⟨_, hseg, ?_, ?_⟩
      · intro p hp
        obtain ⟨r, hr, rfl⟩ := List.mem_map.1 hp
        have hr1 := hrec r ((qsort_perm _).mem_iff.1 hr)
        exact ⟨hr1.2.1, hr1.2.2.1, hr1.2.2.2⟩
      · have := qsort_sorted (fun r hr => hterm r hr)
        rw [List.map_map]
        exact this

theorem catalog_keys {K : List (List Nat)} {fs : FileSystem} {ts : List SSTable}
    (h : ∀ t ∈ ts, KeySeg K fs t) {p : List Nat × List Nat}
    (hp : p ∈ catalog_entries fs ts) : p.1 ∈ K ∧ p.1.length < 50 ∧ p.2.length < 50 := by
  obtain ⟨t, ht, _, hpt⟩ := catalog_entries_mem hp
  obtain ⟨l, h1, h2, _⟩ := h t ht
  simp only [seg_pairs, h1] at hpt
  obtain ⟨hlen, q, hq, hq1⟩ :=
    file_entries_lines (fun x hx => ⟨(h2 x hx).1, (h2 x hx).2.1⟩) hpt
  rw [hq1]
  exact ⟨(h2 q hq).2.2, (h2 q hq).1.2.1, hlen⟩

theorem compact_keyInv {K : List (List Nat)} {s : State} (now : Int) (h : KeyInv K s)
    (hfresh : s.fs (FileName.compacted_sstable now) = none) :
    KeyInv K (_compact_sstables s now true) := by
  have hshort : ∀ p ∈ catalog_entries s.fs s.tree.sstables,
      p.1.length < 50 ∧ p.2.length < 50 :=
    fun p hp => (catalog_keys h.2 hp).2
  have hv := catalog_entries_valid hshort
  have hnew : ∀ t ∈ s.tree.sstables, t.filename ≠ FileName.compacted_sstable now :=
    fun t ht => keySeg_ne_of_none (h.2 t ht) hfresh
  obtain ⟨l, hfs, hval, hnd, hsorted, hlook⟩ := compact_fs now hv hnew
  have hts : (_compact_sstables s now true).tree.sstables
      = [{ filename := FileName.compacted_sstable now }] := by
    simp [_compact_sstables]
  refine ⟨by rw [compact_memtable]; exact h.1, ?_⟩
  intro t ht
  rw [hts, List.mem_singleton] at ht
  subst ht
  refine ⟨l, hfs, ?_, hsorted⟩
  intro p hp
  refine ⟨(hval p hp).1, valid_oneLine (hval p hp).2, ?_⟩
  have h1 : lookup p.1 l = some p.2 := lookup_of_mem hnd hp
  rw [hlook] at h1
  have h2 := List.mem_reverse.1 (lookup_mem h1)
  exact (catalog_keys h.2 h2).1

theorem compact_failed_eq (s : State) (now : Int) :
    (_compact_sstables s now false).tree = s.tree ∧ (_compact_sstables s now false).fs = s.fs := by
  simp [_compact_sstables]

theorem flush_keyInv {K : List (List Nat)} {s : State} {env : Env} (h : KeyInv K s)
    (hf : FreshFlush s env) (hz : s.tree.memtable.size ≠ 0) :
    KeyInv K (_flush_memtable s env) ∧ (_flush_memtable s env).tree.memtable.size = 0 := by
  obtain ⟨hopen, hfresh, hcomp⟩ := hf
  have hinv1 := flush_written_keyInv env h hfresh
  have hsz1 : (flush_written s env).tree.memtable.size = 0 := rfl
  rw [flush_eq hz hopen]
  by_cases hthr : (flush_written s env).tree.sstable_count ≥ 3
  · rw [if_pos hthr]
    have hcnt : (flush_written s env).tree.sstable_count = s.tree.sstable_count + 1 := by
      simp [flush_written, LSMTree.sstable_count]
    cases hco : env.compact_open with
    | true =>
      have hcf := hcomp (by omega) hco
      have hcf1 : (flush_written s env).fs (FileName.compacted_sstable env.compact_time)
          = none := by
        simp [flush_written, write_file, hcf]
      refine ⟨compact_keyInv env.compact_time hinv1 hcf1, ?_⟩
      rw [compact_memtable, hsz1]
    | false =>
      obtain ⟨e1, e2⟩ := compact_failed_eq (flush_written s env) env.compact_time
      refine ⟨⟨?_, ?_⟩, ?_⟩
      · rw [e1]; exact hinv1.1
      · rw [e1, e2]; exact hinv1.2
      · rw [e1, hsz1]
  · rw [if_neg hthr]
    exact ⟨hinv1, hsz1⟩

theorem put_keyInv {K : List (List Nat)} {s : State} {key value : List Nat} {env : Env}
    (h : KeyInv K s) (hk : Valid key) (hv : OneLine value)
    (hf : flush_due s key → FreshFlush s env) :
    KeyInv (key :: K) (lsm_tree_put s key value env) := by
  have hsub : ∀ k ∈ K, k ∈ key :: K := fun k hk1 => List.mem_cons_of_mem _ hk1
  cases hfind : find_key s.tree.memtable.data s.tree.memtable.size key with
  | some i =>
    obtain ⟨r, hget, hm1⟩ := keyMem_set_value h.1 (find_key_some hfind).1 hv
    rw [put_found_eq env hfind hget]
    exact ⟨keyMem_mono hsub hm1, fun t ht => keySeg_mono hsub (h.2 t ht)⟩
  | none =>
    by_cases hcap : s.tree.memtable.size ≥ s.tree.memtable.capacity
    · rw [put_flush_eq env hfind hcap]
      have hinv1 : KeyInv K (_flush_memtable { s with out := s.out ++ [Event.putting (cstr key)] }
          env) := by
        by_cases hz : s.tree.memtable.size = 0
        · have : _flush_memtable { s with out := s.out ++ [Event.putting (cstr key)] } env
              = { s with out := s.out ++ [Event.putting (cstr key)] } := by
            simp [_flush_memtable, hz]
          rw [this]
          exact h
        · exact (flush_keyInv (s := { s with out := s.out ++ [Event.putting (cstr key)] }) h
            (hf ⟨hfind, hcap, hz⟩) hz).1
      exact ⟨keyMem_store hinv1.1 hk hv, fun t ht => keySeg_mono hsub (hinv1.2 t ht)⟩
    · rw [put_append env hfind (by omega)]
      exact ⟨keyMem_store h.1 hk hv, fun t ht => keySeg_mono hsub (h.2 t ht)⟩

theorem init_keyInv (fs : FileSystem) : KeyInv [] (init_lsm_tree fs) := by
  refine ⟨⟨Nat.le_refl _, ?_⟩, ?_⟩
  · intro r hr; simp [init_lsm_tree, live] at hr
  · intro t ht; simp [init_lsm_tree] at ht

theorem run_keyInv {calls : List PutCall} :
    ∀ {K : List (List Nat)} {s : State}, KeyInv K s → LineRun s calls →
      ∃ K1, KeyInv K1 (run s calls) ∧ ∀ k ∈ K1, k ∈ K ∨ ∃ c ∈ calls, c.key = k := by
  induction calls with
  | nil =>
    intro K s h _
    exact ⟨K, h, fun k hk => Or.inl hk⟩
  | cons c cs ih =>
    intro K s h hg
    obtain ⟨h1, h2, h3, h4⟩ := hg
    obtain ⟨K1, hinv, hK⟩ := ih (put_keyInv h h1 h2 h3) h4
    refine ⟨K1, hinv, ?_⟩
    intro k hk
    rcases hK k hk with e | ⟨d, hd, e⟩
    · rcases List.mem_cons.1 e with e1 | e1
      · exact Or.inr ⟨c, List.mem_cons_self _ _, e1.symm⟩
      · exact Or.inl e1
    · exact Or.inr ⟨d, List.mem_cons_of_mem _ hd, e⟩

theorem search_sstables_none {K : List (List Nat)} {fs : FileSystem} {key : List Nat}
    (hk : cstr key ∉ K) :
    ∀ ts : List SSTable, (∀ t ∈ ts, KeySeg K fs t) → search_sstables fs key ts = none := by
  intro ts
  induction ts with
  | nil => intro _; rfl
  | cons t older ih =>
    intro h
    obtain ⟨l, h1, h2, _⟩ := h t (List.mem_cons_self _ _)
    have hl : ∀ p ∈ l, Valid p.1 ∧ OneLine p.2 := fun p hp => ⟨(h2 p hp).1, (h2 p hp).2.1⟩
    have hno : ∀ p ∈ l, p.1 ≠ cstr key := by
      intro p hp e
      rw [← e] at hk
      exact hk (h2 p hp).2.2
    simp only [search_sstables, h1, file_lines_lines hl, search_lines_none hl hno]
    exact ih (fun q hq => h q (List.mem_cons_of_mem _ hq))

theorem get_null_of_keyInv {K : List (List Nat)} {s : State} {key : List Nat}
    (h : KeyInv K s) (hk : cstr key ∉ K) : lsm_tree_get s key = Pointer.null := by
  have hmem : find_key_rev s.tree.memtable.data s.tree.memtable.size key = none := by
    unfold find_key_rev
    rw [List.find?_eq_none]
    intro i hi
    have hi1 : i < s.tree.memtable.size := List.mem_range.1 (List.mem_reverse.1 hi)
    have hl : i < s.tree.memtable.data.length := by have := h.1.1; omega
    have hr := h.1.2 _ (getElem_take_mem hi1 hl)
    simp only [beq_iff_eq, strcmp_eq_zero]
    rw [key_at_eq hl hr.1.1, cstr_idem]
    intro e
    rw [← e] at hk
    exact hk hr.2.2.2
  unfold lsm_tree_get
  rw [hmem]
  simp only
  rw [search_sstables_none hk _ (fun t ht => h.2 t (List.mem_reverse.1 ht))]

/-! ## The claims on keys that were never put and on the order of the segments -/

set_option maxRecDepth 1000000 in
/-- C1 (freshness) fails on the code: after twelve calls that satisfy the
hypotheses of the claim, the last of them a second value for the key `"a"`,
the last value put for the key `"b"` is `"2"`; the loops of `lsm_tree_get` find
it in the line `b:2` of the flushed segment, and the function returns
`file_value`, a pointer into its own array `line`, which no longer exists when
the caller receives the pointer: there is no string for the caller to read.
The key `"a"`, which the memtable holds, is returned with its last value. -/
theorem C1_freshness_dead_pointer :
    GoodRun (init_lsm_tree empty_fs) sample_calls ∧
    last_put sample_calls [98] = some [50] ∧
    found_string (run (init_lsm_tree empty_fs) sample_calls) [98] = some [50] ∧
    lsm_tree_get (run (init_lsm_tree empty_fs) sample_calls) [98] = Pointer.dead_line ∧
    Pointer.string (run (init_lsm_tree empty_fs) sample_calls)
      (lsm_tree_get (run (init_lsm_tree empty_fs) sample_calls) [98]) = none ∧
    last_put sample_calls [97] = some [49, 50] ∧
    Pointer.string (run (init_lsm_tree empty_fs) sample_calls)
      (lsm_tree_get (run (init_lsm_tree empty_fs) sample_calls) [97]) = some [49, 50] := by
  decide

set_option maxRecDepth 1000000 in
/-- C2 (round trip through a segment) fails on the code: after
`lsm_tree_put("k", "v")` on a fresh engine and a flush, the segment is the line
`k:v`, which is read back as the key `"k"` and the value `"v"`, but
`lsm_tree_get("k")` returns the pointer `file_value` into its array `line`,
which no longer exists when the caller receives the pointer. -/
theorem C2_round_trip_dead_pointer :
    Valid [107] ∧ Valid [118] ∧
    (round_trip_state empty_fs [107] [118]).tree.memtable.size = 0 ∧
    (round_trip_state empty_fs [107] [118]).tree.sstables
      = [{ filename := FileName.sstable 7 }] ∧
    (round_trip_state empty_fs [107] [118]).fs (FileName.sstable 7)
      = some [107, 58, 118, 10] ∧
    parse_line [107, 58, 118, 10] = (some [107], some [118]) ∧
    lsm_tree_get (round_trip_state empty_fs [107] [118]) [107] = Pointer.dead_line ∧
    Pointer.string (round_trip_state empty_fs [107] [118])
      (lsm_tree_get (round_trip_state empty_fs [107] [118]) [107]) = none := by
  decide

set_option maxRecDepth 1000000 in
/-- C8 (get lookup order) fails on the code in its second case: in the engine
after twelve calls, the key `"a"` is held by the memtable and `lsm_tree_get`
returns the address of that record's value `"12"` (the segment holds the older
line `a:1`); the key `"b"` is not held by the memtable, the newest segment
that has a line with the key holds the value `"2"`, and `lsm_tree_get` returns
the pointer `file_value` into its array `line`, which no longer exists when the
caller receives the pointer; the key `"z"` is not found. -/
theorem C8_lookup_order_dead_pointer :
    (memtable_value (run (init_lsm_tree empty_fs) sample_calls).tree.memtable [97]
        = some [49, 50] ∧
      segment_value (run (init_lsm_tree empty_fs) sample_calls).fs [97]
        { filename := FileName.sstable 2 } = some (some [49]) ∧
      lsm_tree_get (run (init_lsm_tree empty_fs) sample_calls) [97]
        = Pointer.memtable_value 1 ∧
      Pointer.string (run (init_lsm_tree empty_fs) sample_calls)
        (lsm_tree_get (run (init_lsm_tree empty_fs) sample_calls) [97]) = some [49, 50]) ∧
    (memtable_value (run (init_lsm_tree empty_fs) sample_calls).tree.memtable [98] = none ∧
      (run (init_lsm_tree empty_fs) sample_calls).tree.sstables.reverse.findSome?
          (segment_value (run (init_lsm_tree empty_fs) sample_calls).fs [98])
        = some (some [50]) ∧
      lsm_tree_get (run (init_lsm_tree empty_fs) sample_calls) [98] = Pointer.dead_line ∧
      Pointer.string (run (init_lsm_tree empty_fs) sample_calls)
        (lsm_tree_get (run (init_lsm_tree empty_fs) sample_calls) [98]) = none) ∧
    lsm_tree_get (run (init_lsm_tree empty_fs) sample_calls) [122] = Pointer.null := by
  decide

end LSM

namespace CSRF


/-! ## Lemmas on arrays -/

theorem mem_from_to {first last a : Int} :
    a ∈ from_to first last ↔ first ≤ a ∧ a ≤ last := by
  unfold from_to
  constructor
  · intro h
    obtain ⟨k, hk, rfl⟩ := List.mem_map.1 h
    rw [List.mem_range] at hk
    omega
  · rintro ⟨h1, h2⟩
    refine List.mem_map.2 ⟨(a - first).toNat, List.mem_range.2 ?_, ?_⟩
    · omega
    · omega

theorem rd_eq {a : List Int} {i : Int} (h : 0 ≤ i) : rd a i = a[i.toNat]? := by
  unfold rd
  rw [if_pos h, List.get?_eq_getElem?]

theorem rd_some_lt {a : List Int} {i x : Int} (h : rd a i = some x) :
    0 ≤ i ∧ i.toNat < a.length := by
  unfold rd at h
  by_cases h0 : 0 ≤ i
  · rw [if_pos h0, List.get?_eq_getElem?] at h
    exact ⟨h0, (List.getElem?_eq_some.1 h).1⟩
  · rw [if_neg h0] at h; cases h

theorem rd_of_lt {a : List Int} {i : Int} (h0 : 0 ≤ i) (h : i.toNat < a.length) :
    rd a i = some (a[i.toNat]) := by
  rw [rd_eq h0, List.getElem?_eq_getElem h]

theorem wr_of_lt {a : List Int} {i : Int} (x : Int) (h0 : 0 ≤ i) (h : i.toNat < a.length) :
    wr a i x = some (a.set i.toNat x) := by
  unfold wr
  rw [if_pos ⟨h0, h⟩]

theorem slice_getElem? (c : CSR) (a : Int) (k : Nat) :
    (slice c a)[k]? =
      if k < (offset c (a + 1) - offset c a).toNat then c.F[(offset c a).toNat + k]?
      else none := by
  unfold slice
  rw [List.getElem?_take, List.getElem?_drop]

theorem slice_length {c : CSR} {a : Int} (h : ValidOffsets c) (ha : a ∈ from_to 1 c.V) :
    (slice c a).length = (offset c (a + 1) - offset c a).toNat := by
  obtain ⟨h0, h1, h2⟩ := h.2 a ha
  unfold slice
  rw [List.length_take, List.length_drop]
  omega

theorem pairwise_getElem? {s : List Int} (hs : s.Pairwise (fun x y => x ≤ y)) {i j : Nat}
    {x y : Int} (hij : i ≤ j) (hi : s[i]? = some x) (hj : s[j]? = some y) : x ≤ y := by
  obtain ⟨hi1, hi2⟩ := List.getElem?_eq_some.1 hi
  obtain ⟨hj1, hj2⟩ := List.getElem?_eq_some.1 hj
  rcases Nat.lt_or_eq_of_le hij with h | h
  · rw [← hi2, ← hj2]
    exact List.pairwise_iff_getElem.1 hs i j hi1 hj1 h
  · subst h
    rw [hi] at hj
    cases hj
    exact le_refl _

/-! ## Lemmas on `has_edge` -/

theorem has_edge_loop_spec (F s : List Int) (b to_ : Int) (hb : 0 ≤ b)
    (hs : s.Pairwise (fun x y => x ≤ y))
    (hF : ∀ k : Nat, k < s.length → F[b.toNat + k]? = s[k]?) :
    ∀ (fuel : Nat) (left right : Int), 0 ≤ left → right < s.length →
      (right - left + 1).toNat < fuel →
      (∀ (k : Nat) (x : Int), (k : Int) < left → s[k]? = some x → x < to_) →
      (∀ (k : Nat) (x : Int), right < (k : Int) → s[k]? = some x → to_ < x) →
      has_edge_loop F b to_ fuel left right = some (if to_ ∈ s then 1 else 0) := by
  intro fuel
  induction fuel with
  | zero => intro left right h1 h2 h3; omega
  | succ fuel ih =>
    intro left right h1 h2 h3 hlo hhi
    unfold has_edge_loop
    by_cases hlr : left ≤ right
    · rw [if_pos hlr]
      have hm1 : left ≤ left + (right - left) / 2 := by omega
      have hm2 : left + (right - left) / 2 ≤ right := by omega
      generalize hmid : left + (right - left) / 2 = mid at hm1 hm2 ⊢
      have hml : mid.toNat < s.length := by omega
      have hrd : rd F (b + mid) = some (s[mid.toNat]) := by
        rw [rd_eq (by omega)]
        have : (b + mid).toNat = b.toNat + mid.toNat := by omega
        rw [this, hF _ hml, List.getElem?_eq_getElem hml]
      have hsm : s[mid.toNat]? = some (s[mid.toNat]) := List.getElem?_eq_getElem hml
      simp only [hrd]
      by_cases heq : s[mid.toNat] = to_
      · rw [if_pos heq]
        have : to_ ∈ s := by rw [← heq]; exact List.getElem_mem _
        rw [if_pos this]
      · rw [if_neg heq]
        by_cases hlt : s[mid.toNat] < to_
        · rw [if_pos hlt]
          apply ih (mid + 1) right (by omega) h2 (by omega) _ hhi
          intro k x hk hx
          have := pairwise_getElem? hs (by omega : k ≤ mid.toNat) hx hsm
          omega
        · rw [if_neg hlt]
          apply ih left (mid - 1) h1 (by omega) (by omega) hlo
          intro k x hk hx
          have := pairwise_getElem? hs (by omega : mid.toNat ≤ k) hsm hx
          omega
    · rw [if_neg hlr]
      have : to_ ∉ s := by
        intro hmem
        obtain ⟨k, hk, hget⟩ := List.mem_iff_getElem.1 hmem
        have hx : s[k]? = some to_ := by rw [List.getElem?_eq_getElem hk, hget]
        by_cases hkl : (k : Int) < left
        · have := hlo k to_ hkl hx; omega
        · have := hhi k to_ (by omega) hx; omega
      rw [if_neg this]

theorem slice_F_getElem? {c : CSR} {a : Int} (h : ValidOffsets c) (ha : a ∈ from_to 1 c.V)
    (k : Nat) (hk : k < (slice c a).length) :
    c.F[(offset c a).toNat + k]? = (slice c a)[k]? := by
  rw [slice_getElem?, if_pos]
  rw [← slice_length h ha]
  exact hk

theorem rd_N_offset {c : CSR} {a : Int} (h : ValidOffsets c) (h0 : 0 ≤ a) (h1 : a ≤ c.V + 1) :
    rd c.N a = some (offset c a) := by
  have hl : a.toNat < c.N.length := by rw [h.1]; omega
  unfold offset
  rw [rd_of_lt h0 hl]
  rfl

/-- C18 (adjacency lookup): when the offsets are valid and every adjacency
slice is sorted ascending, `has_edge(from, to)` returns, and it returns 1 when
`1 <= from <= V`, `1 <= to <= V` and `to` occurs in the adjacency slice of
`from`, and 0 in every other case (a vertex outside `1..V`, a target that does
not occur, an empty slice). -/
theorem C18_has_edge {c : CSR} (hv : ValidOffsets c) (hs : SortedSlices c) (from_ to_ : Int) :
    has_edge c from_ to_ =
      some (if 1 ≤ from_ ∧ from_ ≤ c.V ∧ 1 ≤ to_ ∧ to_ ≤ c.V ∧ to_ ∈ slice c from_
        then 1 else 0) := by
  unfold has_edge
  by_cases hr : from_ < 1 ∨ from_ > c.V ∨ to_ < 1 ∨ to_ > c.V
  · rw [if_pos hr, if_neg]
    omega
  · rw [if_neg hr]
    have hf : from_ ∈ from_to 1 c.V := mem_from_to.2 (by omega)
    obtain ⟨h0, h1, h2⟩ := hv.2 from_ hf
    rw [rd_N_offset hv (by omega) (by omega), rd_N_offset hv (by omega) (by omega)]
    simp only
    have hlen := slice_length hv hf
    rw [has_edge_loop_spec c.F (slice c from_) (offset c from_) to_ h0 (hs from_ hf)
      (slice_F_getElem? hv hf) _ 0 _ (le_refl _) (by omega) (by omega)
      (by intro k x hk; omega)
      (by
        intro k x hk hx
        have := (List.getElem?_eq_some.1 hx).1
        omega)]
    congr 1
    have : (1 ≤ from_ ∧ from_ ≤ c.V ∧ 1 ≤ to_ ∧ to_ ≤ c.V ∧ to_ ∈ slice c from_)
        ↔ to_ ∈ slice c from_ := by
      constructor
      · intro h; exact h.2.2.2.2
      · intro h; exact ⟨by omega, by omega, by omega, by omega, h⟩
    simp only [this]

/-- Witness of C18 on the example graph: the lookups of the edge (2,1), which
exists, and of the edge (4,1), where the slice of vertex 4 is empty. -/
theorem C18_has_edge_witness :
    ValidOffsets sample_csr ∧ SortedSlices sample_csr ∧
    has_edge sample_csr 2 1 = some 1 ∧ has_edge sample_csr 4 1 = some 0 :=
  ⟨by decide, by decide,
   (@C18_has_edge sample_csr (by decide) (by decide) 2 1).trans (by decide),
   (@C18_has_edge sample_csr (by decide) (by decide) 4 1).trans (by decide)⟩


/-! ## Lemmas on reads and writes -/

theorem wr_some {a a1 : List Int} {i x : Int} (h : wr a i x = some a1) :
    0 ≤ i ∧ i.toNat < a.length ∧ a1 = a.set i.toNat x := by
  unfold wr at h
  by_cases hc : 0 ≤ i ∧ i.toNat < a.length
  · rw [if_pos hc] at h
    cases h
    exact ⟨hc.1, hc.2, rfl⟩
  · rw [if_neg hc] at h; cases h

theorem wr_length {a a1 : List Int} {i x : Int} (h : wr a i x = some a1) :
    a1.length = a.length := by
  obtain ⟨_, _, rfl⟩ := wr_some h
  exact List.length_set _ _ _

theorem rd_wr_same {a a1 : List Int} {i x : Int} (h : wr a i x = some a1) :
    rd a1 i = some x := by
  obtain ⟨h0, h1, rfl⟩ := wr_some h
  rw [rd_eq h0, List.getElem?_set_self h1]

theorem rd_wr_other {a a1 : List Int} {i x j : Int} (h : wr a i x = some a1) (hj : j ≠ i) :
    rd a1 j = rd a j := by
  obtain ⟨h0, h1, rfl⟩ := wr_some h
  by_cases hj0 : 0 ≤ j
  · rw [rd_eq hj0, rd_eq hj0, List.getElem?_set_ne]
    omega
  · unfold rd
    rw [if_neg hj0, if_neg hj0]

theorem rd_lt_of_some {a : List Int} {i x : Int} (h : rd a i = some x) :
    i.toNat < a.length := (rd_some_lt h).2

theorem wr_of_rd {a : List Int} {i y : Int} (x : Int) (h : rd a i = some y) :
    wr a i x = some (a.set i.toNat x) :=
  wr_of_lt x (rd_some_lt h).1 (rd_some_lt h).2

theorem from_to_cons {first last : Int} (h : first ≤ last) :
    from_to first last = first :: from_to (first + 1) last := by
  unfold from_to
  have : (last + 1 - first).toNat = (last + 1 - (first + 1)).toNat + 1 := by omega
  rw [this, List.range_succ_eq_map, List.map_cons, List.map_map]
  congr 1
  · simp
  · apply List.map_congr_left
    intro k _
    simp only [Function.comp, Nat.succ_eq_add_one]
    push_cast
    ring

theorem from_to_nil {first last : Int} (h : last < first) : from_to first last = [] := by
  unfold from_to
  have : (last + 1 - first).toNat = 0 := by omega
  rw [this]
  rfl


/-! ## Lemmas on the degrees of an edge list -/

theorem targets_nil (a : Int) : targets [] a = [] := rfl

theorem targets_cons (e : Int × Int) (es : List (Int × Int)) (a : Int) :
    targets (e :: es) a = if e.1 = a then e.2 :: targets es a else targets es a := by
  unfold targets
  by_cases h : e.1 = a
  · rw [if_pos h, List.filter_cons_of_pos (by simpa using h), List.map_cons]
  · rw [if_neg h, List.filter_cons_of_neg (by simpa using h)]

theorem targets_append (es1 es2 : List (Int × Int)) (a : Int) :
    targets (es1 ++ es2) a = targets es1 a ++ targets es2 a := by
  unfold targets
  rw [List.filter_append, List.map_append]

theorem deg_nil (a : Int) : deg [] a = 0 := rfl

theorem deg_cons (e : Int × Int) (es : List (Int × Int)) (a : Int) :
    deg (e :: es) a = (if e.1 = a then 1 else 0) + deg es a := by
  unfold deg
  rw [targets_cons]
  by_cases h : e.1 = a
  · rw [if_pos h, if_pos h, List.length_cons]; push_cast; ring
  · rw [if_neg h, if_neg h]; ring

theorem deg_append (es1 es2 : List (Int × Int)) (a : Int) :
    deg (es1 ++ es2) a = deg es1 a + deg es2 a := by
  unfold deg
  rw [targets_append, List.length_append]
  push_cast
  rfl

theorem deg_nonneg (es : List (Int × Int)) (a : Int) : 0 ≤ deg es a := by
  unfold deg
  omega

theorem cum_cons (e : Int × Int) (es : List (Int × Int)) (a : Int) :
    cum (e :: es) a = (if e.1 ≤ a then 1 else 0) + cum es a := by
  unfold cum
  by_cases h : e.1 ≤ a
  · rw [if_pos h, List.filter_cons_of_pos (by simpa using h), List.length_cons]; push_cast; ring
  · rw [if_neg h, List.filter_cons_of_neg (by simpa using h)]; ring

theorem cum_nonneg (es : List (Int × Int)) (a : Int) : 0 ≤ cum es a := by
  unfold cum
  omega

theorem cum_step (es : List (Int × Int)) (a : Int) :
    cum es a = cum es (a - 1) + deg es a := by
  induction es with
  | nil => rfl
  | cons e es ih =>
    rw [cum_cons, cum_cons, deg_cons, ih]
    by_cases h1 : e.1 ≤ a - 1
    · rw [if_pos h1, if_pos (by omega : e.1 ≤ a), if_neg (by omega : ¬ e.1 = a)]; ring
    · by_cases h2 : e.1 = a
      · rw [if_neg h1, if_pos (by omega : e.1 ≤ a), if_pos h2]; ring
      · rw [if_neg h1, if_neg (by omega : ¬ e.1 ≤ a), if_neg h2]; ring

theorem cum_mono (es : List (Int × Int)) {a b : Int} (h : a ≤ b) : cum es a ≤ cum es b := by
  induction es with
  | nil => exact le_refl _
  | cons e es ih =>
    rw [cum_cons, cum_cons]
    by_cases h1 : e.1 ≤ a
    · rw [if_pos h1, if_pos (by omega : e.1 ≤ b)]; omega
    · rw [if_neg h1]
      by_cases h2 : e.1 ≤ b
      · rw [if_pos h2]; omega
      · rw [if_neg h2]; omega

theorem cum_zero {V : Int} {es : List (Int × Int)} (h : ValidEdges V es) : cum es 0 = 0 := by
  induction es with
  | nil => rfl
  | cons e es ih =>
    have he := h e (List.mem_cons_self _ _)
    rw [cum_cons, if_neg (by omega), ih (fun x hx => h x (List.mem_cons_of_mem _ hx))]
    rfl

theorem cum_top {V : Int} {es : List (Int × Int)} (h : ValidEdges V es) {a : Int}
    (ha : V ≤ a) : cum es a = es.length := by
  induction es with
  | nil => rfl
  | cons e es ih =>
    have he := h e (List.mem_cons_self _ _)
    rw [cum_cons, if_pos (by omega), ih (fun x hx => h x (List.mem_cons_of_mem _ hx)),
      List.length_cons]
    push_cast
    ring

theorem deg_zero {V : Int} {es : List (Int × Int)} (h : ValidEdges V es) {a : Int}
    (ha : a < 1 ∨ V < a) : deg es a = 0 := by
  induction es with
  | nil => rfl
  | cons e es ih =>
    have he := h e (List.mem_cons_self _ _)
    rw [deg_cons, if_neg (by omega), ih (fun x hx => h x (List.mem_cons_of_mem _ hx))]
    rfl

/-! ## Lemmas on the first pass -/

theorem count_pass_spec (V : Int) :
    ∀ (es : List (Int × Int)) (N : List Int) (f : Int → Int),
      ValidEdges V es →
      (∀ j, 0 ≤ j → j ≤ V + 1 → rd N j = some (f j)) →
      ∃ N1, count_pass false V es N = some N1 ∧ N1.length = N.length ∧
        ∀ j, 0 ≤ j → j ≤ V + 1 → rd N1 j = some (f j + deg es j) := by
  intro es
  induction es with
  | nil =>
    intro N f _ hN
    refine ⟨N, rfl, rfl, ?_⟩
    intro j h0 h1
    rw [hN j h0 h1, deg_nil, add_zero]
  | cons e es ih =>
    intro N f hv hN
    obtain ⟨a, b⟩ := e
    have he := hv (a, b) (List.mem_cons_self _ _)
    simp only at he
    have hra := hN a (by omega) (by omega)
    have hw := wr_of_rd (f a + 1) hra
    obtain ⟨N2, h1, h2, h3⟩ := ih (N.set a.toNat (f a + 1))
      (fun j => if j = a then f a + 1 else f j)
      (fun x hx => hv x (List.mem_cons_of_mem _ hx))
      (by
        intro j h0 h1
        beta_reduce
        by_cases hj : j = a
        · rw [if_pos hj, hj]; exact rd_wr_same hw
        · rw [if_neg hj, rd_wr_other hw hj]; exact hN j h0 h1)
    refine ⟨N2, ?_, ?_, ?_⟩
    · unfold count_pass
      rw [if_neg (by omega), hra]
      simp only [hw]
      exact h1
    · rw [h2, List.length_set]
    · intro j h0 h1
      rw [h3 j h0 h1, deg_cons]
      congr 1
      by_cases hj : j = a
      · rw [if_pos hj, if_pos hj.symm, hj]; ring
      · rw [if_neg hj, if_neg (fun h => hj h.symm)]; ring


/-! ## Lemmas on the cumulative sums -/

theorem prefix_loop_spec (V : Int) (d c : Int → Int)
    (hc : ∀ a, 1 ≤ a → a ≤ V → c a = c (a - 1) + d a) :
    ∀ (n : Nat) (a0 : Int) (N : List Int), 1 ≤ a0 → a0 ≤ V + 1 → n = (V + 1 - a0).toNat →
      (∀ j, 0 ≤ j → j ≤ V + 1 → rd N j = some (if 1 ≤ j ∧ j < a0 then c j else d j)) →
      ∃ N1, prefix_loop (from_to a0 V) (c (a0 - 1)) N = some (c V, N1) ∧
        N1.length = N.length ∧
        ∀ j, 0 ≤ j → j ≤ V + 1 → rd N1 j = some (if 1 ≤ j ∧ j ≤ V then c j else d j) := by
  intro n
  induction n with
  | zero =>
    intro a0 N h1 h2 hn hN
    have ha : a0 = V + 1 := by omega
    subst ha
    refine ⟨N, ?_, rfl, ?_⟩
    · rw [from_to_nil (by omega), add_sub_cancel_right]
      rfl
    · intro j h0 h1
      rw [hN j h0 h1]
      by_cases hj : 1 ≤ j ∧ j ≤ V
      · rw [if_pos hj, if_pos ⟨hj.1, by omega⟩]
      · rw [if_neg hj, if_neg (by omega)]
  | succ n ih =>
    intro a0 N h1 h2 hn hN
    have hra := hN a0 (by omega) h2
    rw [if_neg (by omega)] at hra
    have hw := wr_of_rd (c (a0 - 1) + d a0) hra
    obtain ⟨N2, e1, e2, e3⟩ := ih (a0 + 1) (N.set a0.toNat (c (a0 - 1) + d a0))
      (by omega) (by omega) (by omega)
      (by
        intro j hj0 hj1
        by_cases hj : j = a0
        · rw [hj, rd_wr_same hw, if_pos (by omega), hc a0 h1 (by omega)]
        · rw [rd_wr_other hw hj, hN j hj0 hj1]
          by_cases hlt : 1 ≤ j ∧ j < a0
          · rw [if_pos hlt, if_pos (by omega)]
          · rw [if_neg hlt, if_neg (by omega)])
    refine ⟨N2, ?_, ?_, e3⟩
    · rw [from_to_cons (by omega)]
      unfold prefix_loop
      rw [hra]
      simp only [hw]
      rw [add_sub_cancel_right, hc a0 h1 (by omega)] at e1
      exact e1
    · rw [e2, List.length_set]

theorem prefix_pass_spec {V : Int} {es : List (Int × Int)} (hV : 0 ≤ V)
    (hv : ValidEdges V es) {N : List Int}
    (hN : ∀ j, 0 ≤ j → j ≤ V + 1 → rd N j = some (deg es j)) :
    ∃ N1, prefix_pass V N = some N1 ∧ N1.length = N.length ∧
      ∀ j, 0 ≤ j → j ≤ V + 1 → rd N1 j = some (cum es j) := by
  obtain ⟨N1, e1, e2, e3⟩ := prefix_loop_spec V (deg es) (cum es)
    (fun a _ _ => cum_step es a) (V + 1 - 1).toNat 1 N (le_refl _) (by omega) rfl
    (by
      intro j h0 h1
      rw [if_neg (by omega)]
      exact hN j h0 h1)
  have h0 : cum es (1 - 1) = 0 := by
    rw [sub_self]; exact cum_zero hv
  rw [h0] at e1
  have hr := e3 (V + 1) (by omega) (le_refl _)
  have hw := wr_of_rd (cum es V) hr
  refine ⟨N1.set (V + 1).toNat (cum es V), ?_, ?_, ?_⟩
  · unfold prefix_pass
    rw [e1]
    exact hw
  · rw [List.length_set, e2]
  · intro j h0 h1
    by_cases hj : j = V + 1
    · rw [hj, rd_wr_same hw, cum_top hv (le_refl _), cum_top hv (by omega)]
    · rw [rd_wr_other hw hj, e3 j h0 h1]
      by_cases hj1 : 1 ≤ j ∧ j ≤ V
      · rw [if_pos hj1]
      · rw [if_neg hj1]
        have : j = 0 := by omega
        rw [this, deg_zero hv (by omega), cum_zero hv]

/-! ## Lemmas on the second pass -/

theorem fill_pass_spec (V : Int) (es : List (Int × Int)) (hv : ValidEdges V es) :
    ∀ (rest done : List (Int × Int)) (N F : List Int), es = done ++ rest →
      F.length = es.length →
      (∀ j, 0 ≤ j → j ≤ V + 1 → rd N j = some (cum es j - deg done j)) →
      (∀ j, 1 ≤ j → j ≤ V → ∀ k : Nat, k < (targets done j).length →
        rd F (cum es j - 1 - k) = (targets done j)[k]?) →
      ∃ N1 F1, fill_pass false rest N F = some (N1, F1) ∧ N1.length = N.length ∧
        F1.length = F.length ∧
        (∀ j, 0 ≤ j → j ≤ V + 1 → rd N1 j = some (cum es j - deg es j)) ∧
        ∀ j, 1 ≤ j → j ≤ V → ∀ k : Nat, k < (targets es j).length →
          rd F1 (cum es j - 1 - k) = (targets es j)[k]? := by
  intro rest
  induction rest with
  | nil =>
    intro done N F hes hF hN hFi
    rw [List.append_nil] at hes
    subst hes
    exact ⟨N, F, rfl, rfl, rfl, hN, hFi⟩
  | cons e rest ih =>
    intro done N F hes hF hN hFi
    obtain ⟨a, b⟩ := e
    have he : 1 ≤ a ∧ a ≤ V ∧ 1 ≤ b ∧ b ≤ V :=
      hv (a, b) (by rw [hes]; exact List.mem_append_right _ (List.mem_cons_self _ _))
    have hdeg : ∀ j, deg es j = deg done j + (if a = j then 1 else 0) + deg rest j := by
      intro j
      rw [hes, deg_append, deg_cons]
      ring
    have hdone : ∀ j, deg (done ++ [(a, b)]) j = deg done j + (if a = j then 1 else 0) := by
      intro j
      rw [deg_append, deg_cons, deg_nil, add_zero]
    have hra := hN a (by omega) (by omega)
    have hwN := wr_of_rd (cum es a - deg done a - 1) hra
    have hda := hdeg a
    rw [if_pos rfl] at hda
    have hr0 := deg_nonneg rest a
    have hd0 := deg_nonneg done a
    have hstep := cum_step es a
    have hc0 := cum_nonneg es (a - 1)
    have htop : cum es a ≤ es.length := by
      rw [← cum_top hv (le_refl V)]
      exact cum_mono es he.2.1
    have hwF : wr F (cum es a - deg done a - 1) b
        = some (F.set (cum es a - deg done a - 1).toNat b) :=
      wr_of_lt b (by omega) (by omega)
    obtain ⟨N1, F1, e1, e2, e3, e4, e5⟩ := ih (done ++ [(a, b)])
      (N.set a.toNat (cum es a - deg done a - 1))
      (F.set (cum es a - deg done a - 1).toNat b)
      (by rw [hes, List.append_assoc]; rfl)
      (by rw [List.length_set, hF])
      (by
        intro j h0 h1
        rw [hdone]
        by_cases hj : j = a
        · rw [hj, rd_wr_same hwN, if_pos rfl]
          congr 1
          ring
        · rw [rd_wr_other hwN hj, hN j h0 h1, if_neg (fun h => hj h.symm), add_zero])
      (by
        intro j h0 h1 k hk
        rw [targets_append, targets_cons, targets_nil] at hk ⊢
        simp only at hk ⊢
        by_cases hj : a = j
        · subst hj
          rw [if_pos rfl] at hk ⊢
          rw [List.length_append, List.length_singleton] at hk
          have hlen : ((targets done a).length : Int) = deg done a := rfl
          by_cases hk1 : k < (targets done a).length
          · rw [rd_wr_other hwF (by omega), hFi a h0 h1 k hk1,
              List.getElem?_append_left hk1]
          · have hk2 : k = (targets done a).length := by omega
            have hidx : cum es a - 1 - (k : Int) = cum es a - deg done a - 1 := by
              rw [hk2]; omega
            rw [hidx, rd_wr_same hwF, hk2, List.getElem?_append_right (le_refl _),
              Nat.sub_self]
            rfl
        · rw [if_neg hj] at hk ⊢
          rw [List.append_nil] at hk ⊢
          have hlen : ((targets done j).length : Int) = deg done j := rfl
          have hdj := hdeg j
          rw [if_neg hj] at hdj
          have hrj := deg_nonneg rest j
          have hsj := cum_step es j
          rw [rd_wr_other hwF, hFi j h0 h1 k hk]
          rcases lt_or_gt_of_ne hj with hlt | hgt
          · have := cum_mono es (by omega : a ≤ j - 1)
            omega
          · have := cum_mono es (by omega : j ≤ a - 1)
            omega)
    refine ⟨N1, F1, ?_, ?_, ?_, e4, e5⟩
    · unfold fill_pass
      rw [hra]
      simp only [hwN, hwF]
      exact e1
    · rw [e2, List.length_set]
    · rw [e3, List.length_set]


/-! ## Lemmas on the parts of an array -/

theorem seg_getElem? (F : List Int) (lo hi : Int) (k : Nat) :
    (seg F lo hi)[k]? = if k < (hi - lo).toNat then F[lo.toNat + k]? else none := by
  unfold seg
  rw [List.getElem?_take, List.getElem?_drop]

theorem seg_length {F : List Int} {lo hi : Int} (h0 : 0 ≤ lo)
    (h2 : hi.toNat ≤ F.length) : (seg F lo hi).length = (hi - lo).toNat := by
  unfold seg
  rw [List.length_take, List.length_drop]
  omega

theorem slice_eq_seg (c : CSR) (a : Int) :
    slice c a = seg c.F (offset c a) (offset c (a + 1)) := rfl

theorem seg_eq_reverse {F : List Int} {lo hi : Int} {t : List Int} (h0 : 0 ≤ lo)
    (hlen : hi - lo = t.length)
    (h : ∀ k : Nat, k < t.length → rd F (hi - 1 - k) = t[k]?) : seg F lo hi = t.reverse := by
  apply List.ext_getElem?
  intro i
  rw [seg_getElem?]
  by_cases hi1 : i < t.length
  · rw [if_pos (by omega), List.getElem?_reverse hi1, ← h (t.length - 1 - i) (by omega),
      rd_eq (by omega)]
    congr 1
    omega
  · rw [if_neg (by omega), List.getElem?_eq_none (by rw [List.length_reverse]; omega)]

theorem seg_congr {F G : List Int} {lo hi : Int} (h0 : 0 ≤ lo)
    (h : ∀ i : Nat, lo ≤ i → (i : Int) < hi → G[i]? = F[i]?) : seg G lo hi = seg F lo hi := by
  apply List.ext_getElem?
  intro k
  rw [seg_getElem?, seg_getElem?]
  by_cases hk : k < (hi - lo).toNat
  · rw [if_pos hk, if_pos hk]
    exact h _ (by omega) (by omega)
  · rw [if_neg hk, if_neg hk]

/-! ## Lemmas on the sorting of the adjacencies -/

theorem icmp_total : IsTotal Int (fun x y => icmp x y ≤ 0) :=
  ⟨fun a b => by unfold icmp; omega⟩

theorem icmp_trans : IsTrans Int (fun x y => icmp x y ≤ 0) :=
  ⟨fun a b c => by unfold icmp; omega⟩

theorem sorted_icmp (l : List Int) :
    (l.insertionSort (fun x y => icmp x y ≤ 0)).Pairwise (fun x y => x ≤ y) := by
  have h := @List.sorted_insertionSort _ (fun x y => icmp x y ≤ 0) _ icmp_total icmp_trans l
  refine List.Pairwise.imp ?_ h
  intro a b hab
  unfold icmp at hab
  omega

theorem qsort_slice_some {F : List Int} {lo hi : Int} (h0 : 0 ≤ lo) (h1 : lo ≤ hi)
    (h2 : hi.toNat ≤ F.length) :
    ∃ F1, qsort_slice F lo hi = some F1 ∧ F1.length = F.length ∧
      seg F1 lo hi = (seg F lo hi).insertionSort (fun x y => icmp x y ≤ 0) ∧
      ∀ i : Nat, (i : Int) < lo ∨ hi ≤ i → F1[i]? = F[i]? := by
  have hsl : ((seg F lo hi).insertionSort (fun x y => icmp x y ≤ 0)).length
      = (hi - lo).toNat := by
    rw [List.length_insertionSort, seg_length h0 h2]
  have htl : (F.take lo.toNat).length = lo.toNat := by
    rw [List.length_take]; omega
  refine ⟨F.take lo.toNat ++ (seg F lo hi).insertionSort (fun x y => icmp x y ≤ 0)
    ++ F.drop hi.toNat, ?_, ?_, ?_, ?_⟩
  · unfold qsort_slice
    rw [if_pos ⟨h0, h1, h2⟩]
    rfl
  · rw [List.length_append, List.length_append, hsl, htl, List.length_drop]
    omega
  · apply List.ext_getElem?
    intro k
    rw [seg_getElem?]
    by_cases hk : k < (hi - lo).toNat
    · rw [if_pos hk, List.append_assoc, List.getElem?_append_right (by omega),
        List.getElem?_append_left (by omega)]
      congr 1
      omega
    · rw [if_neg hk, List.getElem?_eq_none (by omega)]
  · intro i hi1
    rcases hi1 with hl | hr
    · rw [List.append_assoc, List.getElem?_append_left (by omega), List.getElem?_take]
      rw [if_pos (by omega)]
    · rw [List.getElem?_append_right (by rw [List.length_append]; omega),
        List.length_append, hsl, htl, List.getElem?_drop]
      congr 1
      omega

theorem sort_pass_spec (N : List Int) (V : Int) (c : Int → Int)
    (hN : ∀ j, 1 ≤ j → j ≤ V + 1 → rd N j = some (c j))
    (hmono : ∀ j k, 1 ≤ j → j ≤ k → k ≤ V + 1 → c j ≤ c k) (h0 : 0 ≤ c 1) :
    ∀ (n : Nat) (a0 : Int) (F : List Int), 1 ≤ a0 → a0 ≤ V + 1 → n = (V + 1 - a0).toNat →
      (c (V + 1)).toNat ≤ F.length →
      ∃ F1, sort_pass N (from_to a0 V) F = some F1 ∧ F1.length = F.length ∧
        (∀ j, a0 ≤ j → j ≤ V → seg F1 (c j) (c (j + 1))
          = (seg F (c j) (c (j + 1))).insertionSort (fun x y => icmp x y ≤ 0)) ∧
        ∀ j, 1 ≤ j → j < a0 → seg F1 (c j) (c (j + 1)) = seg F (c j) (c (j + 1)) := by
  intro n
  induction n with
  | zero =>
    intro a0 F h1 h2 hn hF
    refine ⟨F, ?_, rfl, ?_, ?_⟩
    · rw [from_to_nil (by omega)]; rfl
    · intro j hj1 hj2; omega
    · intro j _ _; rfl
  | succ n ih =>
    intro a0 F h1 h2 hn hF
    have hlo : 0 ≤ c a0 := le_trans h0 (hmono 1 a0 (le_refl _) h1 h2)
    have hlh : c a0 ≤ c (a0 + 1) := hmono a0 (a0 + 1) h1 (by omega) (by omega)
    have hhi : (c (a0 + 1)).toNat ≤ F.length := by
      have := hmono (a0 + 1) (V + 1) (by omega) (by omega) (le_refl _)
      omega
    obtain ⟨F1, q1, q2, q3, q4⟩ := qsort_slice_some hlo hlh hhi
    obtain ⟨F2, e1, e2, e3, e4⟩ := ih (a0 + 1) F1 (by omega) (by omega) (by omega)
      (by rw [q2]; exact hF)
    refine ⟨F2, ?_, ?_, ?_, ?_⟩
    · rw [from_to_cons (by omega)]
      unfold sort_pass
      rw [hN a0 h1 h2, add_comm 1 a0, hN (a0 + 1) (by omega) (by omega)]
      simp only [q1]
      exact e1
    · rw [e2, q2]
    · intro j hj1 hj2
      by_cases hj : j = a0
      · rw [hj, e4 a0 h1 (by omega), q3]
      · rw [e3 j (by omega) hj2]
        congr 1
        apply seg_congr (le_trans hlo (hmono a0 j h1 (by omega) (by omega)))
        intro i hi1 hi2
        apply q4
        right
        have := hmono (a0 + 1) j (by omega) (by omega) (by omega)
        omega
    · intro j hj1 hj2
      rw [e4 j hj1 (by omega)]
      apply seg_congr (le_trans h0 (hmono 1 j (le_refl _) hj1 (by omega)))
      intro i hi1 hi2
      apply q4
      left
      have := hmono (j + 1) a0 (by omega) (by omega) h2
      omega


/-! ## Lemmas on undirected graphs -/

theorem arcs_false (edges : List (Int × Int)) : arcs false edges = edges := rfl

theorem arcs_true_nil : arcs true [] = [] := rfl

theorem arcs_true_cons (e : Int × Int) (edges : List (Int × Int)) :
    arcs true (e :: edges) = e :: (e.2, e.1) :: arcs true edges := by
  unfold arcs
  simp [List.flatMap_cons]

theorem arcs_true_length (edges : List (Int × Int)) :
    ((arcs true edges).length : Int) = 2 * edges.length := by
  induction edges with
  | nil => rfl
  | cons e edges ih =>
    rw [arcs_true_cons, List.length_cons, List.length_cons, List.length_cons]
    push_cast
    omega

theorem validEdges_arcs {V : Int} {edges : List (Int × Int)} (h : ValidEdges V edges)
    (u : Bool) : ValidEdges V (arcs u edges) := by
  cases u with
  | false => exact h
  | true =>
    induction edges with
    | nil => intro e he; cases he
    | cons e edges ih =>
      rw [arcs_true_cons]
      have he := h e (List.mem_cons_self _ _)
      intro x hx
      rcases List.mem_cons.1 hx with rfl | hx
      · exact he
      · rcases List.mem_cons.1 hx with rfl | hx
        · exact ⟨he.2.2.1, he.2.2.2, he.1, he.2.1⟩
        · exact ih (fun y hy => h y (List.mem_cons_of_mem _ hy)) x hx

theorem count_pass_undirected (V : Int) :
    ∀ (edges : List (Int × Int)) (N : List Int),
      count_pass true V edges N = count_pass false V (arcs true edges) N := by
  intro edges
  induction edges with
  | nil => intro N; rfl
  | cons e edges ih =>
    intro N
    obtain ⟨a, b⟩ := e
    rw [arcs_true_cons]
    rw [count_pass, count_pass]
    by_cases hc : 0 ≥ a ∨ a > V ∨ 0 ≥ b ∨ b > V
    · rw [if_pos hc, if_pos hc]
    · rw [if_neg hc, if_neg hc]
      cases h1 : rd N a with
      | none => rfl
      | some x =>
        simp only
        cases h2 : wr N a (x + 1) with
        | none => rfl
        | some N1 =>
          simp only [if_true, Bool.false_eq_true, if_false]
          rw [count_pass, if_neg (by omega)]
          cases h3 : rd N1 b with
          | none => rfl
          | some y =>
            simp only
            cases h4 : wr N1 b (y + 1) with
            | none => rfl
            | some N2 =>
              simp only [Bool.false_eq_true, if_false]
              exact ih N2

theorem fill_pass_undirected :
    ∀ (edges : List (Int × Int)) (N F : List Int),
      fill_pass true edges N F = fill_pass false (arcs true edges) N F := by
  intro edges
  induction edges with
  | nil => intro N F; rfl
  | cons e edges ih =>
    intro N F
    obtain ⟨a, b⟩ := e
    rw [arcs_true_cons]
    rw [fill_pass, fill_pass]
    cases h1 : rd N a with
    | none => rfl
    | some x =>
      simp only
      cases h2 : wr N a (x - 1) with
      | none => rfl
      | some N1 =>
        simp only
        cases h3 : wr F (x - 1) b with
        | none => rfl
        | some F1 =>
          simp only [if_true, Bool.false_eq_true, if_false]
          rw [fill_pass]
          cases h4 : rd N1 b with
          | none => rfl
          | some y =>
            simp only
            cases h5 : wr N1 b (y - 1) with
            | none => rfl
            | some N2 =>
              simp only
              cases h6 : wr F1 (y - 1) a with
              | none => rfl
              | some F2 =>
                simp only [Bool.false_eq_true, if_false]
                exact ih N2 F2


/-! ## Lemmas on the construction -/

theorem rd_replicate {n : Nat} {j : Int} (h0 : 0 ≤ j) (h1 : j.toNat < n) :
    rd (List.replicate n (0 : Int)) j = some 0 := by
  rw [rd_eq h0, List.getElem?_replicate, if_pos h1]

theorem cum_le_length (es : List (Int × Int)) (a : Int) : cum es a ≤ es.length := by
  unfold cum
  have := List.length_filter_le (fun e : Int × Int => decide (e.1 ≤ a)) es
  omega

theorem passes_spec {V : Int} {es : List (Int × Int)} (hV : 0 ≤ V) (hv : ValidEdges V es) :
    ∃ N1 N2 N3 F1 F2,
      count_pass false V es (List.replicate (2 + V).toNat 0) = some N1 ∧
      prefix_pass V N1 = some N2 ∧
      rd N2 (1 + V) = some (es.length : Int) ∧
      fill_pass false es N2 (List.replicate es.length 0) = some (N3, F1) ∧
      sort_pass N3 (from_to 1 V) F1 = some F2 ∧
      N3.length = (2 + V).toNat ∧ F2.length = es.length ∧
      (∀ j, 1 ≤ j → j ≤ V + 1 → rd N3 j = some (cum es (j - 1))) ∧
      ∀ j, 1 ≤ j → j ≤ V → seg F2 (cum es (j - 1)) (cum es j)
        = (targets es j).reverse.insertionSort (fun x y => icmp x y ≤ 0) := by
  obtain ⟨N1, c1, c2, c3⟩ := count_pass_spec V es (List.replicate (2 + V).toNat 0)
    (fun _ => 0) hv (fun j h0 h1 => rd_replicate h0 (by omega))
  obtain ⟨N2, p1, p2, p3⟩ := prefix_pass_spec hV hv
    (fun j h0 h1 => by rw [c3 j h0 h1, zero_add])
  obtain ⟨N3, F1, f1, f2, f3, f4, f5⟩ := fill_pass_spec V es hv es [] N2
    (List.replicate es.length 0) rfl (List.length_replicate _ _)
    (fun j h0 h1 => by rw [p3 j h0 h1, deg_nil, sub_zero])
    (fun j _ _ k hk => by rw [targets_nil] at hk; cases hk)
  have hN3 : ∀ j, 1 ≤ j → j ≤ V + 1 → rd N3 j = some (cum es (j - 1)) := by
    intro j h0 h1
    rw [f4 j (by omega) h1]
    congr 1
    have := cum_step es j
    omega
  have hF1 : F1.length = es.length := by rw [f3, List.length_replicate]
  obtain ⟨F2, s1, s2, s3, _⟩ := sort_pass_spec N3 V (fun j => cum es (j - 1)) hN3
    (fun j k _ hjk _ => cum_mono es (by omega)) (cum_nonneg es _) (V + 1 - 1).toNat 1 F1
    (le_refl _) (by omega) rfl
    (by
      have := cum_le_length es (V + 1 - 1)
      rw [hF1]
      show (cum es (V + 1 - 1)).toNat ≤ es.length
      omega)
  refine ⟨N1, N2, N3, F1, F2, c1, p1, ?_, f1, s1, ?_, ?_, hN3, ?_⟩
  · rw [add_comm 1 V, p3 (V + 1) (by omega) (le_refl _), cum_top hv (by omega)]
  · rw [f2, p2, c2, List.length_replicate]
  · rw [s2, hF1]
  · intro j h0 h1
    have h := s3 j h0 h1
    rw [add_sub_cancel_right] at h
    rw [h]
    congr 1
    apply seg_eq_reverse (cum_nonneg es _)
    · have := cum_step es j
      have hd : deg es j = ((targets es j).length : Int) := rfl
      omega
    · exact f5 j h0 h1

theorem build_csr_spec {V : Int} {es : List (Int × Int)} {N F : List Int} (hV : 1 ≤ V)
    (hv : ValidEdges V es) (E : Int) (hE : E = es.length)
    (hN : N.length = (2 + V).toNat) (hF : F.length = es.length)
    (hNj : ∀ j, 1 ≤ j → j ≤ V + 1 → rd N j = some (cum es (j - 1)))
    (hseg : ∀ j, 1 ≤ j → j ≤ V → seg F (cum es (j - 1)) (cum es j)
      = (targets es j).reverse.insertionSort (fun x y => icmp x y ≤ 0)) :
    rd N 1 = some 0 ∧ rd N (V + 1) = some E ∧
    ValidOffsets { V := V, E := E, N := N, F := F } ∧
    SortedSlices { V := V, E := E, N := N, F := F } ∧
    ∀ a, 1 ≤ a → a ≤ V →
      (slice { V := V, E := E, N := N, F := F } a).Perm (targets es a) := by
  have hoff : ∀ j, 1 ≤ j → j ≤ V + 1 →
      offset { V := V, E := E, N := N, F := F } j = cum es (j - 1) := by
    intro j h0 h1
    unfold offset
    rw [hNj j h0 h1]
    rfl
  have hsl : ∀ a, 1 ≤ a → a ≤ V → slice { V := V, E := E, N := N, F := F } a
      = (targets es a).reverse.insertionSort (fun x y => icmp x y ≤ 0) := by
    intro a h0 h1
    rw [slice_eq_seg, hoff a h0 (by omega), hoff (a + 1) (by omega) (by omega),
      add_sub_cancel_right]
    exact hseg a h0 h1
  refine ⟨?_, ?_, ⟨hN, ?_⟩, ?_, ?_⟩
  · rw [hNj 1 (le_refl _) (by omega), sub_self, cum_zero hv]
  · rw [hNj (V + 1) (by omega) (le_refl _), add_sub_cancel_right, cum_top hv (le_refl _), hE]
  · intro a ha
    obtain ⟨h0, h1⟩ := mem_from_to.1 ha
    have h1 : a ≤ V := h1
    rw [hoff a h0 (by omega), hoff (a + 1) (by omega) (by omega), add_sub_cancel_right]
    refine ⟨cum_nonneg es _, cum_mono es (by omega), ?_⟩
    have := cum_le_length es a
    show (cum es a).toNat ≤ F.length
    omega
  · intro a ha
    obtain ⟨h0, h1⟩ := mem_from_to.1 ha
    rw [hsl a h0 h1]
    exact sorted_icmp _
  · intro a h0 h1
    rw [hsl a h0 h1]
    exact (List.perm_insertionSort _ _).trans (List.reverse_perm _)

theorem build_csr_of_edges (is_undirected : Bool) (V : Int) (edges : List (Int × Int))
    (hV : 1 ≤ V) (hedges : ValidEdges V edges) :
    ∃ c : CSR,
      build_csr is_undirected V
        (if is_undirected then 2 * (edges.length : Int) else edges.length) edges = some c ∧
      c.V = V ∧
      c.E = (if is_undirected then 2 * (edges.length : Int) else edges.length) ∧
      rd c.N 1 = some 0 ∧ rd c.N (V + 1) = some c.E ∧
      ValidOffsets c ∧ SortedSlices c ∧
      ∀ a, 1 ≤ a → a ≤ V → (slice c a).Perm (targets (arcs is_undirected edges) a) := by
  cases is_undirected with
  | false =>
    simp only [Bool.false_eq_true, if_false]
    obtain ⟨N1, N2, N3, F1, F2, c1, p1, r1, f1, s1, hN, hF, hNj, hseg⟩ :=
      passes_spec (by omega : 0 ≤ V) hedges
    have hspec := build_csr_spec hV hedges (edges.length : Int) rfl hN hF hNj hseg
    refine ⟨{ V := V, E := edges.length, N := N3, F := F2 }, ?_, rfl, rfl, hspec⟩
    unfold build_csr
    have hEn : (edges.length : Int).toNat = edges.length := by omega
    rw [if_neg (by omega)]
    simp only [hEn, c1, ne_eq, not_true_eq_false, if_false, Bool.false_eq_true, p1, r1, f1, s1]
  | true =>
    simp only [if_true]
    have hv := validEdges_arcs hedges true
    obtain ⟨N1, N2, N3, F1, F2, c1, p1, r1, f1, s1, hN, hF, hNj, hseg⟩ :=
      passes_spec (by omega : 0 ≤ V) hv
    rw [← count_pass_undirected] at c1
    rw [← fill_pass_undirected] at f1
    have hE := arcs_true_length edges
    have hspec := build_csr_spec hV hv (2 * (edges.length : Int)) hE.symm hN hF hNj hseg
    refine ⟨{ V := V, E := 2 * (edges.length : Int), N := N3, F := F2 }, ?_, rfl, rfl, hspec⟩
    unfold build_csr
    have hEn : (2 * (edges.length : Int)).toNat = (arcs true edges).length := by omega
    have hhalf : 2 * (edges.length : Int) / 2 = edges.length := by omega
    have hr : rd N2 (1 + V) = some (2 * (edges.length : Int)) := by
      rw [r1, hE]
    rw [if_neg (by omega)]
    simp only [hEn, if_true, c1, hhalf, ne_eq, not_true_eq_false, if_false, p1, hr, f1, s1]

/-! ## Lemmas on the array of distances -/

theorem rd_dv {dist : List Int} {v : Int} (h0 : 0 ≤ v) (h1 : v.toNat < dist.length) :
    rd dist v = some (dv dist v) := by
  unfold dv
  rw [rd_of_lt h0 h1]
  rfl

theorem dv_of_rd {dist : List Int} {v x : Int} (h : rd dist v = some x) : dv dist v = x := by
  unfold dv
  rw [h]
  rfl

theorem dv_wr_same {dist dist1 : List Int} {v x : Int} (h : wr dist v x = some dist1) :
    dv dist1 v = x :=
  dv_of_rd (rd_wr_same h)

theorem dv_wr_other {dist dist1 : List Int} {v x w : Int} (h : wr dist v x = some dist1)
    (hw : w ≠ v) : dv dist1 w = dv dist w := by
  unfold dv
  rw [rd_wr_other h hw]

theorem clear_dist_spec (V : Int) :
    ∀ (n : Nat) (i0 : Int) (dist : List Int), 1 ≤ i0 → i0 ≤ V + 1 → n = (V + 1 - i0).toNat →
      (V + 1).toNat ≤ dist.length →
      ∃ dist1, clear_dist (from_to i0 V) dist = some dist1 ∧ dist1.length = dist.length ∧
        (∀ v, i0 ≤ v → v ≤ V → dv dist1 v = -1) ∧
        ∀ v, v < i0 ∨ V < v → dv dist1 v = dv dist v := by
  intro n
  induction n with
  | zero =>
    intro i0 dist h1 h2 hn hl
    refine ⟨dist, ?_, rfl, ?_, ?_⟩
    · rw [from_to_nil (by omega)]; rfl
    · intro v hv1 hv2; omega
    · intro v _; rfl
  | succ n ih =>
    intro i0 dist h1 h2 hn hl
    have hw := wr_of_lt (a := dist) (-1) (by omega : 0 ≤ i0) (by omega)
    obtain ⟨dist1, e1, e2, e3, e4⟩ := ih (i0 + 1) (dist.set i0.toNat (-1)) (by omega)
      (by omega) (by omega) (by rw [List.length_set]; exact hl)
    refine ⟨dist1, ?_, ?_, ?_, ?_⟩
    · rw [from_to_cons (by omega)]
      unfold clear_dist
      simp only [hw]
      exact e1
    · rw [e2, List.length_set]
    · intro v hv1 hv2
      by_cases hv : v = i0
      · rw [e4 v (by omega), hv]
        exact dv_wr_same hw
      · exact e3 v (by omega) hv2
    · intro v hv
      rw [e4 v (by omega)]
      exact dv_wr_other hw (by omega)

/-! ## Lemmas on the queue -/

theorem from_to_length (first last : Int) :
    (from_to first last).length = (last + 1 - first).toNat := by
  unfold from_to
  rw [List.length_map, List.length_range]

theorem length_le_of_range {Q : List Int} {V : Int} (hn : Q.Nodup)
    (hr : ∀ v ∈ Q, 1 ≤ v ∧ v ≤ V) : Q.length ≤ V.toNat := by
  have hsub : Q ⊆ from_to 1 V := fun v hv => mem_from_to.2 (hr v hv)
  have := (List.Nodup.subperm hn hsub).length_le
  rw [from_to_length] at this
  omega

theorem mem_slice_iff {c : CSR} {u : Int} (hv : ValidOffsets c) (hu : u ∈ from_to 1 c.V)
    (w : Int) :
    w ∈ slice c u ↔ ∃ i, offset c u ≤ i ∧ i < offset c (u + 1) ∧ rd c.F i = some w := by
  obtain ⟨h0, h1, h2⟩ := hv.2 u hu
  constructor
  · intro h
    obtain ⟨k, hk, hget⟩ := List.mem_iff_getElem.1 h
    have hk1 := hk
    rw [slice_length hv hu] at hk1
    refine ⟨offset c u + k, by omega, by omega, ?_⟩
    rw [rd_eq (by omega)]
    have : (offset c u + (k : Int)).toNat = (offset c u).toNat + k := by omega
    rw [this, slice_F_getElem? hv hu k hk, List.getElem?_eq_getElem hk, hget]
  · rintro ⟨i, hi1, hi2, hi3⟩
    rw [rd_eq (by omega)] at hi3
    have hk : (i - offset c u).toNat < (slice c u).length := by
      rw [slice_length hv hu]; omega
    have : i.toNat = (offset c u).toNat + (i - offset c u).toNat := by omega
    rw [this, slice_F_getElem? hv hu _ hk] at hi3
    obtain ⟨hlt, hget⟩ := List.getElem?_eq_some.1 hi3
    rw [← hget]
    exact List.getElem_mem _


theorem take_set_succ (l : List Int) (n : Nat) (a : Int) (h : n < l.length) :
    (l.set n a).take (n + 1) = l.take n ++ [a] := by
  apply List.ext_getElem?
  intro i
  have hl : (l.take n).length = n := by rw [List.length_take]; omega
  rw [List.getElem?_take]
  by_cases h1 : i < n
  · rw [if_pos (by omega), List.getElem?_set_ne (by omega), List.getElem?_append_left (by omega),
      List.getElem?_take, if_pos h1]
  · by_cases h2 : i = n
    · subst h2
      rw [if_pos (by omega), List.getElem?_set_self h,
        List.getElem?_append_right (by omega), hl, Nat.sub_self]
      rfl
    · rw [if_neg (by omega), List.getElem?_eq_none]
      rw [List.length_append, hl, List.length_singleton]
      omega

theorem queued_length {c : CSR} {source : Int} {st : BfsState} {p : Nat}
    (h : BfsInv c source st p) : (queued st).length = st.rear.toNat := by
  unfold queued
  rw [List.length_take, h.queue_len]
  have := h.rear_le
  omega

theorem rear_nonneg {c : CSR} {source : Int} {st : BfsState} {p : Nat}
    (h : BfsInv c source st p) : 0 ≤ st.rear :=
  le_trans h.front_nonneg h.front_le

theorem rd_dist {c : CSR} {source : Int} {st : BfsState} {p : Nat}
    (h : BfsInv c source st p) {v : Int} (h0 : 0 ≤ v) (h1 : v ≤ c.V) :
    rd st.dist v = some (dv st.dist v) := by
  have := h.dist_len
  exact rd_dv h0 (by omega)

theorem reach_step {c : CSR} {source u v : Int} {n : Nat} (hu : u ∈ from_to 1 c.V)
    (hr : Reach c source n u) (hv : v ∈ slice c u) : Reach c source (n + 1) v :=
  ⟨u, hu, hr, hv⟩

theorem enqueue_inv {c : CSR} {source u v : Int} {st : BfsState} {p : Nat}
    (hwf : WellFormed c) (hu : u ∈ from_to 1 c.V) (hv : v ∈ slice c u)
    (hinv : BfsInv c source st p) (hp : p ≤ (queued st).length) (hup : u ∈ queued st)
    (hb : ∀ x ∈ queued st, dv st.dist x ≤ dv st.dist u + 1)
    (hd : dv st.dist v = -1) :
    ∃ dist1 queue1, wr st.dist v (dv st.dist u + 1) = some dist1 ∧
      wr st.queue st.rear v = some queue1 ∧
      BfsInv c source { st with dist := dist1, queue := queue1, rear := st.rear + 1 } p ∧
      queued { st with dist := dist1, queue := queue1, rear := st.rear + 1 }
        = queued st ++ [v] ∧
      (∀ x, x ≠ v → dv dist1 x = dv st.dist x) ∧ dv dist1 v = dv st.dist u + 1 := by
  have hvr : 1 ≤ v ∧ v ≤ c.V := by
    have : v ∈ c.F := by
      rw [slice_eq_seg] at hv
      unfold seg at hv
      exact List.mem_of_mem_drop (List.mem_of_mem_take hv)
    exact hwf.2 v this
  have hvQ : v ∉ queued st := by
    intro hmem
    exact ((hinv.marked v hvr.1 hvr.2).2 hmem) hd
  have hQ1 : (queued st ++ [v]).length ≤ c.V.toNat := by
    apply length_le_of_range
    · rw [List.nodup_append]
      refine ⟨hinv.nodup, List.nodup_singleton v, ?_⟩
      intro x hx hx1
      rw [List.mem_singleton] at hx1
      rw [hx1] at hx
      exact hvQ hx
    · intro x hx
      rcases List.mem_append.1 hx with h | h
      · exact hinv.range x h
      · rw [List.mem_singleton] at h
        rw [h]; exact hvr
  rw [List.length_append, List.length_singleton, queued_length hinv] at hQ1
  have hr0 := rear_nonneg hinv
  have hdl := hinv.dist_len
  have hwd := wr_of_lt (a := st.dist) (dv st.dist u + 1) (by omega : 0 ≤ v) (by omega)
  have hwq := wr_of_lt (a := st.queue) v hr0 (by rw [hinv.queue_len]; omega)
  generalize hD : st.dist.set v.toNat (dv st.dist u + 1) = dist1 at hwd
  generalize hQ : st.queue.set st.rear.toNat v = queue1 at hwq
  have hq : queued { st with dist := dist1, queue := queue1, rear := st.rear + 1 }
      = queued st ++ [v] := by
    unfold queued
    show queue1.take (st.rear + 1).toNat = _
    have : (st.rear + 1).toNat = st.rear.toNat + 1 := by omega
    rw [this, ← hQ]
    exact take_set_succ _ _ _ (by rw [hinv.queue_len]; omega)
  have hother : ∀ x, x ≠ v → dv dist1 x = dv st.dist x :=
    fun x hx => dv_wr_other hwd hx
  have hsame : dv dist1 v = dv st.dist u + 1 :=
    dv_wr_same hwd
  have hneQ : ∀ x ∈ queued st, x ≠ v := by
    intro x hx hxv
    rw [hxv] at hx
    exact hvQ hx
  have hdu := (hinv.sound u hup).1
  refine ⟨_, _, hwd, hwq, ?_, hq, hother, hsame⟩
  refine ⟨?_, ?_, hinv.front_nonneg, ?_, ?_, ?_, ?_, ?_, ?_, ?_, ?_, ?_⟩
  · show (c.V + 1).toNat ≤ dist1.length
    rw [wr_length hwd]; exact hdl
  · show queue1.length = c.V.toNat
    rw [wr_length hwq]; exact hinv.queue_len
  · show st.front ≤ st.rear + 1
    have := hinv.front_le
    omega
  · show st.rear + 1 ≤ c.V
    omega
  · rw [hq, List.nodup_append]
    refine ⟨hinv.nodup, List.nodup_singleton v, ?_⟩
    intro x hx hx1
    rw [List.mem_singleton] at hx1
    exact hneQ x hx hx1
  · rw [hq]
    intro x hx
    rcases List.mem_append.1 hx with h | h
    · exact hinv.range x h
    · rw [List.mem_singleton] at h
      rw [h]; exact hvr
  · intro x hx1 hx2
    rw [hq]
    show dv dist1 x ≠ -1 ↔ _
    by_cases hxv : x = v
    · rw [hxv, hsame]
      constructor
      · intro _; exact List.mem_append_right _ (List.mem_singleton_self v)
      · intro _; omega
    · rw [hother x hxv, hinv.marked x hx1 hx2]
      constructor
      · intro h; exact List.mem_append_left _ h
      · intro h
        rcases List.mem_append.1 h with h | h
        · exact h
        · rw [List.mem_singleton] at h; exact absurd h hxv
  · show dv dist1 source = 0
    rw [hother source]
    · exact hinv.source_dist
    · intro h
      have := hinv.source_dist
      rw [h, hd] at this
      omega
  · rw [hq]
    intro x hx
    show 0 ≤ dv dist1 x ∧ Reach c source (dv dist1 x).toNat x
    rcases List.mem_append.1 hx with h | h
    · rw [hother x (hneQ x h)]
      exact hinv.sound x h
    · rw [List.mem_singleton] at h
      rw [h, hsame]
      refine ⟨by omega, ?_⟩
      have : (dv st.dist u + 1).toNat = (dv st.dist u).toNat + 1 := by omega
      rw [this]
      exact reach_step hu (hinv.sound u hup).2 hv
  · rw [hq]
    show (queued st ++ [v]).Pairwise (fun x y => dv dist1 x ≤ dv dist1 y)
    rw [List.pairwise_append]
    refine ⟨?_, List.pairwise_singleton _ _, ?_⟩
    · refine List.Pairwise.imp_of_mem ?_ hinv.sorted
      intro a b ha hb1 hab
      rw [hother a (hneQ a ha), hother b (hneQ b hb1)]
      exact hab
    · intro a ha b hb1
      rw [List.mem_singleton] at hb1
      rw [hb1, hsame, hother a (hneQ a ha)]
      exact hb a ha
  · rw [hq, List.take_append_of_le_length hp]
    intro u0 hu0 w hw
    show dv dist1 w ≠ -1 ∧ dv dist1 w ≤ dv dist1 u0 + 1
    have hcl := hinv.closed u0 hu0 w hw
    have hwv : w ≠ v := by
      intro h
      rw [h] at hcl
      exact hcl.1 hd
    rw [hother w hwv, hother u0 (hneQ u0 (List.mem_of_mem_take hu0))]
    exact hcl


/-! ## Lemmas on the scan of the adjacencies of a vertex -/

theorem mem_F_of_mem_slice {c : CSR} {u v : Int} (h : v ∈ slice c u) : v ∈ c.F := by
  rw [slice_eq_seg] at h
  unfold seg at h
  exact List.mem_of_mem_drop (List.mem_of_mem_take h)

theorem bfs_scan_spec (c : CSR) (source u : Int) (hwf : WellFormed c)
    (hu : u ∈ from_to 1 c.V) :
    ∀ (n : Nat) (i0 : Int) (st : BfsState), offset c u ≤ i0 → i0 ≤ offset c (u + 1) →
      n = (offset c (u + 1) - i0).toNat →
      BfsInv c source st (st.front - 1).toNat → 1 ≤ st.front →
      (queued st)[(st.front - 1).toNat]? = some u →
      (∀ v ∈ queued st, dv st.dist v ≤ dv st.dist u + 1) →
      (∀ i, offset c u ≤ i → i < i0 → ∀ w, rd c.F i = some w →
        dv st.dist w ≠ -1 ∧ dv st.dist w ≤ dv st.dist u + 1) →
      ∃ st1, bfs_scan c u (from_to i0 (offset c (u + 1) - 1)) st = some st1 ∧
        st1.front = st.front ∧
        BfsInv c source st1 (st1.front - 1).toNat ∧
        (queued st1)[(st1.front - 1).toNat]? = some u ∧
        (∀ v ∈ queued st1, dv st1.dist v ≤ dv st1.dist u + 1) ∧
        (∀ i, offset c u ≤ i → i < offset c (u + 1) → ∀ w, rd c.F i = some w →
          dv st1.dist w ≠ -1 ∧ dv st1.dist w ≤ dv st1.dist u + 1) := by
  obtain ⟨hu1, hu2⟩ := mem_from_to.1 hu
  obtain ⟨ho0, ho1, ho2⟩ := hwf.1.2 u hu
  intro n
  induction n with
  | zero =>
    intro i0 st h1 h2 hn hinv hf hq hb hs
    refine ⟨st, ?_, rfl, hinv, hq, hb, ?_⟩
    · rw [from_to_nil (by omega)]; rfl
    · intro i hi1 hi2
      exact hs i hi1 (by omega)
  | succ n ih =>
    intro i0 st h1 h2 hn hinv hf hq hb hs
    obtain ⟨v, hF⟩ : ∃ v, rd c.F i0 = some v :=
      ⟨_, rd_of_lt (by omega : 0 ≤ i0) (by omega : i0.toNat < c.F.length)⟩
    have hvs : v ∈ slice c u := (mem_slice_iff hwf.1 hu v).2 ⟨i0, h1, by omega, hF⟩
    have hvr := hwf.2 v (mem_F_of_mem_slice hvs)
    have hrv := rd_dist hinv (by omega : 0 ≤ v) hvr.2
    have hru := rd_dist hinv (by omega : 0 ≤ u) hu2
    have hlen := queued_length hinv
    have huQ : u ∈ queued st := by
      obtain ⟨hlt, hget⟩ := List.getElem?_eq_some.1 hq
      rw [← hget]
      exact List.getElem_mem _
    have hk : (st.front - 1).toNat < (queued st).length :=
      (List.getElem?_eq_some.1 hq).1
    rw [from_to_cons (by omega), bfs_scan]
    simp only [hF, hrv]
    by_cases hd : dv st.dist v = -1
    · rw [if_pos hd]
      obtain ⟨dist1, queue1, w1, w2, i1, i2, i3, i4⟩ :=
        enqueue_inv hwf hu hvs hinv (le_of_lt hk) huQ hb hd
      simp only [hru, w1, w2]
      have huv : u ≠ v := by
        intro h
        have := (hinv.sound u huQ).1
        rw [h, hd] at this
        omega
      exact ih (i0 + 1) _ (by omega) (by omega) (by omega) i1 hf
        (by rw [i2, List.getElem?_append_left hk]; exact hq)
        (by
          intro x hx
          show dv dist1 x ≤ dv dist1 u + 1
          rw [i2] at hx
          rw [i3 u huv]
          rcases List.mem_append.1 hx with h | h
          · have hxv : x ≠ v := by
              intro e
              rw [e] at h
              exact ((hinv.marked v hvr.1 hvr.2).2 h) hd
            rw [i3 x hxv]
            exact hb x h
          · rw [List.mem_singleton] at h
            rw [h, i4])
        (by
          intro i hi1 hi2 w hw
          show dv dist1 w ≠ -1 ∧ dv dist1 w ≤ dv dist1 u + 1
          rw [i3 u huv]
          by_cases hi : i = i0
          · rw [hi, hF] at hw
            cases hw
            rw [i4]
            have := (hinv.sound u huQ).1
            exact ⟨by omega, le_refl _⟩
          · have hp := hs i hi1 (by omega) w hw
            have hwv : w ≠ v := by
              intro e
              rw [e] at hp
              exact hp.1 hd
            rw [i3 w hwv]
            exact hp)
    · rw [if_neg hd]
      exact ih (i0 + 1) st (by omega) (by omega) (by omega) hinv hf hq hb
        (by
          intro i hi1 hi2 w hw
          by_cases hi : i = i0
          · rw [hi, hF] at hw
            cases hw
            exact ⟨hd, hb v ((hinv.marked v hvr.1 hvr.2).1 hd)⟩
          · exact hs i hi1 (by omega) w hw)


/-! ## Lemmas on the loop of `bfs` -/

theorem pairwise_lt_getElem? {R : Int → Int → Prop} {l : List Int} (h : l.Pairwise R)
    {i j : Nat} {x y : Int} (hij : i < j) (hi : l[i]? = some x) (hj : l[j]? = some y) :
    R x y := by
  obtain ⟨hi1, hi2⟩ := List.getElem?_eq_some.1 hi
  obtain ⟨hj1, hj2⟩ := List.getElem?_eq_some.1 hj
  rw [← hi2, ← hj2]
  exact List.pairwise_iff_getElem.1 h i j hi1 hj1 hij

theorem bfs_loop_spec (c : CSR) (source : Int) (hwf : WellFormed c) :
    ∀ (fuel : Nat) (st : BfsState), (c.V - st.front).toNat ≤ fuel →
      BfsInv c source st st.front.toNat →
      (∀ u, (queued st)[st.front.toNat]? = some u →
        ∀ v ∈ queued st, dv st.dist v ≤ dv st.dist u + 1) →
      ∃ st1, bfs_loop c fuel st = some st1 ∧ st1.front = st1.rear ∧
        BfsInv c source st1 st1.front.toNat := by
  intro fuel
  induction fuel with
  | zero =>
    intro st hf hinv _
    have h1 := hinv.front_le
    have h2 := hinv.rear_le
    refine ⟨st, ?_, by omega, hinv⟩
    unfold bfs_loop
    rw [if_neg (by omega)]
  | succ fuel ih =>
    intro st hf hinv hb
    have h1 := hinv.front_le
    have h2 := hinv.rear_le
    have h3 := hinv.front_nonneg
    unfold bfs_loop
    by_cases hlt : st.front < st.rear
    · rw [if_pos hlt]
      have hlen := queued_length hinv
      have hfl : st.front.toNat < st.queue.length := by rw [hinv.queue_len]; omega
      obtain ⟨u, hru⟩ : ∃ u, rd st.queue st.front = some u := ⟨_, rd_of_lt h3 hfl⟩
      have hqu : (queued st)[st.front.toNat]? = some u := by
        unfold queued
        rw [List.getElem?_take, if_pos (by omega), ← rd_eq h3]
        exact hru
      have huQ : u ∈ queued st := by
        obtain ⟨hlt1, hget⟩ := List.getElem?_eq_some.1 hqu
        rw [← hget]
        exact List.getElem_mem _
      have hur := hinv.range u huQ
      have hu : u ∈ from_to 1 c.V := mem_from_to.2 hur
      have hinv0 : BfsInv c source { st with front := st.front + 1 }
          (st.front + 1 - 1).toNat := by
        rw [add_sub_cancel_right]
        exact ⟨hinv.dist_len, hinv.queue_len, by show 0 ≤ st.front + 1; omega,
          by show st.front + 1 ≤ st.rear; omega, hinv.rear_le, hinv.nodup, hinv.range,
          hinv.marked, hinv.source_dist, hinv.sound, hinv.sorted, hinv.closed⟩
      obtain ⟨st1, s1, s2, s3, s4, s5, s6⟩ := bfs_scan_spec c source u hwf hu
        (offset c (u + 1) - offset c u).toNat (offset c u) { st with front := st.front + 1 }
        (le_refl _) (hwf.1.2 u hu).2.1 rfl hinv0 (by show 1 ≤ st.front + 1; omega)
        (by
          show (queued st)[(st.front + 1 - 1).toNat]? = some u
          rw [add_sub_cancel_right]
          exact hqu)
        (hb u hqu)
        (by intro i hi1 hi2; omega)
      have hf1 : st1.front = st.front + 1 := s2
      rw [hf1, add_sub_cancel_right] at s3 s4
      have hinv1 : BfsInv c source st1 st1.front.toNat := by
        refine ⟨s3.dist_len, s3.queue_len, s3.front_nonneg, s3.front_le, s3.rear_le, s3.nodup,
          s3.range, s3.marked, s3.source_dist, s3.sound, s3.sorted, ?_⟩
        intro u0 hu0 w hw
        have : st1.front.toNat = st.front.toNat + 1 := by omega
        rw [this, List.take_succ, s4, List.mem_append] at hu0
        rcases hu0 with h | h
        · exact s3.closed u0 h w hw
        · have hu0u : u0 = u := by simpa using h
          rw [hu0u] at hw ⊢
          obtain ⟨i, hi1, hi2, hi3⟩ := (mem_slice_iff hwf.1 hu w).1 hw
          exact s6 i hi1 hi2 w hi3
      obtain ⟨st2, l1, l2, l3⟩ := ih st1 (by omega) hinv1
        (by
          intro u1 hu1 v hv
          have hle : dv st1.dist u ≤ dv st1.dist u1 :=
            pairwise_lt_getElem? s3.sorted
              (by omega : st.front.toNat < st1.front.toNat) s4 hu1
          have := s5 v hv
          omega)
      refine ⟨st2, ?_, l2, l3⟩
      rw [hru]
      simp only [rd_N_offset hwf.1 (by omega : 0 ≤ u) (by omega : u ≤ c.V + 1),
        rd_N_offset hwf.1 (by omega : 0 ≤ u + 1) (by omega : u + 1 ≤ c.V + 1), s1]
      exact l1
    · rw [if_neg hlt]
      exact ⟨st, rfl, by omega, hinv⟩

theorem bfs_run_spec (c : CSR) (source : Int) (dist : List Int) (hwf : WellFormed c)
    (hs1 : 1 ≤ source) (hs2 : source ≤ c.V) (hd : (c.V + 1).toNat ≤ dist.length) :
    ∃ st, bfs_run c source dist = some st ∧ st.front = st.rear ∧
      BfsInv c source st st.front.toNat := by
  obtain ⟨dist1, e1, e2, e3, e4⟩ := clear_dist_spec c.V (c.V + 1 - 1).toNat 1 dist
    (le_refl _) (by omega) rfl hd
  have hwd := wr_of_lt (a := dist1) 0 (by omega : 0 ≤ source) (by omega)
  have hwq := wr_of_lt (a := List.replicate c.V.toNat (0 : Int)) source (le_refl 0)
    (by rw [List.length_replicate]; omega)
  generalize hD : dist1.set source.toNat 0 = dist2 at hwd
  generalize hQ : (List.replicate c.V.toNat (0 : Int)).set (0 : Int).toNat source = queue at hwq
  have hq : queued { dist := dist2, queue := queue, front := 0, rear := 1 } = [source] := by
    unfold queued
    show queue.take 1 = [source]
    rw [← hQ]
    have h := take_set_succ (List.replicate c.V.toNat (0 : Int)) 0 source
      (by rw [List.length_replicate]; omega)
    exact h
  have hsd : dv dist2 source = 0 := dv_wr_same hwd
  have hinv : BfsInv c source { dist := dist2, queue := queue, front := 0, rear := 1 } 0 := by
    refine ⟨?_, ?_, le_refl _, by show (0 : Int) ≤ 1; omega, hs1.trans hs2, ?_, ?_, ?_, hsd,
      ?_, ?_, ?_⟩
    · show (c.V + 1).toNat ≤ dist2.length
      rw [wr_length hwd, e2]; exact hd
    · show queue.length = c.V.toNat
      rw [wr_length hwq, List.length_replicate]
    · rw [hq]; exact List.nodup_singleton _
    · rw [hq]
      intro v hv
      rw [List.mem_singleton] at hv
      rw [hv]; exact ⟨hs1, hs2⟩
    · intro v hv1 hv2
      rw [hq, List.mem_singleton]
      show dv dist2 v ≠ -1 ↔ _
      by_cases hv : v = source
      · rw [hv, hsd]
        constructor
        · intro _; rfl
        · intro _; omega
      · rw [dv_wr_other hwd hv, e3 v hv1 hv2]
        constructor
        · intro h; exact absurd rfl h
        · intro h; exact absurd h hv
    · rw [hq]
      intro v hv
      rw [List.mem_singleton] at hv
      show 0 ≤ dv dist2 v ∧ Reach c source (dv dist2 v).toNat v
      rw [hv, hsd]
      exact ⟨le_refl _, rfl⟩
    · rw [hq]; exact List.pairwise_singleton _ _
    · intro u hu
      rw [List.take_zero] at hu
      cases hu
  obtain ⟨st, l1, l2, l3⟩ := bfs_loop_spec c source hwf c.V.toNat
    { dist := dist2, queue := queue, front := 0, rear := 1 }
    (by show (c.V - 0).toNat ≤ c.V.toNat; omega) hinv
    (by
      intro u hu v hv
      rw [hq] at hu hv
      rw [List.mem_singleton] at hv
      have hu1 : u = source := by
        have : [source][0]? = some source := rfl
        change [source][0]? = some u at hu
        rw [this] at hu
        exact (Option.some.inj hu).symm
      show dv dist2 v ≤ dv dist2 u + 1
      rw [hv, hu1]
      omega)
  refine ⟨st, ?_, l2, l3⟩
  unfold bfs_run
  rw [if_neg (by omega), e1]
  simp only [hwd, hwq]
  exact l1


/-! ## Lemmas on the result of `bfs` -/

theorem bfs_complete {c : CSR} {source : Int} {st : BfsState} (hwf : WellFormed c)
    (hs1 : 1 ≤ source) (hs2 : source ≤ c.V) (hinv : BfsInv c source st st.front.toNat)
    (hend : st.front = st.rear) :
    ∀ (n : Nat) (v : Int), Reach c source n v → v ∈ queued st ∧ dv st.dist v ≤ n := by
  have htake : (queued st).take st.front.toNat = queued st := by
    rw [hend, ← queued_length hinv, List.take_length]
  intro n
  induction n with
  | zero =>
    intro v hv
    have hv1 : v = source := hv
    rw [hv1]
    refine ⟨(hinv.marked source hs1 hs2).1 ?_, ?_⟩
    · rw [hinv.source_dist]; omega
    · rw [hinv.source_dist]; rfl
  | succ n ih =>
    intro v hv
    obtain ⟨u, hu, hr, hvs⟩ := hv
    obtain ⟨huQ, hdu⟩ := ih u hr
    have hcl := hinv.closed u (by rw [htake]; exact huQ) v hvs
    have hvr := hwf.2 v (mem_F_of_mem_slice hvs)
    refine ⟨(hinv.marked v hvr.1 hvr.2).1 hcl.1, ?_⟩
    push_cast
    omega

/-- C19 (BFS distances): for a well-formed graph, a source in `1..V` and an
array `dist` of at least `V + 1` elements, `bfs` returns, `dist[source]` is 0,
and for every vertex `v` in `1..V` the value `dist[v]` is either -1, and then
no directed path leads from the source to `v`, or the number of edges of a
directed path from the source to `v`, and then no such path has fewer
edges. -/
theorem C19_bfs_distances (c : CSR) (source : Int) (dist : List Int) (hwf : WellFormed c)
    (hs1 : 1 ≤ source) (hs2 : source ≤ c.V) (hd : (c.V + 1).toNat ≤ dist.length) :
    ∃ dist1, bfs c source dist = some dist1 ∧ rd dist1 source = some 0 ∧
      ∀ v, 1 ≤ v → v ≤ c.V →
        ∃ d, rd dist1 v = some d ∧
          ((d = -1 ∧ ∀ n, ¬ Reach c source n v) ∨
           (0 ≤ d ∧ Reach c source d.toNat v ∧ ∀ n : Nat, Reach c source n v → d ≤ n)) := by
  obtain ⟨st, hrun, hend, hinv⟩ := bfs_run_spec c source dist hwf hs1 hs2 hd
  have hcomp := bfs_complete hwf hs1 hs2 hinv hend
  refine ⟨st.dist, ?_, ?_, ?_⟩
  · unfold bfs
    rw [hrun]
    rfl
  · rw [rd_dist hinv (by omega) hs2, hinv.source_dist]
  · intro v hv1 hv2
    refine ⟨dv st.dist v, rd_dist hinv (by omega) hv2, ?_⟩
    by_cases hm : dv st.dist v = -1
    · left
      refine ⟨hm, ?_⟩
      intro n hr
      exact ((hinv.marked v hv1 hv2).2 (hcomp n v hr).1) hm
    · right
      have hQ := (hinv.marked v hv1 hv2).1 hm
      exact ⟨(hinv.sound v hQ).1, (hinv.sound v hQ).2, fun n hr => (hcomp n v hr).2⟩

/-- C20 (BFS queue bounds and termination): for a well-formed graph, a source
in `1..V` and an array `dist` of at least `V + 1` elements, `bfs` runs to the
end of its loop with every array access in range and within `V` iterations of
the loop; at the end the queue, which has `V` elements, is empty
(`front = rear`), `rear` is at most `V`, and the vertices that have been put in
the queue are distinct vertices in `1..V`. -/
theorem C20_bfs_queue_bounds (c : CSR) (source : Int) (dist : List Int) (hwf : WellFormed c)
    (hs1 : 1 ≤ source) (hs2 : source ≤ c.V) (hd : (c.V + 1).toNat ≤ dist.length) :
    ∃ st, bfs_run c source dist = some st ∧
      st.queue.length = c.V.toNat ∧ st.front = st.rear ∧ 0 ≤ st.front ∧ st.rear ≤ c.V ∧
      (queued st).length = st.rear.toNat ∧ (queued st).Nodup ∧
      ∀ v ∈ queued st, 1 ≤ v ∧ v ≤ c.V := by
  obtain ⟨st, hrun, hend, hinv⟩ := bfs_run_spec c source dist hwf hs1 hs2 hd
  exact ⟨st, hrun, hinv.queue_len, hend, hinv.front_nonneg, hinv.rear_le, queued_length hinv,
    hinv.nodup, hinv.range⟩


/-- Witness of C19 on the example graph with source 2: the distances that
`bfs` computes, and two consequences of the theorem: no path leads to vertex
5, and every path to vertex 4 has at least one edge. -/
theorem C19_bfs_distances_witness :
    WellFormed sample_csr ∧
    bfs sample_csr 2 (List.replicate 6 0) = some [0, 1, 0, 1, 1, -1] ∧
    (∀ n, ¬ Reach sample_csr 2 n 5) ∧
    (∀ n : Nat, Reach sample_csr 2 n 4 → (1 : Int) ≤ n) := by
  obtain ⟨dist1, h, _, hall⟩ := C19_bfs_distances sample_csr 2 (List.replicate 6 0)
    (by decide) (by decide) (by decide) (by decide)
  have hb : bfs sample_csr 2 (List.replicate 6 0) = some [0, 1, 0, 1, 1, -1] := by decide
  have hd : dist1 = [0, 1, 0, 1, 1, -1] := Option.some.inj (h.symm.trans hb)
  subst hd
  refine ⟨by decide, hb, ?_, ?_⟩
  · obtain ⟨d, hd, hcase⟩ := hall 5 (by decide) (by decide)
    have hd1 : d = -1 :=
      (Option.some.inj (hd.symm.trans (by decide : rd [0, 1, 0, 1, 1, -1] 5 = some (-1))))
    rcases hcase with h1 | h1
    · exact h1.2
    · omega
  · obtain ⟨d, hd, hcase⟩ := hall 4 (by decide) (by decide)
    have hd1 : d = 1 :=
      (Option.some.inj (hd.symm.trans (by decide : rd [0, 1, 0, 1, 1, -1] 4 = some 1)))
    rcases hcase with h1 | h1
    · omega
    · rw [hd1] at h1
      exact h1.2.2

/-- Witness of C20 on the example graph with source 2: the final state of
`bfs`, with four vertices put in the queue of five elements. -/
theorem C20_bfs_queue_bounds_witness :
    WellFormed sample_csr ∧
    bfs_run sample_csr 2 (List.replicate 6 0)
      = some { dist := [0, 1, 0, 1, 1, -1], queue := [2, 1, 3, 4, 0], front := 4, rear := 4 } ∧
    (queued { dist := [0, 1, 0, 1, 1, -1], queue := [2, 1, 3, 4, 0], front := 4, rear := 4 }).Nodup
    := by
  obtain ⟨st, h, _, _, _, _, _, hn, _⟩ := C20_bfs_queue_bounds sample_csr 2
    (List.replicate 6 0) (by decide) (by decide) (by decide) (by decide)
  have hb : bfs_run sample_csr 2 (List.replicate 6 0)
      = some { dist := [0, 1, 0, 1, 1, -1], queue := [2, 1, 3, 4, 0], front := 4, rear := 4 } := by
    decide
  have hs := Option.some.inj (h.symm.trans hb)
  subst hs
  exact ⟨by decide, hb, hn⟩


/-- C17 as stated fails for an undirected graph: with `V = 1` and an edge list
of 2^30 pairs `(1, 1)`, a number that `s2i` accepts, the statement
`CSR.E *= 2` overflows the type `int` (the doubled number 2^31 is not a value
of type `int`; the variable is left with -2^31), and `main` ends without a
CSR. -/
theorem C17_counterexample :
    ValidEdges 1 (List.replicate 1073741824 ((1 : Int), (1 : Int))) ∧
    ((List.replicate 1073741824 ((1 : Int), (1 : Int))).length : Int) = 1073741824 ∧
    (0 : Int) < 1073741824 ∧ (1073741824 : Int) < 2147483647 ∧
    stored_E true 1073741824 = -2147483648 ∧
    main_csr true 1 1073741824 (List.replicate 1073741824 ((1 : Int), (1 : Int))) = none := by
  have hE : stored_E true 1073741824 = -2147483648 := by decide
  refine ⟨?_, ?_, by decide, by decide, hE, ?_⟩
  · intro e he
    rw [List.eq_of_mem_replicate he]
    decide
  · rw [List.length_replicate]
    rfl
  · unfold main_csr build_csr
    rw [hE, if_pos (by decide)]

/-- C17 (CSR construction), amended: for `V >= 1` and an edge list of `E`
pairs that name vertices in `1..V`, where for an undirected graph the doubled
number `2 * E` is at most `INT_MAX`, the part of `main` from the doubling of
`E` to the sorting ends and leaves `N[1] = 0`, `N[V+1] = E` (the doubled number
for an undirected graph), offsets that do not decrease and delimit parts of
`F`, and for every vertex `a` an adjacency slice that is sorted ascending and
holds, with multiplicity, the targets of the edges that leave `a`; for an
undirected graph the edges are those of the list and their reverses. -/
theorem C17_build_csr (is_undirected : Bool) (V : Int) (edges : List (Int × Int))
    (hV : 1 ≤ V) (hedges : ValidEdges V edges)
    (hE : is_undirected = true → 2 * (edges.length : Int) ≤ 2147483647) :
    ∃ c : CSR,
      main_csr is_undirected V edges.length edges = some c ∧
      c.V = V ∧
      c.E = (if is_undirected then 2 * (edges.length : Int) else edges.length) ∧
      rd c.N 1 = some 0 ∧ rd c.N (V + 1) = some c.E ∧
      ValidOffsets c ∧ SortedSlices c ∧
      ∀ a, 1 ≤ a → a ≤ V → (slice c a).Perm (targets (arcs is_undirected edges) a) := by
  have hst : stored_E is_undirected edges.length
      = (if is_undirected then 2 * (edges.length : Int) else edges.length) := by
    cases is_undirected with
    | false =>
      unfold stored_E
      simp only [Bool.false_eq_true, if_false]
    | true =>
      have := hE rfl
      unfold stored_E wrap_int
      simp only [if_true]
      omega
  unfold main_csr
  rw [hst]
  exact build_csr_of_edges is_undirected V edges hV hedges

/-- Witness of C17 on the example graph: `main` builds `sample_csr` from the
edge list, and the theorem gives its properties; and on an undirected graph
with 3 vertices and the 2 edges `(1, 2)` and `(2, 3)`, where `main` stores
`E = 4`. -/
theorem C17_build_csr_witness :
    (ValidEdges 5 sample_edges ∧
      main_csr false 5 6 sample_edges = some sample_csr ∧
      rd sample_csr.N 1 = some 0 ∧ rd sample_csr.N 6 = some 6 ∧
      ValidOffsets sample_csr ∧ SortedSlices sample_csr ∧
      (slice sample_csr 2).Perm (targets sample_edges 2)) ∧
    (ValidEdges 3 [(1, 2), (2, 3)] ∧
      main_csr true 3 2 [(1, 2), (2, 3)]
        = some { V := 3, E := 4, N := [0, 0, 1, 3, 4], F := [2, 1, 3, 2] } ∧
      (slice { V := 3, E := 4, N := [0, 0, 1, 3, 4], F := [2, 1, 3, 2] } 2).Perm
        (targets (arcs true [(1, 2), (2, 3)]) 2)) := by
  constructor
  · obtain ⟨c, h, _, _, h1, h2, h3, h4, h5⟩ :=
      C17_build_csr false 5 sample_edges (by decide) (by decide) (by decide)
    have hc : c = sample_csr := Option.some.inj (h.symm.trans (by decide))
    subst hc
    exact ⟨by decide, by decide, h1, h2, h3, h4, h5 2 (by decide) (by decide)⟩
  · obtain ⟨c, h, _, _, _, _, _, _, h5⟩ :=
      C17_build_csr true 3 [(1, 2), (2, 3)] (by decide) (by decide) (by decide)
    have hb : main_csr true 3 2 [(1, 2), (2, 3)]
        = some { V := 3, E := 4, N := [0, 0, 1, 3, 4], F := [2, 1, 3, 2] } := by decide
    have hc := Option.some.inj (h.symm.trans hb)
    subst hc
    exact ⟨by decide, hb, h5 2 (by decide) (by decide)⟩

end CSRF
